import Mathlib

/-!
# Verification of the better-svg JSX ↔ SVG transcoder

Shallow embedding of the transcoding core (`encodeJsx`, `decodeJsx`,
`jsxToSvgAttributeMap`, `svgToJsxAttributeMap`, `isJsxSvg`,
`replaceJsxExpressions`, `convertJsxToSvg`, `convertSvgToJsx`,
`prepareForOptimization`, `finalizeAfterOptimization`).

Text is modelled as `List Char`; bytes as `Nat` (each < 256).  JavaScript
regular-expression passes are embedded as explicit left-to-right scanners
with the same matching semantics (word boundaries, greedy / lazy repetition,
global replacement that never rescans replacement text and resumes after the
matched span of the original text).
-/

namespace BetterSvg

/-- JS `\w` word character: `[A-Za-z0-9_]`. -/
def isWordChar (c : Char) : Bool :=
  c.isAlphanum || c = '_'

/-- ASCII upper-case letter `[A-Z]`. -/
def isUpperAZ (c : Char) : Bool :=
  'A' ≤ c && c ≤ 'Z'

/-! ## Base64 (Node `Buffer` semantics) -/

/-- The standard base64 alphabet used by `Buffer.toString('base64')`. -/
def b64Alphabet : List Char :=
  "ABCDEFGHIJKLMNOPQRSTUVWXYZabcdefghijklmnopqrstuvwxyz0123456789+/".data

/-- Character for a 6-bit value. -/
def b64Char (v : Nat) : Char :=
  b64Alphabet.getD v 'A'

/-- Node's forgiving decode table: standard and url-safe alphabets are both
accepted; any other character (including `=`) yields `none` and is skipped
by the decoder. -/
def b64CharVal (c : Char) : Option Nat :=
  if 'A' ≤ c ∧ c ≤ 'Z' then some (c.toNat - 65)
  else if 'a' ≤ c ∧ c ≤ 'z' then some (c.toNat - 97 + 26)
  else if '0' ≤ c ∧ c ≤ '9' then some (c.toNat - 48 + 52)
  else if c = '+' ∨ c = '-' then some 62
  else if c = '/' ∨ c = '_' then some 63
  else none

/-- Base64-encode a byte list, three bytes to four characters, padding with
`=` as `Buffer.toString('base64')` does. -/
def b64Encode : List Nat → List Char
  | b0 :: b1 :: b2 :: rest =>
      b64Char (b0 / 4) :: b64Char (b0 % 4 * 16 + b1 / 16) ::
      b64Char (b1 % 16 * 4 + b2 / 64) :: b64Char (b2 % 64) :: b64Encode rest
  | [b0, b1] =>
      [b64Char (b0 / 4), b64Char (b0 % 4 * 16 + b1 / 16), b64Char (b1 % 16 * 4), '=']
  | [b0] =>
      [b64Char (b0 / 4), b64Char (b0 % 4 * 16), '=', '=']
  | [] => []

/-- Repack a list of 6-bit values into bytes, discarding trailing bits, as
Node's decoder does. -/
def b64Pack : List Nat → List Nat
  | v0 :: v1 :: v2 :: v3 :: rest =>
      (v0 * 4 + v1 / 16) :: (v1 % 16 * 16 + v2 / 4) :: (v2 % 4 * 64 + v3) :: b64Pack rest
  | [v0, v1, v2] => [v0 * 4 + v1 / 16, v1 % 16 * 16 + v2 / 4]
  | [v0, v1] => [v0 * 4 + v1 / 16]
  | _ => []

/-- `Buffer.from(s, 'base64')`: skip characters outside the forgiving
table, then repack the remaining 6-bit values. -/
def b64Decode (s : List Char) : List Nat :=
  b64Pack (s.filterMap b64CharVal)

/-! ## UTF-8 -/

/-- UTF-8 encoding of one unicode scalar value (`Buffer.from(string)` uses
UTF-8). -/
def utf8EncodeChar (c : Char) : List Nat :=
  if c.toNat < 0x80 then [c.toNat]
  else if c.toNat < 0x800 then [0xC0 + c.toNat / 64, 0x80 + c.toNat % 64]
  else if c.toNat < 0x10000 then
    [0xE0 + c.toNat / 4096, 0x80 + c.toNat / 64 % 64, 0x80 + c.toNat % 64]
  else
    [0xF0 + c.toNat / 0x40000, 0x80 + c.toNat / 4096 % 64,
     0x80 + c.toNat / 64 % 64, 0x80 + c.toNat % 64]

/-- UTF-8 encoding of a string. -/
def utf8Encode (s : List Char) : List Nat :=
  s.flatMap utf8EncodeChar

/-- Is `b` a UTF-8 continuation byte `10xxxxxx`? -/
def isCont (b : Nat) : Bool :=
  0x80 ≤ b && b < 0xC0

/-- One step of UTF-8 decoding: given the first byte and the rest,
return the decoded character (U+FFFD for malformed input) and how many
additional bytes beyond the first were consumed. -/
def utf8Step (b : Nat) (bs : List Nat) : Char × Nat :=
  if b < 0x80 then (Char.ofNat b, 0)
  else if 0xC2 ≤ b ∧ b < 0xE0 then
    if 1 ≤ bs.length ∧ isCont (bs.getD 0 0) then
      (Char.ofNat ((b - 0xC0) * 64 + (bs.getD 0 0 - 0x80)), 1)
    else ('�', 0)
  else if 0xE0 ≤ b ∧ b < 0xF0 then
    if 2 ≤ bs.length ∧ isCont (bs.getD 0 0) ∧ isCont (bs.getD 1 0) ∧
        0x800 ≤ (b - 0xE0) * 4096 + (bs.getD 0 0 - 0x80) * 64 + (bs.getD 1 0 - 0x80) ∧
        ¬ (0xD800 ≤ (b - 0xE0) * 4096 + (bs.getD 0 0 - 0x80) * 64 + (bs.getD 1 0 - 0x80) ∧
           (b - 0xE0) * 4096 + (bs.getD 0 0 - 0x80) * 64 + (bs.getD 1 0 - 0x80) ≤ 0xDFFF) then
      (Char.ofNat ((b - 0xE0) * 4096 + (bs.getD 0 0 - 0x80) * 64 + (bs.getD 1 0 - 0x80)), 2)
    else ('�', 0)
  else if 0xF0 ≤ b ∧ b < 0xF5 then
    if 3 ≤ bs.length ∧ isCont (bs.getD 0 0) ∧ isCont (bs.getD 1 0) ∧ isCont (bs.getD 2 0) ∧
        0x10000 ≤ (b - 0xF0) * 0x40000 + (bs.getD 0 0 - 0x80) * 4096 +
          (bs.getD 1 0 - 0x80) * 64 + (bs.getD 2 0 - 0x80) ∧
        (b - 0xF0) * 0x40000 + (bs.getD 0 0 - 0x80) * 4096 +
          (bs.getD 1 0 - 0x80) * 64 + (bs.getD 2 0 - 0x80) < 0x110000 then
      (Char.ofNat ((b - 0xF0) * 0x40000 + (bs.getD 0 0 - 0x80) * 4096 +
        (bs.getD 1 0 - 0x80) * 64 + (bs.getD 2 0 - 0x80)), 3)
    else ('�', 0)
  else ('�', 0)

/-- Fuelled UTF-8 decoding loop; each step consumes at least one byte, so
fuel equal to the byte count always suffices (kernel-computable structural
recursion). -/
def utf8DecodeF : Nat → List Nat → List Char
  | 0, _ => []
  | _ + 1, [] => []
  | fuel + 1, b :: bs => (utf8Step b bs).1 :: utf8DecodeF fuel (bs.drop (utf8Step b bs).2)

/-- Total UTF-8 decoder in the style of `buffer.toString('utf-8')`:
well-formed sequences decode exactly, malformed bytes yield U+FFFD. -/
def utf8Decode (l : List Nat) : List Char :=
  utf8DecodeF l.length l

/-! ## Payload codec (`encodeJsx` / `decodeJsx`) -/

/-- The source's first envelope constant, the literal `'__JSX_BASE64__'`. -/
def BASE64_HEAD : List Char := "__JSX_BASE64__".data

/-- The source's second envelope constant, the literal `'__'`. -/
def BASE64_TAIL : List Char := "__".data

/-- `encodeJsx`: `BASE64_HEAD + Buffer.from(content).toString('base64') + BASE64_TAIL`. -/
def encodeJsx (content : List Char) : List Char :=
  BASE64_HEAD ++ b64Encode (utf8Encode content) ++ BASE64_TAIL

/-- `decodeJsx`: strip the envelope and base64-decode, or return `null`
(modelled as `none`) when the envelope does not match.  `content.slice(14, -2)`
is the list with the first 14 and last 2 characters removed. -/
def decodeJsx (content : List Char) : Option (List Char) :=
  if BASE64_HEAD.isPrefixOf content ∧ BASE64_TAIL.isSuffixOf content then
    let mid := content.drop BASE64_HEAD.length
    some (utf8Decode (b64Decode (mid.take (mid.length - BASE64_TAIL.length))))
  else
    none

/-! ## Attribute dictionary -/

/-- `jsxToSvgAttributeMap`, in source (insertion) order. -/
def jsxSvgPairs : List (List Char × List Char) :=
  [("strokeWidth".data, "stroke-width".data),
   ("strokeLinecap".data, "stroke-linecap".data),
   ("strokeLinejoin".data, "stroke-linejoin".data),
   ("strokeDasharray".data, "stroke-dasharray".data),
   ("strokeDashoffset".data, "stroke-dashoffset".data),
   ("strokeMiterlimit".data, "stroke-miterlimit".data),
   ("strokeOpacity".data, "stroke-opacity".data),
   ("fillOpacity".data, "fill-opacity".data),
   ("fillRule".data, "fill-rule".data),
   ("clipPath".data, "clip-path".data),
   ("clipRule".data, "clip-rule".data),
   ("fontFamily".data, "font-family".data),
   ("fontSize".data, "font-size".data),
   ("fontStyle".data, "font-style".data),
   ("fontWeight".data, "font-weight".data),
   ("textAnchor".data, "text-anchor".data),
   ("textDecoration".data, "text-decoration".data),
   ("dominantBaseline".data, "dominant-baseline".data),
   ("alignmentBaseline".data, "alignment-baseline".data),
   ("baselineShift".data, "baseline-shift".data),
   ("stopColor".data, "stop-color".data),
   ("stopOpacity".data, "stop-opacity".data),
   ("colorInterpolation".data, "color-interpolation".data),
   ("colorInterpolationFilters".data, "color-interpolation-filters".data),
   ("floodColor".data, "flood-color".data),
   ("floodOpacity".data, "flood-opacity".data),
   ("lightingColor".data, "lighting-color".data),
   ("markerStart".data, "marker-start".data),
   ("markerMid".data, "marker-mid".data),
   ("markerEnd".data, "marker-end".data),
   ("paintOrder".data, "paint-order".data),
   ("vectorEffect".data, "vector-effect".data),
   ("shapeRendering".data, "shape-rendering".data),
   ("imageRendering".data, "image-rendering".data),
   ("pointerEvents".data, "pointer-events".data),
   ("xlinkHref".data, "xlink:href".data)]

/-- The reverse entry list built from the same source of truth, as
`Object.fromEntries(Object.entries(map).map(([jsx, svg]) => [svg, jsx]))`. -/
def svgJsxPairs : List (List Char × List Char) :=
  jsxSvgPairs.map (fun p => (p.2, p.1))

/-- Lookup in `jsxToSvgAttributeMap`. -/
def jsxToSvgAttributeMap (k : List Char) : Option (List Char) :=
  jsxSvgPairs.lookup k

/-- Lookup in `svgToJsxAttributeMap`. -/
def svgToJsxAttributeMap (k : List Char) : Option (List Char) :=
  svgJsxPairs.lookup k

/-! ## Dialect detector (`isJsxSvg`) -/

/-- Does a match of `=\{[^}]+\}` start at the head of `l`?  After `={` the
greedy `[^}]+` must be non-empty and be closed by a `}`. -/
def exprValueAt (l : List Char) : Bool :=
  match l with
  | '=' :: '{' :: rest =>
      (rest.takeWhile (· ≠ '}')).length > 0 && (rest.dropWhile (· ≠ '}')) ≠ []
  | _ => false

/-- `/=\{[^}]+\}/.test(s)` -/
def hasExprValue (s : List Char) : Bool :=
  s.tails.any exprValueAt

/-- Does a match of `\{\.\.\.[^}]+\}` start at the head of `l`? -/
def spreadAt (l : List Char) : Bool :=
  match l with
  | '{' :: '.' :: '.' :: '.' :: rest =>
      (rest.takeWhile (· ≠ '}')).length > 0 && (rest.dropWhile (· ≠ '}')) ≠ []
  | _ => false

/-- `/\{\.\.\.[^}]+\}/.test(s)` -/
def hasSpread (s : List Char) : Bool :=
  s.tails.any spreadAt

/-- JS `\b` immediately before a word character: at the start of the text or
after a non-word character. -/
def boundaryOk (prev : Option Char) : Bool :=
  match prev with
  | none => true
  | some p => !isWordChar p

/-- `new RegExp('\\b' + tok).test(s)` for a literal token starting with a
word character: some position has a word boundary and `tok` as prefix.
`prev` is the character before the current position. -/
def hasBoundedTok (tok : List Char) : Option Char → List Char → Bool
  | _, [] => false
  | prev, c :: rest =>
      (boundaryOk prev && tok.isPrefixOf (c :: rest)) || hasBoundedTok tok (some c) rest

/-- `isJsxSvg`: the four checks of the detector, in source order. -/
def isJsxSvg (svgContent : List Char) : Bool :=
  hasExprValue svgContent ||
  hasSpread svgContent ||
  hasBoundedTok ("className=".data) none svgContent ||
  jsxSvgPairs.any (fun p => hasBoundedTok (p.1 ++ ['=']) none svgContent)

/-! ## Expression scanner -/

/-- The matching-brace search inside `replaceJsxExpressions`: scan the text
after `={`, with the signed `balance` counter (initially 1), the
string-mode flag with its remembered quote character, and the previous
character (initially the `{` itself).  On success return the expression
(the characters before the closing `}`) and the rest of the text after it;
at end of text return `none`. -/
def scanStep (c prev stringChar : Char) (inString : Bool) (balance : Int) :
    Bool × Char × Int :=
  if inString then
    if c = stringChar ∧ prev ≠ '\\' then (false, stringChar, balance)
    else (true, stringChar, balance)
  else
    if c = '"' ∨ c = '\'' ∨ c = '`' then (true, c, balance)
    else if c = '{' then (false, stringChar, balance + 1)
    else if c = '}' then (false, stringChar, balance - 1)
    else (false, stringChar, balance)

def scanExpr : List Char → Int → Bool → Char → Char → Option (List Char × List Char)
  | [], _, _, _, _ => none
  | c :: rest, balance, inString, stringChar, prev =>
      let st := scanStep c prev stringChar inString balance
      if st.1 = false ∧ st.2.2 = 0 then some ([], rest)
      else
        match scanExpr rest st.2.2 st.1 st.2.1 c with
        | some (e, r) => some (c :: e, r)
        | none => none

/-- On success the scanner consumed at least the closing brace, so the
remainder is strictly shorter than the input. -/
theorem scanExpr_some_length :
    ∀ (l : List Char) (bal : Int) (inStr : Bool) (sc prev : Char) (e r : List Char),
      scanExpr l bal inStr sc prev = some (e, r) → r.length < l.length := by
  intro l
  induction l with
  | nil => intro _ _ _ _ _ _ h; simp [scanExpr] at h
  | cons c rest ih =>
      intro bal inStr sc prev e r h
      rw [scanExpr] at h
      split at h
      · simp only [Option.some.injEq, Prod.mk.injEq] at h
        rw [← h.2]
        simp
      · rcases hrec : scanExpr rest (scanStep c prev sc inStr bal).2.2
            (scanStep c prev sc inStr bal).1 (scanStep c prev sc inStr bal).2.1 c with _ | ⟨e', r'⟩
        · rw [hrec] at h; simp at h
        · rw [hrec] at h
          simp only [Option.some.injEq, Prod.mk.injEq] at h
          have := ih _ _ _ _ e' r' hrec
          rw [← h.2]
          simp
          omega

/-- Fuelled loop of `replaceJsxExpressions`; every iteration consumes at
least one character of the remaining text, so fuel equal to the text length
always suffices. -/
def replaceJsxExpressionsF : Nat → List Char → List Char
  | 0, _ => []
  | _ + 1, [] => []
  | fuel + 1, '=' :: '{' :: rest =>
      match scanExpr rest 1 false ' ' '{' with
      | some (e, r) => '=' :: '"' :: (encodeJsx e ++ '"' :: replaceJsxExpressionsF fuel r)
      | none => '=' :: '{' :: replaceJsxExpressionsF fuel rest
  | fuel + 1, c :: rest => c :: replaceJsxExpressionsF fuel rest

/-- `replaceJsxExpressions`: repeatedly locate `={`, scan for the matching
brace; on success replace `={expr}` by `="<encodeJsx expr>"`, on failure
emit `={` literally and resume one position past it. -/
def replaceJsxExpressions (content : List Char) : List Char :=
  replaceJsxExpressionsF content.length content

/-! ## Generic global-replace driver

`replRun m prev s` models `s.replace(re, ...)` for a regex compiled from a
matcher `m`: `m prev t` returns `some (k, rep)` when a match of length
`k + 1` starts at the head of `t` (with `prev` the character of the
original text just before `t`, for `\\b` tests), together with its
replacement.  The driver scans left to right, never rescans replacement
text, and resumes after the matched span of the original text. -/

def replRunF (m : Option Char → List Char → Option (Nat × List Char)) :
    Nat → Option Char → List Char → List Char
  | 0, _, _ => []
  | _ + 1, _, [] => []
  | fuel + 1, prev, c :: rest =>
      match m prev (c :: rest) with
      | some (k, rep) => rep ++ replRunF m fuel (some ((c :: rest).getD k c)) (rest.drop k)
      | none => c :: replRunF m fuel (some c) rest

def replRun (m : Option Char → List Char → Option (Nat × List Char))
    (prev : Option Char) (s : List Char) : List Char :=
  replRunF m s.length prev s

/-- Matcher for `\b<tok>` where `tok` is a literal (our tokens all start
with a word character and are non-empty). -/
def tokTry (tok rep : List Char) (prev : Option Char) (s : List Char) :
    Option (Nat × List Char) :=
  if boundaryOk prev ∧ tok.isPrefixOf s then some (tok.length - 1, rep) else none

/-- Matcher for a literal with no word-boundary requirement (used for
entity unescaping). -/
def litTry (tok rep : List Char) (_prev : Option Char) (s : List Char) :
    Option (Nat × List Char) :=
  if tok.isPrefixOf s then some (tok.length - 1, rep) else none

/-- `s.replace(/\b<tok>/g, rep)`. -/
def replTok (tok rep : List Char) (s : List Char) : List Char :=
  replRun (tokTry tok rep) none s

/-- `s.replace(/<tok>/g, rep)` (plain literal). -/
def replLit (tok rep : List Char) (s : List Char) : List Char :=
  replRun (litTry tok rep) none s

/-- The spread-restoration fallback:
`value.replace(/&quot;/g,'"').replace(/&gt;/g,'>').replace(/&lt;/g,'<').replace(/&amp;/g,'&')`. -/
def unescapeEnt (v : List Char) : List Char :=
  replLit "&amp;".data "&".data
    (replLit "&lt;".data "<".data
      (replLit "&gt;".data ">".data
        (replLit "&quot;".data "\"".data v)))

/-- Matcher for the event-handler rename `/\b(on[A-Z]\w*)=/g` with
replacement `data-jsx-event-$1=`. -/
def eventFwdTry (prev : Option Char) (s : List Char) : Option (Nat × List Char) :=
  match s with
  | 'o' :: 'n' :: u :: rest =>
      if boundaryOk prev ∧ isUpperAZ u then
        let run := rest.takeWhile isWordChar
        match rest.drop run.length with
        | '=' :: _ =>
            some (3 + run.length,
              "data-jsx-event-".data ++ 'o' :: 'n' :: u :: run ++ ['='])
        | _ => none
      else none
  | _ => none

/-- The spread substitution
`s.replace(/\{\.\.\.([^}]+)\}/g, m => 'data-spread-<i>="<encodeJsx m[1]>"')`,
threading the per-call `spreadIndex` counter.  On a failed match attempt the
scan advances one position, like the regex engine. -/
def spreadFwdF : Nat → Nat → List Char → List Char
  | 0, _, _ => []
  | _ + 1, _, [] => []
  | fuel + 1, idx, '{' :: '.' :: '.' :: '.' :: rest =>
      let e := rest.takeWhile (· ≠ '}')
      if e.length > 0 ∧ rest.drop e.length ≠ [] then
        "data-spread-".data ++ (Nat.repr idx).data ++ '=' :: '"' ::
          (encodeJsx e ++ '"' :: spreadFwdF fuel (idx + 1) (rest.drop (e.length + 1)))
      else '{' :: spreadFwdF fuel idx ('.' :: '.' :: '.' :: rest)
  | fuel + 1, idx, c :: rest => c :: spreadFwdF fuel idx rest

def spreadFwdRun (idx : Nat) (s : List Char) : List Char :=
  spreadFwdF s.length idx s

/-- Matcher for `/\bdata-spread-\d+="([^"]*)"/g` with the decode-or-unescape
replacement of the source. -/
def spreadRevTry (prev : Option Char) (s : List Char) : Option (Nat × List Char) :=
  if boundaryOk prev ∧ ("data-spread-".data).isPrefixOf s then
    let rest := s.drop 12
    let ds := rest.takeWhile Char.isDigit
    if ds ≠ [] then
      match rest.drop ds.length with
      | '=' :: '"' :: rest2 =>
          let v := rest2.takeWhile (· ≠ '"')
          match rest2.drop v.length with
          | '"' :: _ =>
              let rep :=
                match decodeJsx v with
                | some d => '{' :: '.' :: '.' :: '.' :: (d ++ ['}'])
                | none => '{' :: '.' :: '.' :: '.' :: (unescapeEnt v ++ ['}'])
              some (12 + ds.length + 2 + v.length, rep)
          | _ => none
      | _ => none
    else none
  else none

/-- Matcher for `/\bdata-jsx-event-(on[A-Z]\w*)="([^"]*)"/g` with
replacement `$1="$2"`. -/
def eventRevTry (prev : Option Char) (s : List Char) : Option (Nat × List Char) :=
  if boundaryOk prev ∧ ("data-jsx-event-".data).isPrefixOf s then
    match s.drop 15 with
    | 'o' :: 'n' :: u :: rest =>
        if isUpperAZ u then
          let run := rest.takeWhile isWordChar
          match rest.drop run.length with
          | '=' :: '"' :: rest2 =>
              let v := rest2.takeWhile (· ≠ '"')
              match rest2.drop v.length with
              | '"' :: _ =>
                  some (15 + 3 + run.length + 2 + v.length,
                    'o' :: 'n' :: u :: run ++ '=' :: '"' :: (v ++ ['"']))
              | _ => none
          | _ => none
        else none
    | _ => none
  else none

/-- The lazy part of `__JSX_BASE64__[^"']*?__` followed by the back-referenced
quote: the least `k` such that the first `k` characters contain no quote of
either kind and are followed by `_`, `_`, `q`. -/
def lazyEndsHere (q : Char) : List Char → Bool
  | '_' :: '_' :: c :: _ => c = q
  | _ => false

def lazyPayloadEnd (q : Char) : List Char → Option Nat
  | [] => none
  | c :: rest =>
      if lazyEndsHere q (c :: rest) then some 0
      else if c = '"' ∨ c = '\'' then none
      else (lazyPayloadEnd q rest).map (· + 1)

/-- Matcher for the generic payload decode
`/(\w+)=(["'])(__JSX_BASE64__[^"']*?__)\2/g`; when the captured value
decodes, the replacement is `<attr>={<decoded>}`, otherwise the match is
left as is. -/
def payloadRevTry (_prev : Option Char) (s : List Char) : Option (Nat × List Char) :=
  let w := s.takeWhile isWordChar
  if w ≠ [] then
    match s.drop w.length with
    | '=' :: q :: rest2 =>
        if q = '"' ∨ q = '\'' then
          if BASE64_HEAD.isPrefixOf rest2 then
            match lazyPayloadEnd q (rest2.drop 14) with
            | some k =>
                let v := BASE64_HEAD ++ ((rest2.drop 14).take k ++ BASE64_TAIL)
                let rep :=
                  match decodeJsx v with
                  | some d => w ++ '=' :: '{' :: (d ++ ['}'])
                  | none => w ++ '=' :: q :: (v ++ [q])
                some (w.length + k + 18, rep)
            | none => none
          else none
        else none
    | _ => none
  else none

/-! ## Forward and reverse transcoders -/

/-- `convertJsxToSvg`: the six forward passes in source order. -/
def convertJsxToSvg (svgContent : List Char) : List Char :=
  let s1 := replaceJsxExpressions svgContent
  let s2 := spreadFwdRun 0 s1
  let s3 := replTok "className=".data "class=".data s2
  let s4 := jsxSvgPairs.foldl
    (fun acc p => replTok (p.1 ++ ['=']) (p.2 ++ ['=']) acc) s3
  let s5 := replRun eventFwdTry none s4
  let s6 := replTok "style=".data "data-better-svg-style=".data s5
  s6

/-- `convertSvgToJsx`: the six reverse passes in source order. -/
def convertSvgToJsx (svgContent : List Char) : List Char :=
  let s1 := replTok "class=".data "className=".data svgContent
  let s2 := svgJsxPairs.foldl
    (fun acc p => replTok (p.1 ++ ['=']) (p.2 ++ ['=']) acc) s1
  let s3 := replRun spreadRevTry none s2
  let s4 := replRun eventRevTry none s3
  let s5 := replTok "data-better-svg-style=".data "style=".data s4
  let s6 := replRun payloadRevTry none s5
  s6

/-! ## Optimization bridge -/

/-- `prepareForOptimization`. -/
def prepareForOptimization (svgContent : List Char) : List Char × Bool :=
  if isJsxSvg svgContent then (convertJsxToSvg svgContent, true)
  else (svgContent, false)

/-- `finalizeAfterOptimization`. -/
def finalizeAfterOptimization (optimizedSvg : List Char) (wasJsx : Bool) : List Char :=
  if wasJsx then convertSvgToJsx optimizedSvg else optimizedSvg

/-! ## Basic lemmas -/

/-- Spec-modelled single-character transition of the scanner state
(balance, optional remembered quote). -/
def specScanStep (st : Int × Option Char) (prev c : Char) : Int × Option Char :=
  match st.2 with
  | some q => if c = q ∧ prev ≠ '\\' then (st.1, none) else (st.1, some q)
  | none =>
      if c = '"' ∨ c = '\'' ∨ c = '`' then (st.1, some c)
      else if c = '{' then (st.1 + 1, none)
      else if c = '}' then (st.1 - 1, none)
      else (st.1, none)

/-- Spec-modelled scan: return the index (relative to the text after `={`)
of the character that brings the balance to 0 outside string mode, or
`none` at end of text. -/
def specScanFind : List Char → Char → (Int × Option Char) → Nat → Option Nat
  | [], _, _, _ => none
  | c :: rest, prev, st, pos =>
      let st' := specScanStep st prev c
      if st'.2 = none ∧ st'.1 = 0 then some pos
      else specScanFind rest c st' (pos + 1)
/-- Does `pat` occur as a contiguous substring of `s`? -/
def hasSub (pat s : List Char) : Bool :=
  s.tails.any (fun t => pat.isPrefixOf t)
/-- The character just before position `i` of `seg`, where `prev` precedes
`seg` itself. -/
def prevAt (prev : Option Char) (seg : List Char) (i : Nat) : Option Char :=
  if i = 0 then prev else seg.get? (i - 1)
/-- `m` finds no match starting anywhere inside `seg`, whatever text
follows. -/
def NoHit (m : Option Char → List Char → Option (Nat × List Char))
    (prev : Option Char) (seg : List Char) : Prop :=
  ∀ (i : Nat), i < seg.length → ∀ (rest : List Char),
    m (prevAt prev seg i) (seg.drop i ++ rest) = none
/-- The previous-character context after emitting `seg`. -/
def lastO (prev : Option Char) (seg : List Char) : Option Char :=
  match seg.getLast? with
  | some c => some c
  | none => prev
/-- One segment-level rewriting step of a driver pass: on input `sin` the
pass emits `sout` and continues after it, whatever comes before or after. -/
def SegStepAll (m : Option Char → List Char → Option (Nat × List Char))
    (sin sout : List Char) : Prop :=
  ∀ (prev : Option Char) (rest : List Char),
    replRun m prev (sin ++ rest) = sout ++ replRun m (lastO prev sin) rest

/-! ## C1 amended claim: attribute grammar, rendered forms and checkers

The amended round-trip claim quantifies over texts rendered from an
attribute grammar.  `wellFormed` below is a decidable conservative check,
evaluated on the concrete attribute data, that rules out every way a
rename pass could match inside a rendered attribute or an encoded
payload. -/

inductive SvgAttr where
  | expr (name e : List Char)
  | spread (e : List Char)
  | lit (name v : List Char)

/-- Authoring-dialect rendering of one attribute (leading space included). -/
def renderAttr0 : SvgAttr → List Char
  | .expr n e => ' ' :: (n ++ '=' :: '{' :: (e ++ ['}']))
  | .spread e => ' ' :: '{' :: '.' :: '.' :: '.' :: (e ++ ['}'])
  | .lit n v => ' ' :: (n ++ '=' :: '"' :: (v ++ ['"']))

/-- A full element text: tag, rendered attributes, self-closing tail. -/
def textOf (tag : List Char) (segs : List (List Char)) : List Char :=
  '<' :: (tag ++ segs.flatten ++ ['/', '>'])

def render0 (tag : List Char) (attrs : List SvgAttr) : List Char :=
  textOf tag (attrs.map renderAttr0)

def spreadCnt : SvgAttr → Nat
  | .spread _ => 1
  | _ => 0

/-- Pair each attribute with the number of spread attributes before it. -/
def withIdx : Nat → List SvgAttr → List (SvgAttr × Nat)
  | _, [] => []
  | j, a :: as => (a, j) :: withIdx (j + spreadCnt a) as

def spreadTotal : List SvgAttr → Nat
  | [] => 0
  | a :: as => spreadCnt a + spreadTotal as

/-- The placeholder attribute name for the `j`-th spread. -/
def sn (j : Nat) : List Char := "data-spread-".data ++ (Nat.repr j).data

/-- A double-quoted attribute, ` K="V"`. -/
def attrQ (K V : List Char) : List Char := ' ' :: (K ++ '=' :: '"' :: (V ++ ['"']))

/-- The value part of a double-quoted attribute, `"V"`. -/
def tailQ (V : List Char) : List Char := '"' :: (V ++ ['"'])

/-- A rendered spread attribute, ` {...e}`. -/
def bracesSeg (e : List Char) : List Char :=
  ' ' :: '{' :: '.' :: '.' :: '.' :: (e ++ ['}'])

/-- The standard-dialect attribute name an attribute carries after the
expression and spread passes. -/
def bName (j : Nat) : SvgAttr → List Char
  | .expr n _ => n
  | .spread _ => sn j
  | .lit n _ => n

/-- The double-quoted value an attribute carries after those passes. -/
def vOf : SvgAttr → List Char
  | .expr _ e => encodeJsx e
  | .spread e => encodeJsx e
  | .lit _ v => v

/-- One literal rename `p.1= → p.2=` as a map on attribute names. -/
def stepName (p : List Char × List Char) (K : List Char) : List Char :=
  if K = p.1 then p.2 else K

def foldName (ps : List (List Char × List Char)) (K : List Char) : List Char :=
  ps.foldl (fun K p => stepName p K) K

def pairCN : List Char × List Char := ("className".data, "class".data)

def pairST : List Char × List Char := ("style".data, "data-better-svg-style".data)

def swapP (p : List Char × List Char) : List Char × List Char := (p.2, p.1)

def GSP : List Char := "data-spread-".data

def GJE : List Char := "data-jsx-event-".data

/-- Does a name have the `on[A-Z]\w*` event-handler shape? -/
def eventShape (K : List Char) : Bool :=
  match K with
  | 'o' :: 'n' :: u :: run => isUpperAZ u && run.all isWordChar
  | _ => false

/-- Attribute name after the `className=` pass. -/
def f3 (b : List Char) : List Char := stepName pairCN b

/-- … after the dictionary pass. -/
def f4 (b : List Char) : List Char := foldName jsxSvgPairs (f3 b)

/-- … after the event-handler pass. -/
def f5 (b : List Char) : List Char :=
  if eventShape (f4 b) then GJE ++ f4 b else f4 b

/-- … after the `style=` pass (end of the forward direction). -/
def f6 (b : List Char) : List Char := stepName pairST (f5 b)

/-- … after the reverse `class=` pass. -/
def f7 (b : List Char) : List Char := stepName (swapP pairCN) (f6 b)

/-- … after the reverse dictionary pass. -/
def f8 (b : List Char) : List Char := foldName svgJsxPairs (f7 b)

/-- … after the reverse event-handler pass. -/
def f10 (b : List Char) : List Char :=
  if GJE.isPrefixOf (f8 b) && eventShape ((f8 b).drop 15) then (f8 b).drop 15
  else f8 b

/-- … after the reverse `style=` pass. -/
def f11 (b : List Char) : List Char := stepName (swapP pairST) (f10 b)

/-- Worst-case character before position `i` of `seg` (a non-word character
when `i = 0`, so any actual context is covered by the check). -/
def prevAtD (seg : List Char) (i : Nat) : Option Char :=
  if i = 0 then some ' ' else seg.get? (i - 1)

/-- No position of `seg` can start a `\b tok` literal match, for any
context before `seg` and any continuation after it that starts with a
space or a slash. -/
def tokClearIn (tok seg : List Char) : Bool :=
  (List.range seg.length).all fun i =>
    !(boundaryOk (prevAtD seg i) && tok.isPrefixOf (seg.drop i))

/-- Would `\b(on[A-Z]\w*)=` match starting at the head of `u`, with the
word run and the `=` inside `u`? -/
def eventHitsIn (u : List Char) : Bool :=
  match u with
  | a :: b :: c :: r =>
      a = 'o' && b = 'n' && isUpperAZ c &&
        (match r.drop (r.takeWhile isWordChar).length with
         | x :: _ => x = '='
         | [] => false)
  | _ => false

def eventClearIn (seg : List Char) : Bool :=
  (List.range seg.length).all fun i =>
    !(boundaryOk (prevAtD seg i) && eventHitsIn (seg.drop i))

/-- Could the payload-decode regex `(\w+)=(["'])__JSX_BASE64__…` possibly
match starting at the head of `u` (continuation starting with space or
slash)?  Conservative: `true` only when a word run, `=`, a quote and the
payload head literal all occur inside `u`. -/
def payloadUnsafeAt (u : List Char) : Bool :=
  let w := u.takeWhile isWordChar
  if w.length = 0 then false
  else if w.length = u.length then false
  else
    match u.drop w.length with
    | x :: q :: rest2 =>
        x = '=' && (q = '"' || q = '\'') && BASE64_HEAD.isPrefixOf rest2
    | _ => false

def payloadClearIn (seg : List Char) : Bool :=
  (List.range seg.length).all fun i => !payloadUnsafeAt (seg.drop i)

/-- No `={` inside the segment, and no trailing `=` that could pair with a
`{` starting the next segment. -/
def exprFreeB (seg : List Char) : Bool :=
  !hasSub ('=' :: '{' :: []) seg && !(seg.getLast? == some '=')

/-- The brace scanner closes the expression `e` exactly at its final
brace. -/
def exprClosed (e : List Char) : Bool :=
  scanExpr (e ++ ['}']) 1 false ' ' '{' == some (e, [])

/-- Per-rename-pass condition on a quoted attribute: on the renamed name
the value part must be clear of the token, on any other name the whole
attribute must be. -/
def tokCondQ (p : List Char × List Char) (K V : List Char) : Bool :=
  if K = p.1 then tokClearIn (p.1 ++ ['=']) (tailQ V)
  else tokClearIn (p.1 ++ ['=']) (attrQ K V)

def nameCondsF : List (List Char × List Char) → List Char → List Char → Bool
  | [], _, _ => true
  | p :: ps, K, V => tokCondQ p K V && nameCondsF ps (stepName p K) V

def eventCondQ (K V : List Char) : Bool :=
  if eventShape K then eventClearIn (tailQ V) else eventClearIn (attrQ K V)

def eventRevCondQ (K V : List Char) : Bool :=
  if GJE.isPrefixOf K && eventShape (K.drop 15) then !(V.contains '"')
  else tokClearIn GJE (attrQ K V)

/-- Conditions for a quoted attribute across the rename passes of both
directions (name chain `f3 … f11`). -/
def chainCondQ (b V : List Char) : Bool :=
  nameCondsF (pairCN :: jsxSvgPairs) b V &&
  eventCondQ (f4 b) V &&
  nameCondsF [pairST] (f5 b) V &&
  nameCondsF (swapP pairCN :: svgJsxPairs) (f6 b) V &&
  tokClearIn GSP (attrQ (f8 b) V) &&
  eventRevCondQ (f8 b) V &&
  nameCondsF [swapP pairST] (f10 b) V

/-- Same, but only up to the spread-restoration pass. -/
def chainCondSp (b V : List Char) : Bool :=
  nameCondsF (pairCN :: jsxSvgPairs) b V &&
  eventCondQ (f4 b) V &&
  nameCondsF [pairST] (f5 b) V &&
  nameCondsF (swapP pairCN :: svgJsxPairs) (f6 b) V

/-- All conditions for one attribute with spread index `j`. -/
def fullCond (j : Nat) : SvgAttr → Bool
  | .expr n e =>
      !n.isEmpty && n.all isWordChar && exprClosed e &&
      chainCondQ n (encodeJsx e) && (f11 n == n)
  | .spread e =>
      !e.isEmpty && !(e.contains '}') && exprFreeB (bracesSeg e) &&
      chainCondSp (sn j) (encodeJsx e) &&
      (f8 (sn j) == sn j) &&
      ((Nat.repr j).data.all Char.isDigit) && !((Nat.repr j).data.isEmpty) &&
      tokClearIn GJE (bracesSeg e) &&
      tokClearIn ("data-better-svg-style=".data) (bracesSeg e) &&
      payloadClearIn (bracesSeg e)
  | .lit n v =>
      !n.isEmpty && n.all isWordChar &&
      exprFreeB (attrQ n v) && !(v.contains '{') &&
      chainCondQ n v && (f11 n == n) &&
      payloadClearIn (attrQ (f11 n) v)

def allPassPairs : List (List Char × List Char) :=
  pairCN :: jsxSvgPairs ++ pairST :: swapP pairCN :: svgJsxPairs ++ [swapP pairST]

/-- A segment no pass can touch. -/
def segAllClear (seg : List Char) : Bool :=
  allPassPairs.all (fun p => tokClearIn (p.1 ++ ['=']) seg) &&
  eventClearIn seg && tokClearIn GSP seg && tokClearIn GJE seg &&
  payloadClearIn seg

def tagCond (tag : List Char) : Bool :=
  tag.all isWordChar && segAllClear ('<' :: tag)

/-- The supported-construct condition of the amended round-trip claim. -/
def wellFormed (tag : List Char) (attrs : List SvgAttr) : Bool :=
  tagCond tag && (withIdx 0 attrs).all (fun q => fullCond q.2 q.1)

/-- A continuation that starts (if at all) with a space or a slash — the
only characters that can follow a rendered segment in an element text. -/
def safeRest (rest : List Char) : Prop :=
  ∀ c, rest.head? = some c → c = ' ' ∨ c = '/'

def safeHead (l : List Char) : Prop :=
  ∃ c t, l = c :: t ∧ (c = ' ' ∨ c = '/')

/-- `m` finds no match inside `seg` when the given continuation follows. -/
def NoHitOn (m : Option Char → List Char → Option (Nat × List Char))
    (prev : Option Char) (seg rest : List Char) : Prop :=
  ∀ i, i < seg.length → m (prevAt prev seg i) (seg.drop i ++ rest) = none

/-- Segment-level step of a driver pass, for safe continuations. -/
def SegStepG (m : Option Char → List Char → Option (Nat × List Char))
    (sin sout : List Char) : Prop :=
  ∀ (prev : Option Char) (rest : List Char), safeRest rest →
    replRun m prev (sin ++ rest) = sout ++ replRun m (lastO prev sin) rest

/-- Segment-level step of the expression pass. -/
def ExprStep (sin sout : List Char) : Prop :=
  ∀ t, replaceJsxExpressions (sin ++ t) = sout ++ replaceJsxExpressions t

/-- Segment-level step of the spread pass, threading the counter. -/
def SpreadStep (j u : Nat) (sin sout : List Char) : Prop :=
  ∀ t, spreadFwdRun j (sin ++ t) = sout ++ spreadFwdRun (j + u) t

/-- Quoted-attribute stage renderer with name map `f`. -/
def rQ (f : List Char → List Char) (j : Nat) (a : SvgAttr) : List Char :=
  attrQ (f (bName j a)) (vOf a)

/-- Stage renderer after spread restoration: spreads are back in braces. -/
def rB (f : List Char → List Char) (j : Nat) (a : SvgAttr) : List Char :=
  match a with
  | .spread e => bracesSeg e
  | _ => attrQ (f (bName j a)) (vOf a)

/-- Stage renderer after the expression pass. -/
def rS1 (a : SvgAttr) : List Char :=
  match a with
  | .expr n e => attrQ n (encodeJsx e)
  | _ => renderAttr0 a

/-- `b64Char` always lands in the alphabet (out-of-range values give the
default `'A'`, which is also in the alphabet). -/
theorem b64Char_mem (v : Nat) : b64Char v ∈ b64Alphabet := by
  by_cases h : v < 64
  · have hall : ∀ w : Nat, w < 64 → b64Char w ∈ b64Alphabet := by decide
    exact hall v h
  · unfold b64Char
    rw [List.getD_eq_default]
    · decide
    · have : b64Alphabet.length = 64 := by decide
      omega

/-- Every character the encoder emits is in the base64 alphabet or is the
padding `=`. -/
theorem b64Encode_mem :
    ∀ (bs : List Nat) (c : Char), c ∈ b64Encode bs → c ∈ b64Alphabet ∨ c = '='
  | b0 :: b1 :: b2 :: rest, c => by
      intro hc
      simp only [b64Encode, List.mem_cons] at hc
      rcases hc with h | h | h | h | h
      · exact Or.inl (h ▸ b64Char_mem _)
      · exact Or.inl (h ▸ b64Char_mem _)
      · exact Or.inl (h ▸ b64Char_mem _)
      · exact Or.inl (h ▸ b64Char_mem _)
      · exact b64Encode_mem rest c h
  | [b0, b1], c => by
      intro hc
      simp only [b64Encode, List.mem_cons] at hc
      rcases hc with h | h | h | h
      · exact Or.inl (h ▸ b64Char_mem _)
      · exact Or.inl (h ▸ b64Char_mem _)
      · exact Or.inl (h ▸ b64Char_mem _)
      · simp_all
  | [b0], c => by
      intro hc
      simp only [b64Encode, List.mem_cons] at hc
      rcases hc with h | h | h | h
      · exact Or.inl (h ▸ b64Char_mem _)
      · exact Or.inl (h ▸ b64Char_mem _)
      · simp_all
      · simp_all
  | [], c => by intro hc; simp [b64Encode] at hc

/-! ## Claim theorems: payload codec envelope and totality -/

/-- C4: a string that does not both start with `'__JSX_BASE64__'` and end
with `'__'` is rejected: `decodeJsx` returns `null` (here `none`), and,
being a total Lean function, it never throws on any string. -/
theorem decodeJsx_not_payload (s : List Char)
    (h : ¬ (BASE64_HEAD.isPrefixOf s ∧ BASE64_TAIL.isSuffixOf s)) :
    decodeJsx s = none := by
  unfold decodeJsx
  rw [if_neg]
  intro hc
  exact h ⟨by exact_mod_cast hc.1, by exact_mod_cast hc.2⟩

/-- Witness for `decodeJsx_not_payload` at the concrete non-payload `"abc"`. -/
theorem decodeJsx_not_payload_witness : decodeJsx "abc".data = none :=
  decodeJsx_not_payload "abc".data (by decide)

/-- C9: every transform function of the module is total over arbitrary
string input: on every input it terminates and returns a value (they are
total Lean functions, so no exception is possible). -/
theorem transforms_total (s : List Char) (w : Bool) :
    (∃ b, isJsxSvg s = b) ∧ (∃ t, convertJsxToSvg s = t) ∧
    (∃ t, convertSvgToJsx s = t) ∧ (∃ p, prepareForOptimization s = p) ∧
    (∃ t, finalizeAfterOptimization s w = t) :=
  ⟨⟨_, rfl⟩, ⟨_, rfl⟩, ⟨_, rfl⟩, ⟨_, rfl⟩, ⟨_, rfl⟩⟩

/-- Every character of an encoded payload is `'_'`, a base64-alphabet
character or the padding `'='`. -/
theorem encodeJsx_mem (body : List Char) (c : Char) (hc : c ∈ encodeJsx body) :
    c = '_' ∨ c ∈ b64Alphabet ∨ c = '=' := by
  have hhead : ∀ x : Char, x ∈ BASE64_HEAD → (x = '_' ∨ x ∈ b64Alphabet ∨ x = '=') := by
    decide
  have htail : ∀ x : Char, x ∈ BASE64_TAIL → (x = '_' ∨ x ∈ b64Alphabet ∨ x = '=') := by
    decide
  unfold encodeJsx at hc
  rcases List.mem_append.1 hc with h | h
  · rcases List.mem_append.1 h with h' | h'
    · exact hhead c h'
    · rcases b64Encode_mem _ _ h' with h'' | h''
      · exact Or.inr (Or.inl h'')
      · exact Or.inr (Or.inr h'')
  · exact htail c h

/-- C10: `encodeJsx` output consists only of `'_'`, base64-alphabet
characters and `'='`; in particular it can never contain a quote, brace or
angle bracket, so a payload embedded as a double-quoted attribute value
cannot terminate the quotes or introduce markup/expression delimiters. -/
theorem encodeJsx_alphabet (body : List Char) (c : Char)
    (hc : c ∈ encodeJsx body) :
    (c = '_' ∨ c ∈ b64Alphabet ∨ c = '=') ∧
    c ≠ '"' ∧ c ≠ '\'' ∧ c ≠ '{' ∧ c ≠ '}' ∧ c ≠ '<' ∧ c ≠ '>' := by
  have main : c = '_' ∨ c ∈ b64Alphabet ∨ c = '=' := encodeJsx_mem body c hc
  refine ⟨main, ?_⟩
  have halpha : ∀ x : Char, x ∈ b64Alphabet →
      x ≠ '"' ∧ x ≠ '\'' ∧ x ≠ '{' ∧ x ≠ '}' ∧ x ≠ '<' ∧ x ≠ '>' := by
    decide
  rcases main with h | h | h
  · subst h; decide
  · exact halpha c h
  · subst h; decide

/-- Witness for `encodeJsx_alphabet` at `body = "x"`, `c = '_'`. -/
theorem encodeJsx_alphabet_witness :
    (('_' : Char) = '_' ∨ ('_' : Char) ∈ b64Alphabet ∨ ('_' : Char) = '=') ∧
    ('_' : Char) ≠ '"' ∧ ('_' : Char) ≠ '\'' ∧ ('_' : Char) ≠ '{' ∧
    ('_' : Char) ≠ '}' ∧ ('_' : Char) ≠ '<' ∧ ('_' : Char) ≠ '>' :=
  encodeJsx_alphabet "x".data '_' (by decide)

/-! ## Claim theorem: attribute dictionary bijection -/

/-- C8: the attribute dictionary is bijective: the two maps have equal
cardinality, authoring-side and standard-side keys are each unique, the
reverse entry list is the entry-wise swap of the forward one, and composing
the two lookups in either order is the identity on the respective domain. -/
theorem attributeMap_bijective :
    svgJsxPairs.length = jsxSvgPairs.length ∧
    (jsxSvgPairs.map Prod.fst).Nodup ∧
    (jsxSvgPairs.map Prod.snd).Nodup ∧
    (∀ p ∈ jsxSvgPairs,
      jsxToSvgAttributeMap p.1 = some p.2 ∧ svgToJsxAttributeMap p.2 = some p.1) ∧
    (∀ p ∈ svgJsxPairs,
      svgToJsxAttributeMap p.1 = some p.2 ∧ jsxToSvgAttributeMap p.2 = some p.1) := by
  refine ⟨by decide, by decide, by decide, ?_, ?_⟩ <;> decide

/-- Witness for `attributeMap_bijective` at the `strokeWidth` pair. -/
theorem attributeMap_bijective_witness :
    jsxToSvgAttributeMap "strokeWidth".data = some "stroke-width".data ∧
    svgToJsxAttributeMap "stroke-width".data = some "strokeWidth".data :=
  attributeMap_bijective.2.2.2.1 ("strokeWidth".data, "stroke-width".data) (by decide)

/-! ## Claim theorem: dialect detector -/

/-- C7: `isJsxSvg` is true on `<e a={2}/>`, `<e className="x"/>`,
`<e {...p}/>`, and on any text containing a dictionary authoring-side name
immediately followed by `=` at a word boundary; it is false on text with
none of the four trigger patterns (no `={...}` value, no spread, no
`className=`, no authoring-side dictionary name followed by `=`). -/
theorem isJsxSvg_detector :
    isJsxSvg "<e a={2}/>".data = true ∧
    isJsxSvg "<e className=\"x\"/>".data = true ∧
    isJsxSvg "<e {...p}/>".data = true ∧
    (∀ (s name svg : List Char), (name, svg) ∈ jsxSvgPairs →
      hasBoundedTok (name ++ ['=']) none s = true → isJsxSvg s = true) ∧
    (∀ s : List Char, hasExprValue s = false → hasSpread s = false →
      hasBoundedTok ("className=".data) none s = false →
      (∀ p ∈ jsxSvgPairs, hasBoundedTok (p.1 ++ ['=']) none s = false) →
      isJsxSvg s = false) := by
  refine ⟨by decide, by decide, by decide, ?_, ?_⟩
  · intro s name svg hmem htok
    unfold isJsxSvg
    have : jsxSvgPairs.any (fun p => hasBoundedTok (p.1 ++ ['=']) none s) = true :=
      List.any_eq_true.2 ⟨(name, svg), hmem, htok⟩
    rw [this]
    simp
  · intro s h1 h2 h3 h4
    unfold isJsxSvg
    rw [h1, h2, h3]
    have : jsxSvgPairs.any (fun p => hasBoundedTok (p.1 ++ ['=']) none s) = false := by
      rw [List.any_eq_false]
      intro p hp
      simp [h4 p hp]
    rw [this]
    rfl

/-- Witness for `isJsxSvg_detector`: the dictionary-name clause at
`strokeWidth` and the negative clause at a purely standard-dialect text. -/
theorem isJsxSvg_detector_witness :
    isJsxSvg "<e strokeWidth=\"2\"/>".data = true ∧
    isJsxSvg "<e class=\"a\" stroke-width=\"2\"/>".data = false :=
  ⟨isJsxSvg_detector.2.2.2.1 _ "strokeWidth".data "stroke-width".data
      (by decide) (by decide),
   isJsxSvg_detector.2.2.2.2 _ (by decide) (by decide) (by decide) (by decide)⟩

/-! ## Claim theorem: payload codec round trip -/

theorem b64CharVal_b64Char : ∀ v : Nat, v < 64 → b64CharVal (b64Char v) = some v := by
  decide

theorem b64CharVal_pad : b64CharVal '=' = none := by decide

theorem filterMap_group4 (v0 v1 v2 v3 : Nat) (t : List Char)
    (h0 : v0 < 64) (h1 : v1 < 64) (h2 : v2 < 64) (h3 : v3 < 64) :
    (b64Char v0 :: b64Char v1 :: b64Char v2 :: b64Char v3 :: t).filterMap b64CharVal
      = v0 :: v1 :: v2 :: v3 :: t.filterMap b64CharVal := by
  rw [List.filterMap_cons, b64CharVal_b64Char _ h0]
  rw [List.filterMap_cons, b64CharVal_b64Char _ h1]
  rw [List.filterMap_cons, b64CharVal_b64Char _ h2]
  rw [List.filterMap_cons, b64CharVal_b64Char _ h3]

theorem filterMap_tail2 (v0 v1 : Nat) (h0 : v0 < 64) (h1 : v1 < 64) :
    ([b64Char v0, b64Char v1, '=', '='] : List Char).filterMap b64CharVal = [v0, v1] := by
  rw [List.filterMap_cons, b64CharVal_b64Char _ h0]
  rw [List.filterMap_cons, b64CharVal_b64Char _ h1]
  rw [List.filterMap_cons, b64CharVal_pad]
  rw [List.filterMap_cons, b64CharVal_pad, List.filterMap_nil]

theorem filterMap_tail3 (v0 v1 v2 : Nat) (h0 : v0 < 64) (h1 : v1 < 64) (h2 : v2 < 64) :
    ([b64Char v0, b64Char v1, b64Char v2, '='] : List Char).filterMap b64CharVal
      = [v0, v1, v2] := by
  rw [List.filterMap_cons, b64CharVal_b64Char _ h0]
  rw [List.filterMap_cons, b64CharVal_b64Char _ h1]
  rw [List.filterMap_cons, b64CharVal_b64Char _ h2]
  rw [List.filterMap_cons, b64CharVal_pad, List.filterMap_nil]

/-- Decoding inverts encoding on byte lists. -/
theorem b64_roundtrip : ∀ bs : List Nat, (∀ b ∈ bs, b < 256) →
    b64Pack ((b64Encode bs).filterMap b64CharVal) = bs := by
  intro bs
  induction bs using b64Encode.induct with
  | case1 b0 b1 b2 rest ih =>
      intro hlt
      have h0 : b0 < 256 := hlt b0 (by simp)
      have h1 : b1 < 256 := hlt b1 (by simp)
      have h2 : b2 < 256 := hlt b2 (by simp)
      rw [b64Encode, filterMap_group4 _ _ _ _ _ (by omega) (by omega) (by omega) (by omega)]
      rw [b64Pack]
      rw [ih (fun b hb => hlt b (by simp [hb]))]
      have e0 : b0 / 4 * 4 + (b0 % 4 * 16 + b1 / 16) / 16 = b0 := by omega
      have e1 : (b0 % 4 * 16 + b1 / 16) % 16 * 16 + (b1 % 16 * 4 + b2 / 64) / 4 = b1 := by omega
      have e2 : (b1 % 16 * 4 + b2 / 64) % 4 * 64 + b2 % 64 = b2 := by omega
      rw [e0, e1, e2]
  | case2 b0 b1 =>
      intro hlt
      have h0 : b0 < 256 := hlt b0 (by simp)
      have h1 : b1 < 256 := hlt b1 (by simp)
      rw [b64Encode, filterMap_tail3 _ _ _ (by omega) (by omega) (by omega)]
      rw [b64Pack]
      have e0 : b0 / 4 * 4 + (b0 % 4 * 16 + b1 / 16) / 16 = b0 := by omega
      have e1 : (b0 % 4 * 16 + b1 / 16) % 16 * 16 + b1 % 16 * 4 / 4 = b1 := by omega
      rw [e0, e1]
  | case3 b0 =>
      intro hlt
      have h0 : b0 < 256 := hlt b0 (by simp)
      rw [b64Encode, filterMap_tail2 _ _ (by omega) (by omega)]
      rw [b64Pack]
      have e0 : b0 / 4 * 4 + b0 % 4 * 16 / 16 = b0 := by omega
      rw [e0]
  | case4 =>
      intro _
      rw [b64Encode]
      simp [b64Pack]

/-- UTF-8 bytes are bytes. -/
theorem utf8EncodeChar_lt (c : Char) : ∀ b ∈ utf8EncodeChar c, b < 256 := by
  have hval : c.toNat < 0xD800 ∨ (0xDFFF < c.toNat ∧ c.toNat < 0x110000) := c.valid
  intro b hb
  rw [utf8EncodeChar] at hb
  split_ifs at hb <;> simp only [List.mem_cons, List.mem_singleton, List.not_mem_nil] at hb <;>
    rcases hb with h | h | h | h | h <;> first | omega | simp_all

theorem utf8Encode_lt (s : List Char) : ∀ b ∈ utf8Encode s, b < 256 := by
  intro b hb
  rw [utf8Encode, List.mem_flatMap] at hb
  obtain ⟨c, _, hbc⟩ := hb
  exact utf8EncodeChar_lt c b hbc

theorem utf8DecodeF_cons (fuel : Nat) (b : Nat) (bs : List Nat) :
    utf8DecodeF (fuel + 1) (b :: bs)
      = (utf8Step b bs).1 :: utf8DecodeF fuel (bs.drop (utf8Step b bs).2) := rfl

/-- The fuel is irrelevant as long as it covers the byte count. -/
theorem utf8DecodeF_fuel :
    ∀ (f1 f2 : Nat) (s : List Nat), s.length ≤ f1 → s.length ≤ f2 →
      utf8DecodeF f1 s = utf8DecodeF f2 s := by
  intro f1
  induction f1 with
  | zero =>
      intro f2 s h1 _
      have : s = [] := List.eq_nil_of_length_eq_zero (by omega)
      subst this
      cases f2 <;> rfl
  | succ f1' ih =>
      intro f2 s h1 h2
      rcases s with _ | ⟨b, bs⟩
      · cases f2 <;> rfl
      · rcases f2 with _ | f2'
        · simp at h2
        · rw [utf8DecodeF_cons, utf8DecodeF_cons]
          have hd : (bs.drop (utf8Step b bs).2).length ≤ bs.length := by simp
          simp only [List.length_cons] at h1 h2
          rw [ih f2' (bs.drop (utf8Step b bs).2) (by omega) (by omega)]

/-- Decoding one encoded character from the front of a byte stream yields
that character and leaves the remaining bytes to be decoded. -/
theorem utf8_char_decode (c : Char) (bs : List Nat) :
    utf8Decode (utf8EncodeChar c ++ bs) = c :: utf8Decode bs := by
  have hval : c.toNat < 0xD800 ∨ (0xDFFF < c.toNat ∧ c.toNat < 0x110000) := c.valid
  by_cases hc1 : c.toNat < 0x80
  · rw [utf8EncodeChar, if_pos hc1]
    rw [List.cons_append, List.nil_append, utf8Decode]
    have hstep : utf8Step c.toNat bs = (Char.ofNat c.toNat, 0) := by
      rw [utf8Step.eq_def, if_pos hc1]
    rw [show (c.toNat :: bs).length = bs.length + 1 by simp]
    rw [utf8DecodeF_cons, hstep, Char.ofNat_toNat]
    simp only [List.drop_zero]
    rfl
  · by_cases hc2 : c.toNat < 0x800
    · rw [utf8EncodeChar, if_neg hc1, if_pos hc2]
      rw [List.cons_append, List.cons_append, List.nil_append, utf8Decode]
      have hstep : utf8Step (0xC0 + c.toNat / 64) ((0x80 + c.toNat % 64) :: bs)
          = (c, 1) := by
        rw [utf8Step.eq_def, if_neg (by omega), if_pos (by constructor <;> omega)]
        rw [if_pos (by refine ⟨by simp, by simp [isCont]; omega⟩)]
        have : (0xC0 + c.toNat / 64 - 0xC0) * 64 +
            ((((0x80 + c.toNat % 64) :: bs).getD 0 0) - 0x80) = c.toNat := by
          simp; omega
        rw [this, Char.ofNat_toNat]
      rw [show ((0xC0 + c.toNat / 64) :: (0x80 + c.toNat % 64) :: bs).length
            = (bs.length + 1) + 1 by simp]
      rw [utf8DecodeF_cons, hstep]
      simp only [List.drop_succ_cons, List.drop_zero]
      exact congrArg (c :: ·) (utf8DecodeF_fuel (bs.length + 1) bs.length bs
        (by omega) (by omega))
    · by_cases hc3 : c.toNat < 0x10000
      · rw [utf8EncodeChar, if_neg hc1, if_neg hc2, if_pos hc3]
        rw [List.cons_append, List.cons_append, List.cons_append, List.nil_append, utf8Decode]
        have hstep : utf8Step (0xE0 + c.toNat / 4096)
            ((0x80 + c.toNat / 64 % 64) :: (0x80 + c.toNat % 64) :: bs) = (c, 2) := by
          rw [utf8Step.eq_def, if_neg (by omega), if_neg (by omega),
            if_pos (by constructor <;> omega)]
          rw [if_pos (by
            refine ⟨by simp, by simp [isCont]; omega, by simp [isCont]; omega, ?_, ?_⟩ <;>
              simp <;> omega)]
          have : (0xE0 + c.toNat / 4096 - 0xE0) * 4096 +
              ((((0x80 + c.toNat / 64 % 64) :: (0x80 + c.toNat % 64) :: bs).getD 0 0) - 0x80) * 64 +
              ((((0x80 + c.toNat / 64 % 64) :: (0x80 + c.toNat % 64) :: bs).getD 1 0) - 0x80)
              = c.toNat := by
            simp; omega
          rw [this, Char.ofNat_toNat]
        rw [show ((0xE0 + c.toNat / 4096) :: (0x80 + c.toNat / 64 % 64) ::
              (0x80 + c.toNat % 64) :: bs).length = (bs.length + 2) + 1 by simp]
        rw [utf8DecodeF_cons, hstep]
        simp only [List.drop_succ_cons, List.drop_zero]
        exact congrArg (c :: ·) (utf8DecodeF_fuel (bs.length + 2) bs.length bs
          (by omega) (by omega))
      · rw [utf8EncodeChar, if_neg hc1, if_neg hc2, if_neg hc3]
        rw [List.cons_append, List.cons_append, List.cons_append, List.cons_append,
          List.nil_append, utf8Decode]
        have hstep : utf8Step (0xF0 + c.toNat / 0x40000)
            ((0x80 + c.toNat / 4096 % 64) :: (0x80 + c.toNat / 64 % 64) ::
             (0x80 + c.toNat % 64) :: bs) = (c, 3) := by
          rw [utf8Step.eq_def, if_neg (by omega), if_neg (by omega), if_neg (by omega),
            if_pos (by constructor <;> omega)]
          rw [if_pos (by
            refine ⟨by simp, by simp [isCont]; omega, by simp [isCont]; omega,
              by simp [isCont]; omega, ?_, ?_⟩ <;> simp <;> omega)]
          have : (0xF0 + c.toNat / 0x40000 - 0xF0) * 0x40000 +
              ((((0x80 + c.toNat / 4096 % 64) :: (0x80 + c.toNat / 64 % 64) ::
                 (0x80 + c.toNat % 64) :: bs).getD 0 0) - 0x80) * 4096 +
              ((((0x80 + c.toNat / 4096 % 64) :: (0x80 + c.toNat / 64 % 64) ::
                 (0x80 + c.toNat % 64) :: bs).getD 1 0) - 0x80) * 64 +
              ((((0x80 + c.toNat / 4096 % 64) :: (0x80 + c.toNat / 64 % 64) ::
                 (0x80 + c.toNat % 64) :: bs).getD 2 0) - 0x80)
              = c.toNat := by
            simp; omega
          rw [this, Char.ofNat_toNat]
        rw [show ((0xF0 + c.toNat / 0x40000) :: (0x80 + c.toNat / 4096 % 64) ::
              (0x80 + c.toNat / 64 % 64) :: (0x80 + c.toNat % 64) :: bs).length
            = (bs.length + 3) + 1 by simp]
        rw [utf8DecodeF_cons, hstep]
        simp only [List.drop_succ_cons, List.drop_zero]
        exact congrArg (c :: ·) (utf8DecodeF_fuel (bs.length + 3) bs.length bs
          (by omega) (by omega))

/-- UTF-8 decoding inverts encoding. -/
theorem utf8_roundtrip : ∀ s : List Char, utf8Decode (utf8Encode s) = s := by
  intro s
  induction s with
  | nil => rfl
  | cons c rest ih =>
      rw [utf8Encode, List.flatMap_cons, ← utf8Encode]
      rw [utf8_char_decode, ih]

/-- Decoding an encoded payload returns the body exactly. -/
theorem decode_encode_id (body : List Char) :
    decodeJsx (encodeJsx body) = some body := by
  unfold encodeJsx decodeJsx
  rw [if_pos]
  · have hdrop : (BASE64_HEAD ++ (b64Encode (utf8Encode body) ++ BASE64_TAIL)).drop
        BASE64_HEAD.length = b64Encode (utf8Encode body) ++ BASE64_TAIL := by
      rw [List.drop_left]
    simp only [List.append_assoc] at hdrop ⊢
    rw [hdrop]
    have hlen : (b64Encode (utf8Encode body) ++ BASE64_TAIL).length - BASE64_TAIL.length
        = (b64Encode (utf8Encode body)).length := by
      simp
    rw [hlen, List.take_left]
    rw [b64Decode, b64_roundtrip _ (utf8Encode_lt body), utf8_roundtrip]
  · constructor
    · rw [List.isPrefixOf_iff_prefix, List.append_assoc]
      exact List.prefix_append _ _
    · rw [List.isSuffixOf_iff_suffix, List.append_assoc, ← List.append_assoc]
      exact List.suffix_append _ _

/-- C3: decoding an encoded payload returns the body exactly:
`decodeJsx (encodeJsx body) = some body` for every string `body`. -/
theorem decodeJsx_encodeJsx (body : List Char) :
    decodeJsx (encodeJsx body) = some body :=
  decode_encode_id body

/-! ## Claim theorem: expression scanner

A second rendering of the scanner contract, written from the specification's
words: a signed balance counter initialised to 1, a string mode with a
remembered quote character that is left only on an unescaped occurrence of
the same quote, success the instant the balance reaches 0 outside string
mode (returning the index of that closing brace), and "not found" when the
text ends first. -/

theorem step_agree (c prev sc : Char) (inStr : Bool) (bal : Int) :
    specScanStep (bal, if inStr then some sc else none) prev c
      = ((scanStep c prev sc inStr bal).2.2,
         if (scanStep c prev sc inStr bal).1 then some (scanStep c prev sc inStr bal).2.1
         else none) := by
  cases inStr <;> unfold specScanStep scanStep <;> simp only [] <;> split_ifs <;>
    simp_all <;> tauto

theorem scanStep_bal_ge (c prev sc : Char) (inStr : Bool) (bal : Int) (h : 1 ≤ bal)
    (hns : ¬((scanStep c prev sc inStr bal).1 = false ∧ (scanStep c prev sc inStr bal).2.2 = 0)) :
    1 ≤ (scanStep c prev sc inStr bal).2.2 := by
  unfold scanStep at *
  cases inStr <;> split_ifs at * <;> simp_all <;> omega

theorem scanStep_close (c prev sc : Char) (inStr : Bool) (bal : Int) (h : 1 ≤ bal)
    (hs : (scanStep c prev sc inStr bal).1 = false ∧ (scanStep c prev sc inStr bal).2.2 = 0) :
    c = '}' := by
  unfold scanStep at hs
  cases inStr <;> split_ifs at hs <;> simp_all <;> omega

theorem scanExpr_spec_some :
    ∀ (text : List Char) (bal : Int) (inStr : Bool) (sc prev : Char) (pos : Nat)
      (e r : List Char), 1 ≤ bal → scanExpr text bal inStr sc prev = some (e, r) →
      specScanFind text prev (bal, if inStr then some sc else none) pos
          = some (pos + e.length) ∧ text = e ++ '}' :: r := by
  intro text
  induction text with
  | nil => intro _ _ _ _ _ _ _ _ h; simp [scanExpr] at h
  | cons c rest ih =>
      intro bal inStr sc prev pos e r hb h
      rw [scanExpr] at h
      rw [specScanFind]
      simp only [step_agree]
      split at h
      · rename_i hs
        simp only [Option.some.injEq, Prod.mk.injEq] at h
        have hc : c = '}' := scanStep_close c prev sc inStr bal hb ⟨by simp [hs.1], hs.2⟩
        rw [if_pos ⟨by simp [hs.1], hs.2⟩]
        constructor
        · rw [← h.1]; simp
        · rw [← h.1, ← h.2, hc]; simp
      · rename_i hns
        rcases hrec : scanExpr rest (scanStep c prev sc inStr bal).2.2
            (scanStep c prev sc inStr bal).1 (scanStep c prev sc inStr bal).2.1 c with _ | ⟨e', r'⟩
        · rw [hrec] at h; simp at h
        · rw [hrec] at h
          simp only [Option.some.injEq, Prod.mk.injEq] at h
          have hb' : 1 ≤ (scanStep c prev sc inStr bal).2.2 := by
            apply scanStep_bal_ge c prev sc inStr bal hb
            intro hcon
            exact hns ⟨by simp [hcon.1], hcon.2⟩
          have ihres := ih (scanStep c prev sc inStr bal).2.2 (scanStep c prev sc inStr bal).1
            (scanStep c prev sc inStr bal).2.1 c (pos + 1) e' r' hb' hrec
          rw [if_neg]
          · constructor
            · rw [ihres.1]
              simp only [Option.some.injEq]
              rw [← h.1]
              simp
              omega
            · rw [← h.1, ← h.2, ihres.2]
              simp
          · intro hcon
            apply hns
            constructor
            · rcases hone : (scanStep c prev sc inStr bal).1 with _ | _
              · rfl
              · rw [hone] at hcon
                simp at hcon
            · exact hcon.2

theorem scanExpr_spec_none :
    ∀ (text : List Char) (bal : Int) (inStr : Bool) (sc prev : Char) (pos : Nat),
      1 ≤ bal → scanExpr text bal inStr sc prev = none →
      specScanFind text prev (bal, if inStr then some sc else none) pos = none := by
  intro text
  induction text with
  | nil => intro bal inStr sc prev pos _ _; rw [specScanFind]
  | cons c rest ih =>
      intro bal inStr sc prev pos hb h
      rw [scanExpr] at h
      rw [specScanFind]
      simp only [step_agree]
      split at h
      · simp at h
      · rename_i hns
        rcases hrec : scanExpr rest (scanStep c prev sc inStr bal).2.2
            (scanStep c prev sc inStr bal).1 (scanStep c prev sc inStr bal).2.1 c with _ | ⟨e', r'⟩
        · have hb' : 1 ≤ (scanStep c prev sc inStr bal).2.2 := by
            apply scanStep_bal_ge c prev sc inStr bal hb
            intro hcon
            exact hns ⟨by simp [hcon.1], hcon.2⟩
          rw [if_neg]
          · exact ih _ _ _ _ _ hb' hrec
          · intro hcon
            apply hns
            constructor
            · rcases hone : (scanStep c prev sc inStr bal).1 with _ | _
              · rfl
              · rw [hone] at hcon
                simp at hcon
            · exact hcon.2
        · rw [hrec] at h
          simp at h

/-- C2: the code's matching-brace search agrees with the spec's state
machine: on success it stops exactly at the spec's closing-brace index
(which is a `}`), it reports not-found exactly when the spec does, and the
two concrete contract examples hold: `() => { return {a:1} }}` is captured
to its outermost brace and `"}"}` is captured in full, not truncated inside
the string. -/
theorem scanner_matches_spec :
    (∀ (text e r : List Char), scanExpr text 1 false ' ' '{' = some (e, r) →
      specScanFind text '{' (1, none) 0 = some e.length ∧ text = e ++ '}' :: r) ∧
    (∀ text : List Char, scanExpr text 1 false ' ' '{' = none →
      specScanFind text '{' (1, none) 0 = none) ∧
    scanExpr "() => \x7b return \x7ba:1\x7d \x7d\x7d".data 1 false ' ' '{'
      = some ("() => \x7b return \x7ba:1\x7d \x7d".data, []) ∧
    scanExpr "\"\x7d\"\x7d".data 1 false ' ' '{' = some ("\"\x7d\"".data, []) := by
  refine ⟨?_, ?_, by decide, by decide⟩
  · intro text e r h
    have := scanExpr_spec_some text 1 false ' ' '{' 0 e r (by omega) h
    simpa using this
  · intro text h
    have := scanExpr_spec_none text 1 false ' ' '{' 0 (by omega) h
    simpa using this

/-- Witness for `scanner_matches_spec`: both implications applied at
concrete inputs. -/
theorem scanner_matches_spec_witness :
    (specScanFind "2\x7dabc".data '{' (1, none) 0 = some 1 ∧
      "2\x7dabc".data = "2".data ++ '}' :: "abc".data) ∧
    specScanFind "(\x7b".data '{' (1, none) 0 = none :=
  ⟨scanner_matches_spec.1 "2\x7dabc".data "2".data "abc".data (by decide),
   scanner_matches_spec.2.1 "(\x7b".data (by decide)⟩

/-! ## Claim theorem: unterminated expression handling -/

theorem hasSub_cons (pat : List Char) (c : Char) (s : List Char) :
    hasSub pat (c :: s) = (pat.isPrefixOf (c :: s) || hasSub pat s) := by
  rw [hasSub, List.tails_cons, List.any_cons, hasSub]


theorem replExprF_step (fuel : Nat) (c : Char) (t : List Char)
    (h : ¬(c = '=' ∧ t.head? = some '{')) :
    replaceJsxExpressionsF (fuel + 1) (c :: t) = c :: replaceJsxExpressionsF fuel t := by
  rw [replaceJsxExpressionsF.eq_def]
  split
  · rename_i heq _
    omega
  · rename_i heq
    simp at heq
  · rename_i heq
    exfalso
    apply h
    simp only [List.cons.injEq] at heq
    exact ⟨heq.1, by rw [heq.2]; rfl⟩
  · rename_i hno hfuel heq
    simp only [List.cons.injEq] at heq
    obtain ⟨h1, h2⟩ := heq
    subst h1
    subst h2
    simp only [Nat.succ_eq_add_one, Nat.add_right_cancel_iff] at hfuel
    rw [hfuel]

theorem replExprF_found (fuel : Nat) (e r rest : List Char)
    (hscan : scanExpr rest 1 false ' ' '{' = some (e, r)) :
    replaceJsxExpressionsF (fuel + 1) ('=' :: '{' :: rest)
      = '=' :: '"' :: (encodeJsx e ++ '"' :: replaceJsxExpressionsF fuel r) := by
  rw [replaceJsxExpressionsF.eq_def]
  split
  · rename_i heq _
    omega
  · rename_i heq
    simp at heq
  · rename_i hfuel heq
    simp only [List.cons.injEq, true_and] at heq
    subst heq
    simp only [Nat.succ_eq_add_one, Nat.add_right_cancel_iff] at hfuel
    rw [hfuel, hscan]
  · rename_i hno hfuel heq
    exfalso
    simp only [List.cons.injEq] at heq
    exact hno rest heq.1.symm heq.2.symm

theorem replExprF_notfound (fuel : Nat) (rest : List Char)
    (hscan : scanExpr rest 1 false ' ' '{' = none) :
    replaceJsxExpressionsF (fuel + 1) ('=' :: '{' :: rest)
      = '=' :: '{' :: replaceJsxExpressionsF fuel rest := by
  rw [replaceJsxExpressionsF.eq_def]
  split
  · rename_i heq _
    omega
  · rename_i heq
    simp at heq
  · rename_i hfuel heq
    simp only [List.cons.injEq, true_and] at heq
    subst heq
    simp only [Nat.succ_eq_add_one, Nat.add_right_cancel_iff] at hfuel
    rw [hfuel, hscan]
  · rename_i hno hfuel heq
    exfalso
    simp only [List.cons.injEq] at heq
    exact hno rest heq.1.symm heq.2.symm

theorem replExprF_fuel :
    ∀ (f1 f2 : Nat) (s : List Char), s.length ≤ f1 → s.length ≤ f2 →
      replaceJsxExpressionsF f1 s = replaceJsxExpressionsF f2 s := by
  intro f1
  induction f1 with
  | zero =>
      intro f2 s h1 _
      have : s = [] := List.eq_nil_of_length_eq_zero (by omega)
      subst this
      cases f2 <;> rfl
  | succ f1' ih =>
      intro f2 s h1 h2
      rcases s with _ | ⟨c, t⟩
      · cases f2 <;> rfl
      · rcases f2 with _ | f2'
        · simp at h2
        · simp only [List.length_cons] at h1 h2
          by_cases hsh : c = '=' ∧ t.head? = some '{'
          · obtain ⟨hc, hh⟩ := hsh
            rcases t with _ | ⟨d, rest⟩
            · simp at hh
            · simp only [List.head?_cons, Option.some.injEq] at hh
              subst hc
              subst hh
              rcases hscan : scanExpr rest 1 false ' ' '{' with _ | ⟨e, r⟩
              · rw [replExprF_notfound _ _ hscan, replExprF_notfound _ _ hscan]
                simp only [List.length_cons] at h1 h2
                rw [ih f2' rest (by omega) (by omega)]
              · rw [replExprF_found _ _ _ _ hscan, replExprF_found _ _ _ _ hscan]
                have := scanExpr_some_length _ _ _ _ _ _ _ hscan
                simp only [List.length_cons] at h1 h2
                rw [ih f2' r (by omega) (by omega)]
          · rw [replExprF_step _ _ _ hsh, replExprF_step _ _ _ hsh]
            rw [ih f2' t (by omega) (by omega)]

theorem replExpr_cons (c : Char) (t : List Char) (h : ¬(c = '=' ∧ t.head? = some '{')) :
    replaceJsxExpressions (c :: t) = c :: replaceJsxExpressions t := by
  show replaceJsxExpressionsF (c :: t).length (c :: t) = c :: replaceJsxExpressionsF t.length t
  rw [show (c :: t).length = t.length + 1 by simp]
  rw [replExprF_step _ _ _ h]

theorem replExpr_found (e r : List Char)
    (hr : scanExpr (e ++ '}' :: r) 1 false ' ' '{' = some (e, r)) :
    replaceJsxExpressions ('=' :: '{' :: (e ++ '}' :: r))
      = '=' :: '"' :: (encodeJsx e ++ '"' :: replaceJsxExpressions r) := by
  show replaceJsxExpressionsF ('=' :: '{' :: (e ++ '}' :: r)).length _
      = '=' :: '"' :: (encodeJsx e ++ '"' :: replaceJsxExpressionsF r.length r)
  rw [show ('=' :: '{' :: (e ++ '}' :: r)).length = ((e ++ '}' :: r).length + 1) + 1 by simp]
  rw [replExprF_found _ _ _ _ hr]
  rw [replExprF_fuel ((e ++ '}' :: r).length + 1) r.length r (by simp; omega) (by omega)]

theorem replExpr_notfound (r : List Char)
    (hr : scanExpr r 1 false ' ' '{' = none) :
    replaceJsxExpressions ('=' :: '{' :: r) = '=' :: '{' :: replaceJsxExpressions r := by
  show replaceJsxExpressionsF ('=' :: '{' :: r).length _
      = '=' :: '{' :: replaceJsxExpressionsF r.length r
  rw [show ('=' :: '{' :: r).length = (r.length + 1) + 1 by simp]
  rw [replExprF_notfound _ _ hr]
  rw [replExprF_fuel (r.length + 1) r.length r (by omega) (by omega)]

/-- C5: when an occurrence of `={` has no matching `}` before the end of the
text, the expression pass does not fail: all text before the `={` is emitted
unchanged, the `={` itself is emitted as literal text, and scanning resumes
one position past it on the unconsumed remainder (the function is total, so
it terminates). -/
theorem replaceJsxExpressions_unmatched (a r : List Char)
    (ha : hasSub ('=' :: '{' :: []) a = false)
    (hr : scanExpr r 1 false ' ' '{' = none) :
    replaceJsxExpressions (a ++ '=' :: '{' :: r)
      = a ++ '=' :: '{' :: replaceJsxExpressions r := by
  induction a with
  | nil => simpa using replExpr_notfound r hr
  | cons c a' ih =>
      rw [hasSub_cons, Bool.or_eq_false_iff] at ha
      have hc : ¬(c = '=' ∧ (a' ++ '=' :: '{' :: r).head? = some '{') := by
        rcases a' with _ | ⟨d, a''⟩
        · simp
        · intro hcon
          rcases hcon with ⟨h1, h2⟩
          simp only [List.cons_append, List.head?_cons, Option.some.injEq] at h2
          have hpre : ('=' :: '{' :: []).isPrefixOf (c :: d :: a'') = true := by
            rw [h1, h2]
            simp [List.isPrefixOf]
          exact absurd hpre (by simp [ha.1])
      rw [List.cons_append, replExpr_cons c _ hc, ih ha.2]
      simp

/-- Witness for `replaceJsxExpressions_unmatched` at `<e a={2` (scanner
fails on `2` with no closing brace). -/
theorem replaceJsxExpressions_unmatched_witness :
    replaceJsxExpressions ("<e a".data ++ '=' :: '{' :: "2".data)
      = "<e a".data ++ '=' :: '{' :: replaceJsxExpressions "2".data :=
  replaceJsxExpressions_unmatched "<e a".data "2".data (by decide) (by decide)


/-! ## Claim theorem: spread substitution indices -/

theorem spreadF_consF (fuel idx : Nat) (c : Char) (t : List Char)
    (h : ¬(c = '{' ∧ t.take 3 = ['.', '.', '.'])) :
    spreadFwdF (fuel + 1) idx (c :: t) = c :: spreadFwdF fuel idx t := by
  rw [spreadFwdF.eq_def]
  split
  · rename_i heq _
    omega
  · rename_i heq
    simp at heq
  · rename_i hfuel heq
    exfalso
    apply h
    simp only [List.cons.injEq] at heq
    exact ⟨heq.1, by rw [heq.2]; rfl⟩
  · rename_i hno hfuel heq
    simp only [List.cons.injEq] at heq
    obtain ⟨h1, h2⟩ := heq
    subst h1
    subst h2
    simp only [Nat.succ_eq_add_one, Nat.add_right_cancel_iff] at hfuel
    rw [hfuel]

theorem spreadF_hit (fuel idx : Nat) (rest : List Char) :
    spreadFwdF (fuel + 1) idx ('{' :: '.' :: '.' :: '.' :: rest)
      = if (rest.takeWhile (· ≠ '}')).length > 0 ∧
            rest.drop (rest.takeWhile (· ≠ '}')).length ≠ [] then
          "data-spread-".data ++ (Nat.repr idx).data ++ '=' :: '"' ::
            (encodeJsx (rest.takeWhile (· ≠ '}')) ++ '"' ::
              spreadFwdF fuel (idx + 1) (rest.drop ((rest.takeWhile (· ≠ '}')).length + 1)))
        else '{' :: spreadFwdF fuel idx ('.' :: '.' :: '.' :: rest) := by
  rw [spreadFwdF.eq_def]
  split
  · rename_i heq _
    omega
  · rename_i heq
    simp at heq
  · rename_i hfuel heq
    simp only [List.cons.injEq, true_and] at heq
    subst heq
    simp only [Nat.succ_eq_add_one, Nat.add_right_cancel_iff] at hfuel
    rw [hfuel]
  · rename_i hno hfuel heq
    exfalso
    simp only [List.cons.injEq] at heq
    exact hno rest heq.1.symm heq.2.symm

theorem spreadF_fuel :
    ∀ (f1 f2 idx : Nat) (s : List Char), s.length ≤ f1 → s.length ≤ f2 →
      spreadFwdF f1 idx s = spreadFwdF f2 idx s := by
  intro f1
  induction f1 with
  | zero =>
      intro f2 idx s h1 _
      have : s = [] := List.eq_nil_of_length_eq_zero (by omega)
      subst this
      cases f2 <;> rfl
  | succ f1' ih =>
      intro f2 idx s h1 h2
      rcases s with _ | ⟨c, t⟩
      · cases f2 <;> rfl
      · rcases f2 with _ | f2'
        · simp at h2
        · simp only [List.length_cons] at h1 h2
          by_cases hsh : c = '{' ∧ t.take 3 = ['.', '.', '.']
          · obtain ⟨hc, hd⟩ := hsh
            subst hc
            have ht : t = '.' :: '.' :: '.' :: t.drop 3 := by
              conv_lhs => rw [← List.take_append_drop 3 t]
              rw [hd]
              rfl
            have h3 : 3 ≤ t.length := by rw [ht]; simp
            rw [ht]
            rw [spreadF_hit, spreadF_hit]
            split
            · rw [ih f2' (idx + 1) _ (by simp; omega) (by simp; omega)]
            · rw [ih f2' idx ('.' :: '.' :: '.' :: t.drop 3)
                (by simp; omega) (by simp; omega)]
          · rw [spreadF_consF _ _ _ _ hsh, spreadF_consF _ _ _ _ hsh]
            rw [ih f2' idx t (by omega) (by omega)]

theorem spreadFwd_nil (idx : Nat) : spreadFwdRun idx [] = [] := rfl

theorem spreadFwd_cons (idx : Nat) (c : Char) (t : List Char) (h : c ≠ '{') :
    spreadFwdRun idx (c :: t) = c :: spreadFwdRun idx t := by
  show spreadFwdF (c :: t).length idx (c :: t) = c :: spreadFwdF t.length idx t
  rw [show (c :: t).length = t.length + 1 by simp]
  rw [spreadF_consF _ _ _ _ (fun hcon => h hcon.1)]

theorem spreadFwd_skip (idx : Nat) (seg t : List Char) (h : '{' ∉ seg) :
    spreadFwdRun idx (seg ++ t) = seg ++ spreadFwdRun idx t := by
  induction seg with
  | nil => simp
  | cons c seg' ih =>
      rw [List.cons_append, spreadFwd_cons idx c _ (by intro hc; exact h (by simp [hc]))]
      rw [ih (by intro hc; exact h (by simp [hc]))]
      simp

theorem spreadFwd_id (idx : Nat) (s : List Char) (h : '{' ∉ s) :
    spreadFwdRun idx s = s := by
  have := spreadFwd_skip idx s [] h
  simpa [spreadFwd_nil] using this

theorem takeWhile_append_stop (p : Char → Bool) (e : List Char) (c : Char) (t : List Char)
    (he : ∀ x ∈ e, p x = true) (hc : p c = false) :
    (e ++ c :: t).takeWhile p = e := by
  induction e with
  | nil => simp [List.takeWhile_cons, hc]
  | cons x e' ih =>
      rw [List.cons_append, List.takeWhile_cons, he x (by simp)]
      rw [ih (fun y hy => he y (by simp [hy]))]
      simp

theorem spreadFwd_match (idx : Nat) (e t : List Char) (hne : e ≠ [])
    (hbr : '}' ∉ e) :
    spreadFwdRun idx ('{' :: '.' :: '.' :: '.' :: (e ++ '}' :: t))
      = "data-spread-".data ++ (Nat.repr idx).data ++ '=' :: '"' ::
        (encodeJsx e ++ '"' :: spreadFwdRun (idx + 1) t) := by
  have htw : (e ++ '}' :: t).takeWhile (· ≠ '}') = e := by
    apply takeWhile_append_stop
    · intro x hx
      simp
      intro hcon
      exact hbr (hcon ▸ hx)
    · simp
  have hdrop1 : (e ++ '}' :: t).drop e.length = '}' :: t := List.drop_left e ('}' :: t)
  have hdrop2 : (e ++ '}' :: t).drop (e.length + 1) = t := by
    have h1 : e ++ '}' :: t = (e ++ ['}']) ++ t := by simp
    have h2 := List.drop_left (e ++ ['}']) t
    rw [List.length_append] at h2
    rw [h1]
    simpa using h2
  show spreadFwdF ('{' :: '.' :: '.' :: '.' :: (e ++ '}' :: t)).length idx _
      = "data-spread-".data ++ (Nat.repr idx).data ++ '=' :: '"' ::
        (encodeJsx e ++ '"' :: spreadFwdF t.length (idx + 1) t)
  rw [show ('{' :: '.' :: '.' :: '.' :: (e ++ '}' :: t)).length
      = ((e ++ '}' :: t).length + 3) + 1 by simp]
  rw [spreadF_hit, htw, hdrop1, hdrop2]
  rw [if_pos ⟨by simpa using List.length_pos_of_ne_nil hne, by simp⟩]
  rw [spreadF_fuel ((e ++ '}' :: t).length + 3) t.length (idx + 1) t (by simp; omega) (by omega)]

/-- C6: the spread pass of `convertJsxToSvg` replaces each `{...expr}`
occurrence (expr non-empty, no `}` inside, matched up to the first `}`)
with `data-spread-<n>="<encodeJsx expr>"`, numbering the occurrences
left-to-right from 0 within the call regardless of interspersed text: with
two spread occurrences the first receives index 0 and the second index 1. -/
theorem spread_indices (a b c e1 e2 : List Char)
    (ha : '{' ∉ a) (hb : '{' ∉ b) (hc : '{' ∉ c)
    (he1 : e1 ≠ []) (hbr1 : '}' ∉ e1) (he2 : e2 ≠ []) (hbr2 : '}' ∉ e2) :
    spreadFwdRun 0 (a ++ '{' :: '.' :: '.' :: '.' ::
        (e1 ++ '}' :: (b ++ '{' :: '.' :: '.' :: '.' :: (e2 ++ '}' :: c))))
      = a ++ ("data-spread-".data ++ (Nat.repr 0).data ++ '=' :: '"' ::
          (encodeJsx e1 ++ '"' :: (b ++ ("data-spread-".data ++ (Nat.repr 1).data ++
            '=' :: '"' :: (encodeJsx e2 ++ '"' :: c))))) := by
  rw [spreadFwd_skip 0 a _ ha]
  rw [spreadFwd_match 0 e1 _ he1 hbr1]
  rw [spreadFwd_skip 1 b _ hb]
  rw [spreadFwd_match 1 e2 _ he2 hbr2]
  rw [spreadFwd_id 2 c hc]

/-- Witness for `spread_indices` at `<e {...p} x {...q}/>`. -/
theorem spread_indices_witness :
    spreadFwdRun 0 ("<e ".data ++ '{' :: '.' :: '.' :: '.' ::
        ("p".data ++ '}' :: (" x ".data ++ '{' :: '.' :: '.' :: '.' ::
          ("q".data ++ '}' :: "/>".data))))
      = "<e ".data ++ ("data-spread-".data ++ (Nat.repr 0).data ++ '=' :: '"' ::
          (encodeJsx "p".data ++ '"' :: (" x ".data ++ ("data-spread-".data ++
            (Nat.repr 1).data ++ '=' :: '"' :: (encodeJsx "q".data ++ '"' :: "/>".data))))) :=
  spread_indices "<e ".data " x ".data "/>".data "p".data "q".data
    (by decide) (by decide) (by decide) (by decide) (by decide) (by decide) (by decide)


/-! ## Claim C1: round trip

The round-trip law fails as stated.  The expression `" /蜆"` (space, slash,
U+86C6) is a perfectly ordinary balanced brace-delimited attribute value,
but its encoded payload is `__JSX_BASE64__IC/onIY=__`, and the base64 text
`IC/onIY=` contains `onIY=` preceded by the non-word character `/` — exactly
what the event-handler rename pass `\b(on[A-Z]\w*)=` matches.  The forward
transcoder therefore rewrites the inside of the payload to
`IC/data-jsx-event-onIY=`, and the reverse transcoder decodes the corrupted
payload to garbage. -/

set_option maxRecDepth 40000 in
/-- C1 (counterexample): reverse transcoding the forward-transcoded text
does not restore `<e a={ /蜆}/>`, although that text uses only supported
constructs (a single balanced brace-delimited attribute expression). -/
theorem roundtrip_counterexample :
    convertSvgToJsx (convertJsxToSvg "<e a={ /蜆}/>".data) ≠ "<e a={ /蜆}/>".data := by
  decide

/-! ## C1 amended: toolkit for reasoning about the global-replace driver -/


theorem replRunF_fuel (m : Option Char → List Char → Option (Nat × List Char)) :
    ∀ (f1 f2 : Nat) (prev : Option Char) (s : List Char),
      s.length ≤ f1 → s.length ≤ f2 → replRunF m f1 prev s = replRunF m f2 prev s := by
  intro f1
  induction f1 with
  | zero =>
      intro f2 prev s h1 _
      have : s = [] := List.eq_nil_of_length_eq_zero (by omega)
      subst this
      cases f2 <;> rfl
  | succ f1' ih =>
      intro f2 prev s h1 h2
      rcases s with _ | ⟨c, t⟩
      · cases f2 <;> rfl
      · rcases f2 with _ | f2'
        · simp at h2
        · simp only [List.length_cons] at h1 h2
          rcases hm : m prev (c :: t) with _ | ⟨k, rep⟩
          · rw [replRunF, replRunF, hm]
            show c :: replRunF m f1' (some c) t = c :: replRunF m f2' (some c) t
            rw [ih f2' (some c) t (by omega) (by omega)]
          · rw [replRunF, replRunF, hm]
            show rep ++ replRunF m f1' (some ((c :: t).getD k c)) (t.drop k)
                = rep ++ replRunF m f2' (some ((c :: t).getD k c)) (t.drop k)
            have hd : (t.drop k).length ≤ t.length := by simp
            rw [ih f2' _ (t.drop k) (by omega) (by omega)]

theorem NoHit_cons (m : Option Char → List Char → Option (Nat × List Char))
    (prev : Option Char) (c : Char) (seg : List Char) (h : NoHit m prev (c :: seg)) :
    NoHit m (some c) seg := by
  intro i hi rest
  have := h (i + 1) (by simp; omega) rest
  simp only [prevAt] at this ⊢
  rcases i with _ | i'
  · simpa using this
  · simpa using this

theorem lastO_cons (prev : Option Char) (c : Char) (seg : List Char) :
    lastO prev (c :: seg) = lastO (some c) seg := by
  rcases hs : seg.getLast? with _ | d
  · have hseg : seg = [] := by
      cases seg
      · rfl
      · simp [List.getLast?_eq_getLast] at hs
    subst hseg
    simp [lastO]
  · simp [lastO, hs, List.getLast?_cons, Option.getD]

/-- Passthrough: a driver run over `seg ++ rest` where `seg` has no match
emits `seg` unchanged and continues on `rest`. -/
theorem replRun_passthrough (m : Option Char → List Char → Option (Nat × List Char)) :
    ∀ (seg : List Char) (prev : Option Char) (rest : List Char), NoHit m prev seg →
      replRun m prev (seg ++ rest) = seg ++ replRun m (lastO prev seg) rest := by
  intro seg
  induction seg with
  | nil => intro prev rest _; simp [lastO]
  | cons c seg' ih =>
      intro prev rest h
      show replRunF m ((c :: seg' ++ rest).length) prev (c :: (seg' ++ rest)) = _
      rw [show (c :: seg' ++ rest).length = (seg' ++ rest).length + 1 by simp]
      rw [replRunF]
      have h0 : m prev (c :: (seg' ++ rest)) = none := by
        have := h 0 (by simp) rest
        simpa [prevAt] using this
      rw [h0]
      show c :: replRunF m (seg' ++ rest).length (some c) (seg' ++ rest) = _
      rw [show replRunF m (seg' ++ rest).length (some c) (seg' ++ rest)
            = replRun m (some c) (seg' ++ rest) from rfl]
      rw [ih (some c) rest (NoHit_cons m prev c seg' h)]
      rw [lastO_cons]
      simp

theorem getD_snoc (u : List Char) (d c : Char) : (u ++ [d]).getD u.length c = d := by
  rw [List.getD_append_right u [d] _ _ (by omega)]
  simp

/-- Hit: a driver run over `matched ++ rest` where the matcher recognises
exactly `matched` at the front (for any continuation) emits the replacement
and continues after `matched`. -/
theorem replRun_hit (m : Option Char → List Char → Option (Nat × List Char))
    (c : Char) (mt rep rest : List Char) (prev : Option Char)
    (h : ∀ rest', m prev (c :: mt ++ rest') = some (mt.length, rep)) :
    replRun m prev ((c :: mt) ++ rest)
      = rep ++ replRun m (some ((c :: mt).getD mt.length c)) rest := by
  show replRunF m ((c :: mt ++ rest).length) prev (c :: (mt ++ rest)) = _
  rw [show (c :: mt ++ rest).length = (mt ++ rest).length + 1 by simp]
  rw [replRunF]
  have h0 := h rest
  simp only [List.cons_append] at h0
  rw [h0]
  show rep ++ replRunF m (mt ++ rest).length
      (some ((c :: (mt ++ rest)).getD mt.length c)) ((mt ++ rest).drop mt.length) = _
  rw [List.drop_left]
  have hg : (c :: (mt ++ rest)).getD mt.length c = (c :: mt).getD mt.length c := by
    rcases mt with _ | ⟨d, mt'⟩
    · simp
    · show ((c :: d :: mt') ++ rest).getD (d :: mt').length c = _
      rw [List.getD_append _ _ _ _ (by simp)]
  rw [hg]
  rw [replRunF_fuel m (mt ++ rest).length rest.length _ rest (by simp) (by omega)]
  rfl

/-- NoHit with the empty continuation, directly. -/
theorem replRun_pass_all (m : Option Char → List Char → Option (Nat × List Char))
    (seg : List Char) (prev : Option Char) (h : NoHit m prev seg) :
    replRun m prev seg = seg := by
  have h2 := replRun_passthrough m seg prev [] h
  have hnil : replRun m (lastO prev seg) [] = [] := rfl
  rw [hnil] at h2
  simpa using h2

theorem lastO_append (prev : Option Char) (a b : List Char) :
    lastO prev (a ++ b) = lastO (lastO prev a) b := by
  rcases hb : b.getLast? with _ | d
  · have hbe : b = [] := by
      cases b
      · rfl
      · simp [List.getLast?_eq_getLast] at hb
    subst hbe
    simp [lastO]
  · have : (a ++ b).getLast? = some d := by
      rw [List.getLast?_append]
      simp [hb]
    simp [lastO, hb, this]

theorem SegStepAll_of_noHit (m : Option Char → List Char → Option (Nat × List Char))
    (seg : List Char) (h : ∀ prev, NoHit m prev seg) : SegStepAll m seg seg :=
  fun prev rest => replRun_passthrough m seg prev rest (h prev)

theorem SegStepAll_append (m : Option Char → List Char → Option (Nat × List Char))
    (a1 b1 a2 b2 : List Char) (h1 : SegStepAll m a1 b1) (h2 : SegStepAll m a2 b2) :
    SegStepAll m (a1 ++ a2) (b1 ++ b2) := by
  intro prev rest
  rw [List.append_assoc, h1 prev (a2 ++ rest), h2 (lastO prev a1) rest,
    lastO_append, List.append_assoc]

/-- Chain segment steps over a whole list of segments. -/
theorem segSteps_concat (m : Option Char → List Char → Option (Nat × List Char)) :
    ∀ (pairs : List (List Char × List Char)),
      (∀ p ∈ pairs, SegStepAll m p.1 p.2) →
      SegStepAll m (pairs.map Prod.fst).flatten (pairs.map Prod.snd).flatten := by
  intro pairs
  induction pairs with
  | nil =>
      intro _
      intro prev rest
      simp [lastO]
  | cons p ps ih =>
      intro h
      simp only [List.map_cons, List.flatten_cons]
      exact SegStepAll_append m p.1 p.2 _ _ (h p (by simp))
        (ih (fun q hq => h q (by simp [hq])))


theorem NoHitOn_cons (m : Option Char → List Char → Option (Nat × List Char))
    (prev : Option Char) (c : Char) (seg rest : List Char)
    (h : NoHitOn m prev (c :: seg) rest) : NoHitOn m (some c) seg rest := by
  intro i hi
  have := h (i + 1) (by simp; omega)
  simp only [prevAt] at this ⊢
  rcases i with _ | i'
  · simpa using this
  · simpa using this

/-- Passthrough for a fixed continuation. -/
theorem replRun_passthrough_on (m : Option Char → List Char → Option (Nat × List Char)) :
    ∀ (seg : List Char) (prev : Option Char) (rest : List Char), NoHitOn m prev seg rest →
      replRun m prev (seg ++ rest) = seg ++ replRun m (lastO prev seg) rest := by
  intro seg
  induction seg with
  | nil => intro prev rest _; simp [lastO]
  | cons c seg' ih =>
      intro prev rest h
      show replRunF m ((c :: seg' ++ rest).length) prev (c :: (seg' ++ rest)) = _
      rw [show (c :: seg' ++ rest).length = (seg' ++ rest).length + 1 by simp]
      rw [replRunF]
      have h0 : m prev (c :: (seg' ++ rest)) = none := by
        have := h 0 (by simp)
        simpa [prevAt] using this
      rw [h0]
      show c :: replRunF m (seg' ++ rest).length (some c) (seg' ++ rest) = _
      rw [show replRunF m (seg' ++ rest).length (some c) (seg' ++ rest)
            = replRun m (some c) (seg' ++ rest) from rfl]
      rw [ih (some c) rest (NoHitOn_cons m prev c seg' rest h)]
      rw [lastO_cons]
      simp

/-- Hit for a fixed continuation. -/
theorem replRun_hit_on (m : Option Char → List Char → Option (Nat × List Char))
    (c : Char) (mt rep rest : List Char) (prev : Option Char)
    (h : m prev (c :: mt ++ rest) = some (mt.length, rep)) :
    replRun m prev ((c :: mt) ++ rest)
      = rep ++ replRun m (some ((c :: mt).getD mt.length c)) rest := by
  show replRunF m ((c :: mt ++ rest).length) prev (c :: (mt ++ rest)) = _
  rw [show (c :: mt ++ rest).length = (mt ++ rest).length + 1 by simp]
  rw [replRunF]
  simp only [List.cons_append] at h
  rw [h]
  show rep ++ replRunF m (mt ++ rest).length
      (some ((c :: (mt ++ rest)).getD mt.length c)) ((mt ++ rest).drop mt.length) = _
  rw [List.drop_left]
  have hg : (c :: (mt ++ rest)).getD mt.length c = (c :: mt).getD mt.length c := by
    rcases mt with _ | ⟨d, mt'⟩
    · simp
    · show ((c :: d :: mt') ++ rest).getD (d :: mt').length c = _
      rw [List.getD_append _ _ _ _ (by simp)]
  rw [hg]
  rw [replRunF_fuel m (mt ++ rest).length rest.length _ rest (by simp) (by omega)]
  rfl

theorem SegStepG_of_noHit (m : Option Char → List Char → Option (Nat × List Char))
    (seg : List Char)
    (h : ∀ prev rest, safeRest rest → NoHitOn m prev seg rest) :
    SegStepG m seg seg :=
  fun prev rest hrest => replRun_passthrough_on m seg prev rest (h prev rest hrest)

theorem safeRest_of_safeHead (a rest : List Char) (ha : safeHead a)
    (hrest : safeRest rest) : safeRest (a ++ rest) := by
  obtain ⟨c, t, heq, hc⟩ := ha
  subst heq
  intro x hx
  simp only [List.cons_append, List.head?_cons, Option.some.injEq] at hx
  subst hx
  exact hc

theorem SegStepG_append (m : Option Char → List Char → Option (Nat × List Char))
    (a1 b1 a2 b2 : List Char) (h1 : SegStepG m a1 b1) (h2 : SegStepG m a2 b2)
    (ha2 : safeHead a2) : SegStepG m (a1 ++ a2) (b1 ++ b2) := by
  intro prev rest hrest
  rw [List.append_assoc, h1 prev (a2 ++ rest) (safeRest_of_safeHead a2 rest ha2 hrest),
    h2 (lastO prev a1) rest hrest, lastO_append, List.append_assoc]

theorem safeHead_flatten (p : List Char × List Char) (ps : List (List Char × List Char))
    (h : ∀ q ∈ p :: ps, safeHead q.1) :
    safeHead (((p :: ps).map Prod.fst).flatten) := by
  obtain ⟨c, t, heq, hc⟩ := h p (by simp)
  exact ⟨c, t ++ ((ps.map Prod.fst).flatten), by simp [heq], hc⟩

theorem segStepsG_concat (m : Option Char → List Char → Option (Nat × List Char)) :
    ∀ (pairs : List (List Char × List Char)),
      (∀ p ∈ pairs, SegStepG m p.1 p.2 ∧ safeHead p.1) →
      SegStepG m (pairs.map Prod.fst).flatten (pairs.map Prod.snd).flatten := by
  intro pairs
  induction pairs with
  | nil =>
      intro _ prev rest _
      simp [lastO]
  | cons p ps ih =>
      intro h
      simp only [List.map_cons, List.flatten_cons]
      rcases ps with _ | ⟨q, qs⟩
      · simp only [List.map_nil, List.flatten_nil, List.append_nil]
        exact (h p (by simp)).1
      · exact SegStepG_append m p.1 p.2 _ _ (h p (by simp)).1
          (ih (fun r hr => h r (by simp [hr])))
          (safeHead_flatten q qs (fun r hr => (h r (by simp [hr])).2))

/-- A whole text-level pass: tag and closing segments pass through, each
attribute segment steps. -/
theorem replRun_text (m : Option Char → List Char → Option (Nat × List Char))
    (tag : List Char) (pairs : List (List Char × List Char))
    (hsegs : ∀ p ∈ pairs, SegStepG m p.1 p.2 ∧ safeHead p.1)
    (htag : SegStepG m ('<' :: tag) ('<' :: tag))
    (hclose : SegStepG m ['/', '>'] ['/', '>']) :
    replRun m none (textOf tag (pairs.map Prod.fst))
      = textOf tag (pairs.map Prod.snd) := by
  set P : List (List Char × List Char) := pairs ++ [(['/', '>'], ['/', '>'])] with hP
  have hsegs' : ∀ p ∈ P, SegStepG m p.1 p.2 ∧ safeHead p.1 := by
    intro p hp
    rw [hP, List.mem_append] at hp
    rcases hp with hp | hp
    · exact hsegs p hp
    · simp only [List.mem_singleton] at hp
      subst hp
      exact ⟨hclose, '/', ['>'], rfl, Or.inr rfl⟩
  have hmid := segStepsG_concat m P hsegs'
  have hPne : ∃ r rs, P = r :: rs := by
    rcases pairs with _ | ⟨r, rs⟩
    · exact ⟨_, _, rfl⟩
    · exact ⟨r, rs ++ [(['/', '>'], ['/', '>'])], by simp [hP]⟩
  obtain ⟨r, rs, hrrs⟩ := hPne
  have hsafeP : safeHead ((P.map Prod.fst).flatten) := by
    rw [hrrs]
    exact safeHead_flatten r rs (fun q hq => (hsegs' q (hrrs ▸ hq)).2)
  have hall := SegStepG_append m ('<' :: tag) ('<' :: tag) _ _ htag hmid hsafeP
  have happ := hall none [] (by intro c hc; simp at hc)
  have hfst : ('<' :: tag) ++ (P.map Prod.fst).flatten ++ []
      = textOf tag (pairs.map Prod.fst) := by
    simp [hP, textOf]
  have hsnd : ('<' :: tag) ++ (P.map Prod.snd).flatten
      = textOf tag (pairs.map Prod.snd) := by
    simp [hP, textOf]
  rw [List.append_nil] at happ hfst
  rw [hfst] at happ
  rw [happ, ← hsnd]
  have hnil : ∀ p, replRun m p [] = [] := fun p => rfl
  rw [hnil, List.append_nil]


theorem isPrefixOf_append_cases :
    ∀ (tok u w : List Char), tok.isPrefixOf (u ++ w) = true →
      tok.isPrefixOf u = true ∨ u.isPrefixOf tok = true := by
  intro tok
  induction tok with
  | nil => intro u w _; left; simp [List.isPrefixOf]
  | cons c tok' ih =>
      intro u w h
      rcases u with _ | ⟨d, u'⟩
      · right; simp [List.isPrefixOf]
      · rw [List.cons_append] at h
        simp only [List.isPrefixOf, Bool.and_eq_true, beq_iff_eq] at h ⊢
        rcases h with ⟨h1, h2⟩
        rcases ih u' w h2 with h3 | h3
        · left; exact ⟨h1, h3⟩
        · right; exact ⟨h1.symm, h3⟩

theorem head_of_isPrefixOf (c : Char) (t b : List Char)
    (h : (c :: t).isPrefixOf b = true) : b.head? = some c := by
  cases b
  · simp [List.isPrefixOf] at h
  · simp only [List.isPrefixOf, Bool.and_eq_true, beq_iff_eq] at h
    simp [h.1]

/-- If a token without spaces or slashes is a prefix of `u ++ rest` for a
safe continuation `rest`, the whole token sits inside `u`. -/
theorem prefixOf_append_safe (tok u rest : List Char)
    (htokc : ∀ c ∈ tok, c ≠ ' ' ∧ c ≠ '/') (hrest : safeRest rest)
    (hp : tok.isPrefixOf (u ++ rest) = true) : tok.isPrefixOf u = true := by
  rcases isPrefixOf_append_cases tok u rest hp with h | h
  · exact h
  · obtain ⟨d, hd⟩ := List.isPrefixOf_iff_prefix.mp h
    rcases hdd : d with _ | ⟨c0, d'⟩
    · subst hdd
      rw [List.append_nil] at hd
      subst hd
      exact List.isPrefixOf_iff_prefix.mpr List.prefix_rfl
    · subst hdd
      have hpre2 : u ++ c0 :: d' <+: u ++ rest := by
        rw [hd]
        exact List.isPrefixOf_iff_prefix.mp hp
      have hdp : c0 :: d' <+: rest := (List.prefix_append_right_inj u).mp hpre2
      obtain ⟨w, hw⟩ := hdp
      have hhead : rest.head? = some c0 := by rw [← hw]; rfl
      have hc0 : c0 ∈ tok := by rw [← hd]; simp
      have h2 := htokc c0 hc0
      rcases hrest c0 hhead with h' | h'
      · exact absurd h' h2.1
      · exact absurd h' h2.2

theorem boundaryOk_mono (prev : Option Char) (seg : List Char) (i : Nat)
    (h : boundaryOk (prevAt prev seg i) = true) :
    boundaryOk (prevAtD seg i) = true := by
  unfold prevAt at h
  unfold prevAtD
  split at h
  · simp_all [boundaryOk, isWordChar]
  · split
    · simp [boundaryOk, isWordChar]
    · exact h

theorem tokClearIn_noHit (tok rep seg rest : List Char)
    (htokc : ∀ c ∈ tok, c ≠ ' ' ∧ c ≠ '/')
    (hclear : tokClearIn tok seg = true) (hrest : safeRest rest)
    (prev : Option Char) : NoHitOn (tokTry tok rep) prev seg rest := by
  intro i hi
  unfold tokTry
  rw [if_neg]
  intro hand
  obtain ⟨hb, hp⟩ := hand
  unfold tokClearIn at hclear
  have hcheck := (List.all_eq_true.mp hclear) i (by simp [List.mem_range]; omega)
  simp only [Bool.not_eq_true', Bool.and_eq_false_iff] at hcheck
  rcases hcheck with hc | hc
  · rw [boundaryOk_mono prev seg i hb] at hc
    simp at hc
  · rw [prefixOf_append_safe tok (seg.drop i) rest htokc hrest hp] at hc
    simp at hc

theorem takeWhile_append_all (p : Char → Bool) (a b : List Char)
    (h : ∀ c ∈ a, p c = true) :
    (a ++ b).takeWhile p = a ++ b.takeWhile p := by
  rw [List.takeWhile_append, (List.takeWhile_eq_self_iff).mpr h]
  simp

theorem takeWhile_append_break (p : Char → Bool) (a b : List Char)
    (h : (a.takeWhile p).length < a.length) :
    (a ++ b).takeWhile p = a.takeWhile p := by
  rw [List.takeWhile_append, if_neg (by omega)]

theorem eventClearIn_noHit (seg rest : List Char)
    (hclear : eventClearIn seg = true) (hrest : safeRest rest)
    (prev : Option Char) : NoHitOn eventFwdTry prev seg rest := by
  intro i hi
  unfold eventClearIn at hclear
  have hcheck := (List.all_eq_true.mp hclear) i (by simp [List.mem_range]; omega)
  simp only [Bool.not_eq_true', Bool.and_eq_false_iff] at hcheck
  rcases hu : seg.drop i with _ | ⟨c1, u1⟩
  · exfalso
    have h0 : (seg.drop i).length = 0 := by rw [hu]; rfl
    simp at h0
    omega
  rcases u1 with _ | ⟨c2, u2⟩
  · -- one remaining segment character: the 'n' would come from the rest
    simp only [List.cons_append, List.nil_append]
    rw [eventFwdTry.eq_def]
    split
    · rename_i uu rr heq
      simp only [List.cons.injEq] at heq
      obtain ⟨hc1, hr⟩ := heq
      exfalso
      rcases hrest 'n' (by rw [hr]; rfl) with h' | h' <;> simp at h'
    · rfl
  rcases u2 with _ | ⟨c3, u3⟩
  · -- two remaining characters: the upper-case letter would come from rest
    simp only [List.cons_append, List.nil_append]
    rw [eventFwdTry.eq_def]
    split
    · rename_i uu rr heq
      simp only [List.cons.injEq] at heq
      obtain ⟨hc1, hc2, hr⟩ := heq
      have hup : isUpperAZ uu = false := by
        rcases hrest uu (by rw [hr]; rfl) with h' | h' <;> (subst h'; decide)
      have hcond : ¬(boundaryOk (prevAt prev seg i) = true ∧ isUpperAZ uu = true) := by
        intro hand
        rw [hup] at hand
        simp at hand
      rw [if_neg hcond]
    · rfl
  · -- at least three characters inside the segment
    simp only [List.cons_append]
    rw [eventFwdTry.eq_def]
    split
    · rename_i heq
      simp only [List.cons.injEq] at heq
      obtain ⟨hc1, hc2, hc3, hr⟩ := heq
      subst hc1
      subst hc2
      subst hc3
      subst hr
      by_cases hband : boundaryOk (prevAt prev seg i) = true ∧ isUpperAZ c3 = true
      · rw [if_pos hband]
        rcases hcheck with hc | hc
        · rw [boundaryOk_mono prev seg i hband.1] at hc
          simp at hc
        · rw [hu] at hc
          have hinner : (match u3.drop ((u3.takeWhile isWordChar).length) with
              | x :: _ => decide (x = '=')
              | [] => false) = false := by
            have hred : eventHitsIn ('o' :: 'n' :: c3 :: u3)
                = (decide ('o' = 'o') && decide ('n' = 'n') && isUpperAZ c3 &&
                    (match u3.drop ((u3.takeWhile isWordChar).length) with
                     | x :: _ => decide (x = '=')
                     | [] => false)) := rfl
            rw [hred] at hc
            simpa [hband.2] using hc
          by_cases hlt : (u3.takeWhile isWordChar).length < u3.length
          · rw [takeWhile_append_break isWordChar u3 rest hlt]
            simp only [List.drop_append_of_le_length (le_of_lt hlt)]
            rcases hdr : u3.drop (u3.takeWhile isWordChar).length with _ | ⟨X, u4⟩
            · exfalso
              have : (u3.drop (u3.takeWhile isWordChar).length).length = 0 := by
                rw [hdr]; rfl
              simp at this
              omega
            · rw [hdr] at hinner
              simp only [List.cons_append]
              split
              · rename_i heq2
                simp only [List.cons.injEq] at heq2
                exfalso
                rw [heq2.1] at hinner
                simp at hinner
              · rfl
          · have hall : ∀ c ∈ u3, isWordChar c = true := by
              have hlen : (u3.takeWhile isWordChar).length = u3.length := by
                have := (List.takeWhile_prefix (l := u3) isWordChar).length_le
                omega
              have heq3 : u3.takeWhile isWordChar = u3 :=
                (List.takeWhile_prefix isWordChar).eq_of_length hlen
              exact (List.takeWhile_eq_self_iff).mp heq3
            rw [takeWhile_append_all isWordChar u3 rest hall]
            have htwr : rest.takeWhile isWordChar = [] := by
              rcases hrr : rest with _ | ⟨r1, rest'⟩
              · rfl
              · have := hrest r1 (by rw [hrr]; rfl)
                rcases this with h' | h' <;>
                  (subst h'; simp [List.takeWhile_cons, isWordChar])
            rw [htwr, List.append_nil]
            simp only [List.drop_append_of_le_length (le_refl u3.length),
              List.drop_length, List.nil_append]
            rcases hrr : rest with _ | ⟨r1, rest'⟩
            · rfl
            · have hr1 := hrest r1 (by rw [hrr]; rfl)
              split
              · rename_i heq2
                simp only [List.cons.injEq] at heq2
                exfalso
                rcases hr1 with h' | h' <;> (rw [h'] at heq2; exact absurd heq2.1 (by decide))
              · rfl
      · rw [if_neg hband]
    · rfl

theorem drop_len_pos (u : List Char) (k : Nat) (hk : k < u.length) :
    u.drop k ≠ [] := by
  intro hcon
  have : (u.drop k).length = 0 := by rw [hcon]; rfl
  simp at this
  omega

theorem payloadClearIn_noHit (seg rest : List Char)
    (hclear : payloadClearIn seg = true) (hrest : safeRest rest)
    (prev : Option Char) : NoHitOn payloadRevTry prev seg rest := by
  intro i hi
  unfold payloadClearIn at hclear
  have hcheck := (List.all_eq_true.mp hclear) i (by simp [List.mem_range]; omega)
  simp only [Bool.not_eq_true'] at hcheck
  have hulen : 0 < (seg.drop i).length := by simp; omega
  show payloadRevTry (prevAt prev seg i) (seg.drop i ++ rest) = none
  set u := seg.drop i with hu
  clear_value u
  unfold payloadRevTry
  simp only [ne_eq]
  have htwr : rest.takeWhile isWordChar = [] := by
    rcases hrr : rest with _ | ⟨r1, rest'⟩
    · rfl
    · have := hrest r1 (by rw [hrr]; rfl)
      rcases this with h' | h' <;> (subst h'; simp [List.takeWhile_cons, isWordChar])
  by_cases hw0 : (u.takeWhile isWordChar).length = 0
  · -- the head of the remaining segment is not a word character
    rcases huc : u with _ | ⟨c1, u1⟩
    · rw [huc] at hulen; simp at hulen
    · subst huc
      have hc1 : isWordChar c1 = false := by
        rcases hb : isWordChar c1
        · rfl
        · rw [List.takeWhile_cons, hb] at hw0
          simp at hw0
      have htw : (c1 :: (u1 ++ rest)).takeWhile isWordChar = [] := by
        simp [List.takeWhile_cons, hc1]
      simp only [List.cons_append]
      rw [htw]
      simp
  · by_cases hlt : (u.takeWhile isWordChar).length < u.length
    · -- the word run stops strictly inside the segment
      have hle : (u.takeWhile isWordChar).length ≤ u.length := le_of_lt hlt
      rw [takeWhile_append_break isWordChar u rest hlt]
      have hne : ¬(u.takeWhile isWordChar = []) := by
        intro hcon
        rw [hcon] at hw0
        simp at hw0
      rw [if_pos hne]
      simp only [List.drop_append_of_le_length hle]
      rcases hdr : u.drop (u.takeWhile isWordChar).length with _ | ⟨X, u2⟩
      · exact absurd hdr (drop_len_pos u _ hlt)
      · simp only [List.cons_append]
        split
        · rename_i q r2 heq
          simp only [List.cons.injEq] at heq
          obtain ⟨hX, hq2⟩ := heq
          subst hX
          rcases hu2 : u2 with _ | ⟨q2, u3⟩
          · -- the quote would have to come from the continuation
            subst hu2
            simp only [List.nil_append] at hq2
            have hqs := hrest q (by rw [hq2]; rfl)
            have hqq : ¬(q = '"' ∨ q = '\'') := by
              rcases hqs with h' | h' <;> (subst h'; decide)
            rw [if_neg hqq]
          · -- the payload head literal would have to sit inside the segment
            subst hu2
            simp only [List.cons_append, List.cons.injEq] at hq2
            obtain ⟨hqq2, hr2⟩ := hq2
            subst hqq2
            subst hr2
            by_cases hquote : q2 = '"' ∨ q2 = '\''
            · rw [if_pos hquote]
              have hckX : BASE64_HEAD.isPrefixOf u3 = false := by
                unfold payloadUnsafeAt at hcheck
                simp only [ne_eq] at hcheck
                rw [if_neg hw0,
                  if_neg (by omega : ¬((u.takeWhile isWordChar).length = u.length)),
                  hdr] at hcheck
                rcases hquote with h' | h' <;> (subst h'; simpa using hcheck)
              have hpref : ¬(BASE64_HEAD.isPrefixOf (u3 ++ rest) = true) := by
                intro hp
                have := prefixOf_append_safe BASE64_HEAD u3 rest (by decide) hrest hp
                rw [this] at hckX
                simp at hckX
              rw [if_neg hpref]
            · rw [if_neg hquote]
        · rfl
    · -- the whole remaining segment is one word run
      have hlen2 : (u.takeWhile isWordChar).length = u.length := by
        have := (List.takeWhile_prefix (l := u) isWordChar).length_le
        omega
      have hteq : u.takeWhile isWordChar = u :=
        (List.takeWhile_prefix isWordChar).eq_of_length hlen2
      have hall := (List.takeWhile_eq_self_iff).mp hteq
      rw [takeWhile_append_all isWordChar u rest hall, htwr, List.append_nil]
      rw [if_pos (by
        intro hcon
        rw [hcon] at hulen
        simp at hulen)]
      simp only [List.drop_append_of_le_length (le_refl u.length), List.drop_length,
        List.nil_append]
      rcases hrr : rest with _ | ⟨r1, rest'⟩
      · rfl
      · have hr1 := hrest r1 (by rw [hrr]; rfl)
        split
        · rename_i q r2 heq
          simp only [List.cons.injEq] at heq
          exfalso
          rcases hr1 with h' | h' <;> (rw [h'] at heq; exact absurd heq.1 (by decide))
        · rfl


theorem lastO_of_getLast (prev : Option Char) (l : List Char) (x : Char)
    (h : l.getLast? = some x) : lastO prev l = some x := by
  simp [lastO, h]

theorem tokTry_none_at_space (tok rep : List Char) (htok0 : tok ≠ [])
    (htokc : ∀ c ∈ tok, c ≠ ' ') (p : Option Char) (X : List Char) :
    tokTry tok rep p (' ' :: X) = none := by
  unfold tokTry
  rw [if_neg]
  intro hand
  obtain ⟨_, hp⟩ := hand
  rcases tok with _ | ⟨c0, tok'⟩
  · exact htok0 rfl
  · have := head_of_isPrefixOf c0 tok' (' ' :: X) hp
    simp only [List.head?_cons, Option.some.injEq] at this
    exact htokc c0 (by simp) this.symm

theorem eventFwdTry_none_at_space (p : Option Char) (X : List Char) :
    eventFwdTry p (' ' :: X) = none := by
  rw [eventFwdTry.eq_def]
  split
  · rename_i heq
    simp only [List.cons.injEq] at heq
    exact absurd heq.1 (by decide)
  · rfl

theorem payloadRevTry_none_at_space (p : Option Char) (X : List Char) :
    payloadRevTry p (' ' :: X) = none := by
  unfold payloadRevTry
  have htw : (' ' :: X).takeWhile isWordChar = [] := by
    simp [List.takeWhile_cons, isWordChar]
  rw [htw]
  simp

theorem spreadRevTry_none_at_space (p : Option Char) (X : List Char) :
    spreadRevTry p (' ' :: X) = none := by
  unfold spreadRevTry
  rw [if_neg]
  intro hand
  have := head_of_isPrefixOf 'd' ("ata-spread-".data) (' ' :: X) hand.2
  simp at this

theorem eventRevTry_none_at_space (p : Option Char) (X : List Char) :
    eventRevTry p (' ' :: X) = none := by
  unfold eventRevTry
  rw [if_neg]
  intro hand
  have := head_of_isPrefixOf 'd' ("ata-jsx-event-".data) (' ' :: X) hand.2
  simp at this

/-- Matchers guarded by a boundary check and a literal prefix are clear on
segments the token checker clears. -/
theorem guardClear_noHit (g : List Char)
    (m : Option Char → List Char → Option (Nat × List Char))
    (hm : ∀ prev s r, m prev s = some r →
      boundaryOk prev = true ∧ g.isPrefixOf s = true)
    (hg : ∀ c ∈ g, c ≠ ' ' ∧ c ≠ '/') (seg rest : List Char)
    (hclear : tokClearIn g seg = true) (hrest : safeRest rest)
    (prev : Option Char) : NoHitOn m prev seg rest := by
  intro i hi
  rcases hres : m (prevAt prev seg i) (seg.drop i ++ rest) with _ | r
  · rfl
  · exfalso
    obtain ⟨hb, hp⟩ := hm _ _ _ hres
    unfold tokClearIn at hclear
    have hcheck := (List.all_eq_true.mp hclear) i (by simp [List.mem_range]; omega)
    simp only [Bool.not_eq_true', Bool.and_eq_false_iff] at hcheck
    rcases hcheck with hc | hc
    · rw [boundaryOk_mono prev seg i hb] at hc
      simp at hc
    · rw [prefixOf_append_safe g (seg.drop i) rest hg hrest hp] at hc
      simp at hc

theorem spreadRevTry_guard (prev : Option Char) (s : List Char) (r : Nat × List Char)
    (h : spreadRevTry prev s = some r) :
    boundaryOk prev = true ∧ GSP.isPrefixOf s = true := by
  unfold spreadRevTry at h
  by_cases hc : boundaryOk prev = true ∧ ("data-spread-".data).isPrefixOf s = true
  · exact hc
  · rw [if_neg hc] at h
    cases h

theorem eventRevTry_guard (prev : Option Char) (s : List Char) (r : Nat × List Char)
    (h : eventRevTry prev s = some r) :
    boundaryOk prev = true ∧ GJE.isPrefixOf s = true := by
  unfold eventRevTry at h
  by_cases hc : boundaryOk prev = true ∧ ("data-jsx-event-".data).isPrefixOf s = true
  · exact hc
  · rw [if_neg hc] at h
    cases h

/-- A segment starting with a space whose body the matcher consumes in one
hit reaching the final character. -/
theorem segStep_space_hit (m : Option Char → List Char → Option (Nat × List Char))
    (core rep : List Char) (L : Char)
    (hspace : ∀ (p : Option Char) (X : List Char), m p (' ' :: X) = none)
    (hhit : ∀ X, m (some ' ') ((core ++ [L]) ++ X) = some (core.length, rep)) :
    SegStepG m (' ' :: (core ++ [L])) (' ' :: rep) := by
  intro prev rest hrest
  have hsp : NoHitOn m prev [' '] ((core ++ [L]) ++ rest) := by
    intro i hi
    have hi0 : i = 0 := by simpa using hi
    subst hi0
    exact hspace _ _
  have h1 := replRun_passthrough_on m [' '] prev ((core ++ [L]) ++ rest) hsp
  have hL0 : lastO prev [' '] = some ' ' := by simp [lastO]
  obtain ⟨c, mt, hc⟩ : ∃ c mt, core ++ [L] = c :: mt := by
    rcases core with _ | ⟨c0, core'⟩
    · exact ⟨L, [], rfl⟩
    · exact ⟨c0, core' ++ [L], rfl⟩
  have hmtlen : mt.length = core.length := by
    have hl : (core ++ [L]).length = core.length + 1 := by simp
    rw [hc] at hl
    simp at hl
    omega
  have hhit' : m (some ' ') (c :: mt ++ rest) = some (mt.length, rep) := by
    have hx := hhit rest
    rw [hc] at hx
    rw [hmtlen]
    exact hx
  have h2 := replRun_hit_on m c mt rep rest (some ' ') hhit'
  have hgetD : (c :: mt).getD mt.length c = L := by
    rw [← hc, hmtlen]
    exact getD_snoc core L c
  have hfin : lastO prev (' ' :: (core ++ [L])) = some L := by
    have hsh : (' ' :: (core ++ [L])) = (' ' :: core) ++ [L] := by simp
    rw [hsh]
    exact lastO_of_getLast prev _ L (by rw [List.getLast?_concat])
  calc replRun m prev ((' ' :: (core ++ [L])) ++ rest)
      = replRun m prev ([' '] ++ ((core ++ [L]) ++ rest)) := by simp
    _ = [' '] ++ replRun m (some ' ') ((core ++ [L]) ++ rest) := by rw [h1, hL0]
    _ = [' '] ++ replRun m (some ' ') ((c :: mt) ++ rest) := by rw [hc]
    _ = [' '] ++ (rep ++ replRun m (some L) rest) := by rw [h2, hgetD]
    _ = (' ' :: rep) ++ replRun m (lastO prev (' ' :: (core ++ [L]))) rest := by
        rw [hfin]; simp

/-- Same, followed by a clear quoted-value part ending in `TL`. -/
theorem segStep_space_hit_tail (m : Option Char → List Char → Option (Nat × List Char))
    (core rep tail : List Char) (L TL : Char)
    (hspace : ∀ (p : Option Char) (X : List Char), m p (' ' :: X) = none)
    (hhit : ∀ X, m (some ' ') ((core ++ [L]) ++ X) = some (core.length, rep))
    (htail : ∀ (p : Option Char) (r : List Char), safeRest r → NoHitOn m p tail r)
    (hTL : tail.getLast? = some TL) :
    SegStepG m (' ' :: ((core ++ [L]) ++ tail)) (' ' :: (rep ++ tail)) := by
  intro prev rest hrest
  have hsp : NoHitOn m prev [' '] ((core ++ [L]) ++ (tail ++ rest)) := by
    intro i hi
    have hi0 : i = 0 := by simpa using hi
    subst hi0
    exact hspace _ _
  have h1 := replRun_passthrough_on m [' '] prev ((core ++ [L]) ++ (tail ++ rest)) hsp
  have hL0 : lastO prev [' '] = some ' ' := by simp [lastO]
  obtain ⟨c, mt, hc⟩ : ∃ c mt, core ++ [L] = c :: mt := by
    rcases core with _ | ⟨c0, core'⟩
    · exact ⟨L, [], rfl⟩
    · exact ⟨c0, core' ++ [L], rfl⟩
  have hmtlen : mt.length = core.length := by
    have hl : (core ++ [L]).length = core.length + 1 := by simp
    rw [hc] at hl
    simp at hl
    omega
  have hhit' : m (some ' ') (c :: mt ++ (tail ++ rest)) = some (mt.length, rep) := by
    have hx := hhit (tail ++ rest)
    rw [hc] at hx
    rw [hmtlen]
    exact hx
  have h2 := replRun_hit_on m c mt rep (tail ++ rest) (some ' ') hhit'
  have hgetD : (c :: mt).getD mt.length c = L := by
    rw [← hc, hmtlen]
    exact getD_snoc core L c
  have h3 := replRun_passthrough_on m tail (some L) rest (htail (some L) rest hrest)
  have htlast : lastO (some L) tail = some TL := lastO_of_getLast _ _ _ hTL
  have hfin : lastO prev (' ' :: ((core ++ [L]) ++ tail)) = some TL := by
    have hsh : (' ' :: ((core ++ [L]) ++ tail)) = (' ' :: (core ++ [L])) ++ tail := by
      simp
    rw [hsh, lastO_append]
    exact lastO_of_getLast _ _ _ hTL
  calc replRun m prev ((' ' :: ((core ++ [L]) ++ tail)) ++ rest)
      = replRun m prev ([' '] ++ ((core ++ [L]) ++ (tail ++ rest))) := by simp
    _ = [' '] ++ replRun m (some ' ') ((core ++ [L]) ++ (tail ++ rest)) := by
        rw [h1, hL0]
    _ = [' '] ++ replRun m (some ' ') ((c :: mt) ++ (tail ++ rest)) := by rw [hc]
    _ = [' '] ++ (rep ++ replRun m (some L) (tail ++ rest)) := by rw [h2, hgetD]
    _ = [' '] ++ (rep ++ (tail ++ replRun m (lastO (some L) tail) rest)) := by rw [h3]
    _ = (' ' :: (rep ++ tail)) ++ replRun m (lastO prev (' ' :: ((core ++ [L]) ++ tail))) rest := by
        rw [htlast, hfin]; simp


theorem isPrefixOf_self_append (l X : List Char) : l.isPrefixOf (l ++ X) = true :=
  List.isPrefixOf_iff_prefix.mpr (List.prefix_append l X)

theorem encodeJsx_chars (body : List Char) :
    ∀ c ∈ encodeJsx body, c ≠ '"' ∧ c ≠ '\'' ∧ c ≠ '{' ∧ c ≠ '}' ∧ c ≠ ' ' := by
  intro c hc
  have h := encodeJsx_mem body c hc
  have hall : ∀ x ∈ ('_' :: (b64Alphabet ++ ['='])),
      x ≠ '"' ∧ x ≠ '\'' ∧ x ≠ '{' ∧ x ≠ '}' ∧ x ≠ ' ' := by decide
  apply hall
  rcases h with h | h | h
  · simp [h]
  · simp [h]
  · simp [h]

theorem b64Encode_chars (bs : List Nat) :
    ∀ c ∈ b64Encode bs, c ≠ '_' ∧ c ≠ '"' ∧ c ≠ '\'' := by
  intro c hc
  have hall : ∀ x ∈ (b64Alphabet ++ ['=']), x ≠ '_' ∧ x ≠ '"' ∧ x ≠ '\'' := by decide
  apply hall
  rcases b64Encode_mem bs c hc with h | h
  · simp [h]
  · simp [h]

theorem lazyEnd_b64 (rest : List Char) :
    ∀ (bs : List Char), (∀ c ∈ bs, c ≠ '_' ∧ c ≠ '"' ∧ c ≠ '\'') →
      lazyPayloadEnd '"' (bs ++ '_' :: '_' :: '"' :: rest) = some bs.length := by
  intro bs
  induction bs with
  | nil =>
      intro _
      rw [List.nil_append, lazyPayloadEnd]
      rw [if_pos (show lazyEndsHere '"' ('_' :: '_' :: '"' :: rest) = true from rfl)]
      rfl
  | cons c bs ih =>
      intro h
      have hc := h c (by simp)
      rw [List.cons_append, lazyPayloadEnd]
      have hend : lazyEndsHere '"' (c :: (bs ++ '_' :: '_' :: '"' :: rest)) = false := by
        rw [lazyEndsHere.eq_def]
        split
        · rename_i heq
          simp only [List.cons.injEq] at heq
          exact absurd heq.1 hc.1
        · rfl
      rw [if_neg (by simp [hend])]
      rw [if_neg (by
        intro hcon
        rcases hcon with h' | h'
        · exact hc.2.1 h'
        · exact hc.2.2 h')]
      rw [ih (fun x hx => h x (by simp [hx]))]
      rfl

theorem tokTry_clear_step (tok rep seg : List Char)
    (htokc : ∀ c ∈ tok, c ≠ ' ' ∧ c ≠ '/')
    (hclear : tokClearIn tok seg = true) : SegStepG (tokTry tok rep) seg seg :=
  SegStepG_of_noHit _ _ (fun p r hr => tokClearIn_noHit tok rep seg r htokc hclear hr p)

theorem eventFwd_clear_step (seg : List Char) (hclear : eventClearIn seg = true) :
    SegStepG eventFwdTry seg seg :=
  SegStepG_of_noHit _ _ (fun p r hr => eventClearIn_noHit seg r hclear hr p)

theorem payloadRev_clear_step (seg : List Char) (hclear : payloadClearIn seg = true) :
    SegStepG payloadRevTry seg seg :=
  SegStepG_of_noHit _ _ (fun p r hr => payloadClearIn_noHit seg r hclear hr p)

theorem spreadRev_clear_step (seg : List Char) (hclear : tokClearIn GSP seg = true) :
    SegStepG spreadRevTry seg seg :=
  SegStepG_of_noHit _ _ (fun p r hr =>
    guardClear_noHit GSP spreadRevTry spreadRevTry_guard (by decide) seg r hclear hr p)

theorem eventRev_clear_step (seg : List Char) (hclear : tokClearIn GJE seg = true) :
    SegStepG eventRevTry seg seg :=
  SegStepG_of_noHit _ _ (fun p r hr =>
    guardClear_noHit GJE eventRevTry eventRevTry_guard (by decide) seg r hclear hr p)

theorem tailQ_getLast (V : List Char) : (tailQ V).getLast? = some '"' := by
  have hsh : tailQ V = ('"' :: V) ++ ['"'] := by simp [tailQ]
  rw [hsh, List.getLast?_concat]


/-- A rename pass hits a quoted attribute whose name is exactly the token's
name: the name is rewritten, the value left alone. -/
theorem tokTry_attr_hit (K K2 V : List Char)
    (htokc : ∀ c ∈ K ++ ['='], c ≠ ' ' ∧ c ≠ '/')
    (hclear : tokClearIn (K ++ ['=']) (tailQ V) = true) :
    SegStepG (tokTry (K ++ ['=']) (K2 ++ ['='])) (attrQ K V) (attrQ K2 V) := by
  have hhit : ∀ X, tokTry (K ++ ['=']) (K2 ++ ['=']) (some ' ') ((K ++ ['=']) ++ X)
      = some (K.length, K2 ++ ['=']) := by
    intro X
    unfold tokTry
    rw [if_pos ⟨by decide, isPrefixOf_self_append _ _⟩]
    simp
  have hstep := segStep_space_hit_tail (tokTry (K ++ ['=']) (K2 ++ ['=']))
    K (K2 ++ ['=']) (tailQ V) '=' '"'
    (fun p X => tokTry_none_at_space _ _ (by simp) (fun c hc => (htokc c hc).1) p X)
    hhit
    (fun p r hr => tokClearIn_noHit (K ++ ['=']) (K2 ++ ['=']) (tailQ V) r htokc hclear hr p)
    (tailQ_getLast V)
  have hin : attrQ K V = ' ' :: ((K ++ ['=']) ++ tailQ V) := by
    simp [attrQ, tailQ]
  have hout : attrQ K2 V = ' ' :: ((K2 ++ ['=']) ++ tailQ V) := by
    simp [attrQ, tailQ]
  rw [hin, hout]
  exact hstep

/-- The event-handler pass hits an `on[A-Z]\w*` attribute name. -/
theorem eventFwd_attr_hit (u : Char) (run V : List Char)
    (hu : isUpperAZ u = true) (hrun : ∀ c ∈ run, isWordChar c = true)
    (hclear : eventClearIn (tailQ V) = true) :
    SegStepG eventFwdTry (attrQ ('o' :: 'n' :: u :: run) V)
      (attrQ (GJE ++ ('o' :: 'n' :: u :: run)) V) := by
  have hhit : ∀ X, eventFwdTry (some ' ') ((('o' :: 'n' :: u :: run) ++ ['=']) ++ X)
      = some (('o' :: 'n' :: u :: run).length, (GJE ++ ('o' :: 'n' :: u :: run)) ++ ['=']) := by
    intro X
    have hsh : (('o' :: 'n' :: u :: run) ++ ['=']) ++ X
        = 'o' :: 'n' :: u :: (run ++ '=' :: X) := by simp
    rw [hsh]
    rw [eventFwdTry.eq_def]
    split
    · rename_i heq
      simp only [List.cons.injEq] at heq
      obtain ⟨_, _, hc3, hr⟩ := heq
      subst hc3
      subst hr
      rw [if_pos ⟨by decide, hu⟩]
      have htw : (run ++ '=' :: X).takeWhile isWordChar = run := by
        rw [takeWhile_append_all isWordChar run ('=' :: X) hrun]
        rw [List.takeWhile_cons]
        simp [isWordChar]
      rw [htw]
      simp only [List.drop_left]
      simp [GJE]
      omega
    · rename_i hcon
      exact absurd (hcon u (run ++ '=' :: X) rfl) (by simp)
  have hstep := segStep_space_hit_tail eventFwdTry
    ('o' :: 'n' :: u :: run) ((GJE ++ ('o' :: 'n' :: u :: run)) ++ ['=']) (tailQ V) '=' '"'
    (fun p X => eventFwdTry_none_at_space p X)
    hhit
    (fun p r hr => eventClearIn_noHit (tailQ V) r hclear hr p)
    (tailQ_getLast V)
  have hin : attrQ ('o' :: 'n' :: u :: run) V
      = ' ' :: ((('o' :: 'n' :: u :: run) ++ ['=']) ++ tailQ V) := by
    simp [attrQ, tailQ]
  have hout : attrQ (GJE ++ ('o' :: 'n' :: u :: run)) V
      = ' ' :: (((GJE ++ ('o' :: 'n' :: u :: run)) ++ ['=']) ++ tailQ V) := by
    simp [attrQ, tailQ]
  rw [hin, hout]
  exact hstep

/-- The reverse event pass restores `data-jsx-event-on…="v"` to `on…="v"`. -/
theorem eventRev_attr_hit (u : Char) (run V : List Char)
    (hu : isUpperAZ u = true) (hrun : ∀ c ∈ run, isWordChar c = true)
    (hV : ∀ c ∈ V, (decide (c ≠ '"')) = true) :
    SegStepG eventRevTry (attrQ (GJE ++ ('o' :: 'n' :: u :: run)) V)
      (attrQ ('o' :: 'n' :: u :: run) V) := by
  have hhit : ∀ X, eventRevTry (some ' ')
      (((GJE ++ (('o' :: 'n' :: u :: run) ++ '=' :: '"' :: V)) ++ ['"']) ++ X)
      = some ((GJE ++ (('o' :: 'n' :: u :: run) ++ '=' :: '"' :: V)).length,
          ('o' :: 'n' :: u :: run) ++ '=' :: '"' :: (V ++ ['"'])) := by
    intro X
    have hs : ((GJE ++ (('o' :: 'n' :: u :: run) ++ '=' :: '"' :: V)) ++ ['"']) ++ X
        = GJE ++ ('o' :: 'n' :: u :: (run ++ '=' :: '"' :: (V ++ '"' :: X))) := by
      simp
    rw [hs]
    unfold eventRevTry
    rw [if_pos ⟨by decide, isPrefixOf_self_append _ _⟩]
    have h15 : (GJE ++ ('o' :: 'n' :: u :: (run ++ '=' :: '"' :: (V ++ '"' :: X)))).drop 15
        = 'o' :: 'n' :: u :: (run ++ '=' :: '"' :: (V ++ '"' :: X)) := by
      have hd := List.drop_left GJE ('o' :: 'n' :: u :: (run ++ '=' :: '"' :: (V ++ '"' :: X)))
      rwa [show GJE.length = 15 from rfl] at hd
    rw [h15]
    split
    case h_2 hcon =>
      exact absurd (hcon u (run ++ '=' :: '"' :: (V ++ '"' :: X)) rfl) (by simp)
    rename_i heq
    simp only [List.cons.injEq] at heq
    obtain ⟨hc1, hc2, hc3, hr⟩ := heq
    subst hc3
    subst hr
    rw [if_pos hu]
    have htw : (run ++ '=' :: '"' :: (V ++ '"' :: X)).takeWhile isWordChar = run := by
      rw [takeWhile_append_all isWordChar run _ hrun]
      rw [List.takeWhile_cons]
      simp [isWordChar]
    rw [htw]
    simp only [List.drop_left]
    have htwv : (V ++ '"' :: X).takeWhile (· ≠ '"') = V := by
      rw [takeWhile_append_all _ V _ hV]
      rw [List.takeWhile_cons]
      simp
    rw [htwv]
    simp only [List.drop_left]
    simp [GJE]
    omega
  have hstep := segStep_space_hit eventRevTry
    (GJE ++ (('o' :: 'n' :: u :: run) ++ '=' :: '"' :: V))
    (('o' :: 'n' :: u :: run) ++ '=' :: '"' :: (V ++ ['"'])) '"'
    (fun p X => eventRevTry_none_at_space p X)
    hhit
  have hin : attrQ (GJE ++ ('o' :: 'n' :: u :: run)) V
      = ' ' :: ((GJE ++ (('o' :: 'n' :: u :: run) ++ '=' :: '"' :: V)) ++ ['"']) := by
    simp [attrQ]
  have hout : attrQ ('o' :: 'n' :: u :: run) V
      = ' ' :: (('o' :: 'n' :: u :: run) ++ '=' :: '"' :: (V ++ ['"'])) := by
    simp [attrQ]
  rw [hin, hout]
  exact hstep

/-- The spread-restoration pass turns `data-spread-N="enc"` back into the
braces form with the decoded expression. -/
theorem spreadRev_attr_hit (ds e : List Char) (hds : ds ≠ [])
    (hdsall : ∀ c ∈ ds, c.isDigit = true) :
    SegStepG spreadRevTry (attrQ (GSP ++ ds) (encodeJsx e)) (bracesSeg e) := by
  have hencq : ∀ c ∈ encodeJsx e, (decide (c ≠ '"')) = true := by
    intro c hc
    simp [(encodeJsx_chars e c hc).1]
  have hhit : ∀ X, spreadRevTry (some ' ')
      (((GSP ++ (ds ++ '=' :: '"' :: encodeJsx e)) ++ ['"']) ++ X)
      = some ((GSP ++ (ds ++ '=' :: '"' :: encodeJsx e)).length,
          '{' :: '.' :: '.' :: '.' :: (e ++ ['}'])) := by
    intro X
    have hs : ((GSP ++ (ds ++ '=' :: '"' :: encodeJsx e)) ++ ['"']) ++ X
        = GSP ++ (ds ++ '=' :: '"' :: (encodeJsx e ++ '"' :: X)) := by
      simp
    rw [hs]
    unfold spreadRevTry
    rw [if_pos ⟨by decide, isPrefixOf_self_append _ _⟩]
    have h12 : (GSP ++ (ds ++ '=' :: '"' :: (encodeJsx e ++ '"' :: X))).drop 12
        = ds ++ '=' :: '"' :: (encodeJsx e ++ '"' :: X) := by
      have hd := List.drop_left GSP (ds ++ '=' :: '"' :: (encodeJsx e ++ '"' :: X))
      rwa [show GSP.length = 12 from rfl] at hd
    rw [h12]
    have htwd : (ds ++ '=' :: '"' :: (encodeJsx e ++ '"' :: X)).takeWhile Char.isDigit
        = ds := by
      rw [takeWhile_append_all Char.isDigit ds _ hdsall]
      rw [List.takeWhile_cons]
      simp
    simp only [htwd]
    rw [if_pos hds]
    simp only [List.drop_left]
    have htwv : (encodeJsx e ++ '"' :: X).takeWhile (· ≠ '"') = encodeJsx e := by
      rw [takeWhile_append_all _ (encodeJsx e) _ hencq]
      rw [List.takeWhile_cons]
      simp
    simp only [htwv]
    simp only [List.drop_left]
    simp only [decode_encode_id e]
    simp [GSP]
    omega
  have hstep := segStep_space_hit spreadRevTry
    (GSP ++ (ds ++ '=' :: '"' :: encodeJsx e))
    ('{' :: '.' :: '.' :: '.' :: (e ++ ['}'])) '"'
    (fun p X => spreadRevTry_none_at_space p X)
    hhit
  have hin : attrQ (GSP ++ ds) (encodeJsx e)
      = ' ' :: ((GSP ++ (ds ++ '=' :: '"' :: encodeJsx e)) ++ ['"']) := by
    simp [attrQ]
  have hout : bracesSeg e = ' ' :: ('{' :: '.' :: '.' :: '.' :: (e ++ ['}'])) := rfl
  rw [hin, hout]
  exact hstep

/-- The payload-decode pass restores `K="<encoded e>"` to `K={e}`. -/
theorem payloadRev_attr_hit (K e : List Char) (hK : ¬(K = []))
    (hKall : ∀ c ∈ K, isWordChar c = true) :
    SegStepG payloadRevTry (attrQ K (encodeJsx e))
      (' ' :: (K ++ '=' :: '{' :: (e ++ ['}']))) := by
  have hexp : encodeJsx e = BASE64_HEAD ++ b64Encode (utf8Encode e) ++ BASE64_TAIL := rfl
  have hhit : ∀ X, payloadRevTry (some ' ')
      (((K ++ '=' :: '"' :: encodeJsx e) ++ ['"']) ++ X)
      = some ((K ++ '=' :: '"' :: encodeJsx e).length,
          K ++ '=' :: '{' :: (e ++ ['}'])) := by
    intro X
    have hs : ((K ++ '=' :: '"' :: encodeJsx e) ++ ['"']) ++ X
        = K ++ '=' :: '"' :: (encodeJsx e ++ '"' :: X) := by
      simp
    rw [hs]
    unfold payloadRevTry
    have htww : (K ++ '=' :: '"' :: (encodeJsx e ++ '"' :: X)).takeWhile isWordChar
        = K := by
      rw [takeWhile_append_all isWordChar K _ hKall]
      rw [List.takeWhile_cons]
      simp [isWordChar]
    simp only [htww]
    rw [if_pos (by simpa using hK)]
    simp only [List.drop_left]
    have hpre : BASE64_HEAD.isPrefixOf (encodeJsx e ++ '"' :: X) = true := by
      rw [hexp]
      have hsh2 : BASE64_HEAD ++ b64Encode (utf8Encode e) ++ BASE64_TAIL ++ '"' :: X
          = BASE64_HEAD ++ (b64Encode (utf8Encode e) ++ BASE64_TAIL ++ '"' :: X) := by
        simp
      rw [hsh2]
      exact isPrefixOf_self_append _ _
    simp only [true_or, if_true]
    rw [if_pos hpre]
    have hdrop14 : (encodeJsx e ++ '"' :: X).drop 14
        = b64Encode (utf8Encode e) ++ ('_' :: '_' :: '"' :: X) := by
      rw [hexp]
      have hsh2 : BASE64_HEAD ++ b64Encode (utf8Encode e) ++ BASE64_TAIL ++ '"' :: X
          = BASE64_HEAD ++ (b64Encode (utf8Encode e) ++ ('_' :: '_' :: '"' :: X)) := by
        simp [BASE64_TAIL]
      rw [hsh2]
      have hd := List.drop_left BASE64_HEAD
        (b64Encode (utf8Encode e) ++ ('_' :: '_' :: '"' :: X))
      rwa [show BASE64_HEAD.length = 14 from rfl] at hd
    simp only [hdrop14]
    rw [lazyEnd_b64 X (b64Encode (utf8Encode e)) (b64Encode_chars (utf8Encode e))]
    simp only [List.take_left]
    have hv : BASE64_HEAD ++ (b64Encode (utf8Encode e) ++ BASE64_TAIL) = encodeJsx e := by
      rw [hexp]
      simp
    simp only [hv]
    simp only [decode_encode_id e]
    have hlen : (K ++ '=' :: '"' :: encodeJsx e).length
        = K.length + (b64Encode (utf8Encode e)).length + 18 := by
      rw [hexp]
      simp [BASE64_HEAD, BASE64_TAIL]
      omega
    rw [hlen]
  have hstep := segStep_space_hit payloadRevTry
    (K ++ '=' :: '"' :: encodeJsx e)
    (K ++ '=' :: '{' :: (e ++ ['}'])) '"'
    (fun p X => payloadRevTry_none_at_space p X)
    hhit
  have hin : attrQ K (encodeJsx e) = ' ' :: ((K ++ '=' :: '"' :: encodeJsx e) ++ ['"']) := by
    simp [attrQ]
  rw [hin]
  exact hstep


theorem tokCondQ_step (p : List Char × List Char) (K V : List Char)
    (hp1 : ∀ c ∈ p.1 ++ ['='], c ≠ ' ' ∧ c ≠ '/')
    (hcond : tokCondQ p K V = true) :
    SegStepG (tokTry (p.1 ++ ['=']) (p.2 ++ ['=']))
      (attrQ K V) (attrQ (stepName p K) V) := by
  unfold tokCondQ at hcond
  unfold stepName
  by_cases hK : K = p.1
  · rw [if_pos hK] at hcond ⊢
    subst hK
    exact tokTry_attr_hit p.1 p.2 V hp1 hcond
  · rw [if_neg hK] at hcond ⊢
    exact tokTry_clear_step _ _ _ hp1 hcond

theorem eventCondQ_step (K V : List Char) (hcond : eventCondQ K V = true) :
    SegStepG eventFwdTry (attrQ K V)
      (attrQ (if eventShape K then GJE ++ K else K) V) := by
  unfold eventCondQ at hcond
  by_cases hev : eventShape K = true
  · rw [if_pos hev] at hcond ⊢
    rw [eventShape.eq_def] at hev
    split at hev
    · rename_i u run
      simp only [Bool.and_eq_true] at hev
      exact eventFwd_attr_hit u run V hev.1 (List.all_eq_true.mp hev.2) hcond
    · simp at hev
  · rw [if_neg hev] at hcond ⊢
    exact eventFwd_clear_step _ hcond

theorem eventRevCondQ_step (K V : List Char) (hcond : eventRevCondQ K V = true) :
    SegStepG eventRevTry (attrQ K V)
      (attrQ (if GJE.isPrefixOf K && eventShape (K.drop 15) then K.drop 15 else K) V) := by
  unfold eventRevCondQ at hcond
  by_cases hc : (GJE.isPrefixOf K && eventShape (K.drop 15)) = true
  · rw [if_pos hc] at hcond ⊢
    rw [Bool.and_eq_true] at hc
    obtain ⟨hp, hshape⟩ := hc
    obtain ⟨d, hd⟩ := List.isPrefixOf_iff_prefix.mp hp
    have hdrop : K.drop 15 = d := by
      rw [← hd]
      have h15 := List.drop_left GJE d
      rwa [show GJE.length = 15 from rfl] at h15
    rw [hdrop] at hshape ⊢
    have hVc : V.contains '"' = false := by simpa using hcond
    have hV : ∀ c ∈ V, (decide (c ≠ '"')) = true := by
      intro c hcV
      by_contra hcon
      simp only [decide_eq_true_eq, not_not] at hcon
      subst hcon
      have hmem : V.contains '"' = true := by
        rw [List.contains_iff_exists_mem_beq]
        exact ⟨'"', hcV, by simp⟩
      rw [hmem] at hVc
      cases hVc
    rw [eventShape.eq_def] at hshape
    split at hshape
    · rename_i u run
      rw [← hd]
      simp only [Bool.and_eq_true] at hshape
      exact eventRev_attr_hit u run V hshape.1 (List.all_eq_true.mp hshape.2) hV
    · simp at hshape
  · rw [if_neg hc] at hcond ⊢
    exact eventRev_clear_step _ hcond

theorem safeHead_attrQ (K V : List Char) : safeHead (attrQ K V) :=
  ⟨' ', K ++ '=' :: '"' :: (V ++ ['"']), rfl, Or.inl rfl⟩

theorem safeHead_bracesSeg (e : List Char) : safeHead (bracesSeg e) :=
  ⟨' ', '{' :: '.' :: '.' :: '.' :: (e ++ ['}']), rfl, Or.inl rfl⟩

theorem allPassPairs_facts :
    ∀ p ∈ allPassPairs, (∀ c ∈ p.1 ++ ['='], c ≠ ' ' ∧ c ≠ '/') ∧
      tokClearIn (p.1 ++ ['=']) ['/', '>'] = true := by
  decide

/-- A sequence of literal rename passes over a quoted-attribute text:
names fold through `stepName`, values and the frame untouched. -/
theorem foldTok_text (tag : List Char) :
    ∀ (ps : List (List Char × List Char)) (kvs : List (List Char × List Char)),
      (∀ p ∈ ps, (∀ c ∈ p.1 ++ ['='], c ≠ ' ' ∧ c ≠ '/') ∧
         tokClearIn (p.1 ++ ['=']) ('<' :: tag) = true ∧
         tokClearIn (p.1 ++ ['=']) ['/', '>'] = true) →
      (∀ kv ∈ kvs, nameCondsF ps kv.1 kv.2 = true) →
      ps.foldl (fun acc p => replTok (p.1 ++ ['=']) (p.2 ++ ['=']) acc)
          (textOf tag (kvs.map (fun kv => attrQ kv.1 kv.2)))
        = textOf tag (kvs.map (fun kv => attrQ (foldName ps kv.1) kv.2)) := by
  intro ps
  induction ps with
  | nil =>
      intro kvs _ _
      rfl
  | cons p ps' ih =>
      intro kvs hps hkvs
      rw [List.foldl_cons]
      have hone : replTok (p.1 ++ ['=']) (p.2 ++ ['='])
          (textOf tag (kvs.map (fun kv => attrQ kv.1 kv.2)))
          = textOf tag (kvs.map (fun kv => attrQ (stepName p kv.1) kv.2)) := by
        unfold replTok
        have hpairs := replRun_text (tokTry (p.1 ++ ['=']) (p.2 ++ ['='])) tag
          (kvs.map (fun kv => (attrQ kv.1 kv.2, attrQ (stepName p kv.1) kv.2)))
          (by
            intro q hq
            simp only [List.mem_map] at hq
            obtain ⟨kv, hkv, hqe⟩ := hq
            subst hqe
            have hc := hkvs kv hkv
            rw [nameCondsF] at hc
            rw [Bool.and_eq_true] at hc
            exact ⟨tokCondQ_step p kv.1 kv.2 (hps p (by simp)).1 hc.1,
              safeHead_attrQ _ _⟩)
          (tokTry_clear_step _ _ _ (hps p (by simp)).1 (hps p (by simp)).2.1)
          (tokTry_clear_step _ _ _ (hps p (by simp)).1 (hps p (by simp)).2.2)
        simp only [List.map_map] at hpairs
        convert hpairs using 3
      rw [hone]
      have hmap : kvs.map (fun kv => attrQ (stepName p kv.1) kv.2)
          = (kvs.map (fun kv => (stepName p kv.1, kv.2))).map (fun kv => attrQ kv.1 kv.2) := by
        simp [List.map_map]
      rw [hmap]
      rw [ih (kvs.map (fun kv => (stepName p kv.1, kv.2)))
        (fun q hq => hps q (by simp [hq]))
        (by
          intro kv hkv
          simp only [List.mem_map] at hkv
          obtain ⟨kv0, hkv0, hkve⟩ := hkv
          subst hkve
          have hc := hkvs kv0 hkv0
          rw [nameCondsF] at hc
          rw [Bool.and_eq_true] at hc
          exact hc.2)]
      simp only [List.map_map]
      rfl


theorem scanExpr_append_some :
    ∀ (l : List Char) (bal : Int) (inStr : Bool) (sc prev : Char) (e r w : List Char),
      scanExpr l bal inStr sc prev = some (e, r) →
      scanExpr (l ++ w) bal inStr sc prev = some (e, r ++ w) := by
  intro l
  induction l with
  | nil =>
      intro bal inStr sc prev e r w h
      simp [scanExpr] at h
  | cons c rest ih =>
      intro bal inStr sc prev e r w h
      rw [scanExpr] at h
      rw [List.cons_append, scanExpr]
      split at h
      · rename_i hcl
        rw [if_pos hcl]
        simp only [Option.some.injEq, Prod.mk.injEq] at h
        rw [← h.1, ← h.2]
      · rename_i hcl
        rw [if_neg hcl]
        rcases hrec : scanExpr rest
            (scanStep c prev sc inStr bal).2.2 (scanStep c prev sc inStr bal).1
            (scanStep c prev sc inStr bal).2.1 c with _ | ⟨e', r'⟩
        · rw [hrec] at h
          simp at h
        · rw [hrec] at h
          simp only [Option.some.injEq, Prod.mk.injEq] at h
          rw [ih _ _ _ _ e' r' w hrec]
          simp [← h.1, ← h.2]

theorem ExprStep_append (a b c d : List Char) (h1 : ExprStep a b) (h2 : ExprStep c d) :
    ExprStep (a ++ c) (b ++ d) := by
  intro t
  rw [List.append_assoc, h1 (c ++ t), h2 t, List.append_assoc]

theorem exprSteps_concat :
    ∀ (pairs : List (List Char × List Char)),
      (∀ p ∈ pairs, ExprStep p.1 p.2) →
      ExprStep (pairs.map Prod.fst).flatten (pairs.map Prod.snd).flatten := by
  intro pairs
  induction pairs with
  | nil => intro _ t; simp
  | cons p ps ih =>
      intro h
      simp only [List.map_cons, List.flatten_cons]
      exact ExprStep_append p.1 p.2 _ _ (h p (by simp))
        (ih (fun q hq => h q (by simp [hq])))

theorem replExpr_no_eq (u : List Char) (h : '=' ∉ u) : ExprStep u u := by
  induction u with
  | nil => intro t; simp
  | cons c u' ih =>
      intro t
      rw [List.cons_append, replExpr_cons c (u' ++ t) (by
        intro hand
        exact h (by simp [hand.1]))]
      rw [ih (by intro hc; exact h (by simp [hc])) t]
      simp

theorem replExpr_pass_chars :
    ∀ (seg : List Char), hasSub ('=' :: '{' :: []) seg = false →
      ¬(seg.getLast? = some '=') → ExprStep seg seg := by
  intro seg
  induction seg with
  | nil => intro _ _ t; simp
  | cons c seg' ih =>
      intro hsub hlast t
      rw [hasSub_cons, Bool.or_eq_false_iff] at hsub
      have hstep : ¬(c = '=' ∧ (seg' ++ t).head? = some '{') := by
        intro hand
        rcases hseg' : seg' with _ | ⟨d, seg''⟩
        · subst hseg'
          simp at hlast
          exact hlast hand.1
        · rw [hseg'] at hand
          simp only [List.cons_append, List.head?_cons, Option.some.injEq] at hand
          have : (('=' :: '{' :: []).isPrefixOf (c :: seg')) = true := by
            rw [hseg']
            simp [List.isPrefixOf, hand.1, hand.2]
          rw [this] at hsub
          simp at hsub
      rw [List.cons_append, replExpr_cons c (seg' ++ t) hstep]
      have hlast' : ¬(seg'.getLast? = some '=') := by
        rcases hseg' : seg' with _ | ⟨d, seg''⟩
        · simp
        · rw [← hseg']
          intro hcon
          apply hlast
          rw [List.getLast?_cons, hseg']
          rw [hseg'] at hcon
          simp only [List.getLast?_cons] at hcon ⊢
          exact hcon
      rw [ih hsub.2 hlast' t]
      simp

theorem word_not_mem (l : List Char) (h : ∀ c ∈ l, isWordChar c = true) :
    '=' ∉ l ∧ '{' ∉ l := by
  constructor <;> intro hc
  · exact absurd (h _ hc) (by decide)
  · exact absurd (h _ hc) (by decide)

theorem expr_attr_hit (n e : List Char) (hn : '=' ∉ (' ' :: n))
    (hcl : exprClosed e = true) :
    ExprStep (renderAttr0 (.expr n e)) (attrQ n (encodeJsx e)) := by
  intro t
  have hscan : scanExpr (e ++ '}' :: t) 1 false ' ' '{' = some (e, t) := by
    unfold exprClosed at hcl
    have heq : scanExpr (e ++ ['}']) 1 false ' ' '{' = some (e, []) := eq_of_beq hcl
    have := scanExpr_append_some (e ++ ['}']) 1 false ' ' '{' e [] t heq
    simpa using this
  have hsh : renderAttr0 (.expr n e) ++ t
      = (' ' :: n) ++ ('=' :: '{' :: (e ++ '}' :: t)) := by
    simp [renderAttr0]
  rw [hsh]
  rw [replExpr_no_eq (' ' :: n) hn ('=' :: '{' :: (e ++ '}' :: t))]
  rw [replExpr_found e t hscan]
  simp [attrQ]

theorem exprFreeB_parts (seg : List Char) (h : exprFreeB seg = true) :
    hasSub ('=' :: '{' :: []) seg = false ∧ ¬(seg.getLast? = some '=') := by
  unfold exprFreeB at h
  rw [Bool.and_eq_true] at h
  obtain ⟨h1, h2⟩ := h
  simp only [Bool.not_eq_true'] at h1 h2
  constructor
  · exact h1
  · intro hcon
    rw [hcon] at h2
    simp at h2

theorem pass1_attr (j : Nat) (a : SvgAttr) (hc : fullCond j a = true) :
    ExprStep (renderAttr0 a) (rS1 a) := by
  cases a with
  | expr n e =>
      simp only [fullCond, Bool.and_eq_true] at hc
      obtain ⟨⟨⟨⟨hne, hword⟩, hclosed⟩, hchain⟩, hf11⟩ := hc
      have hwordm := List.all_eq_true.mp hword
      have hn : '=' ∉ (' ' :: n) := by
        intro hmem
        rcases List.mem_cons.mp hmem with h' | h'
        · exact absurd h' (by decide)
        · exact (word_not_mem n hwordm).1 h'
      exact expr_attr_hit n e hn hclosed
  | spread e =>
      simp only [fullCond, Bool.and_eq_true] at hc
      obtain ⟨⟨⟨⟨⟨⟨⟨⟨⟨he, hbr⟩, hfree⟩, hchain⟩, hf8⟩, hdigall⟩, hdigne⟩, hgje⟩, hsty⟩,
        hpay⟩ := hc
      obtain ⟨hfree1, hfree2⟩ := exprFreeB_parts _ hfree
      exact replExpr_pass_chars _ hfree1 hfree2
  | lit n v =>
      simp only [fullCond, Bool.and_eq_true] at hc
      obtain ⟨⟨⟨⟨⟨⟨hne, hword⟩, hfree⟩, hv⟩, hchain⟩, hf11⟩, hpay⟩ := hc
      obtain ⟨hfree1, hfree2⟩ := exprFreeB_parts _ hfree
      exact replExpr_pass_chars _ hfree1 hfree2

theorem withIdx_fst : ∀ (attrs : List SvgAttr) (j : Nat),
    (withIdx j attrs).map Prod.fst = attrs := by
  intro attrs
  induction attrs with
  | nil => intro j; rfl
  | cons a as ih =>
      intro j
      rw [withIdx, List.map_cons, ih]

theorem replExpr_nil : replaceJsxExpressions [] = [] := rfl

/-- The expression pass over a whole rendered element text. -/
theorem pass1_text (tag : List Char) (attrs : List SvgAttr)
    (htag : ∀ c ∈ tag, isWordChar c = true)
    (hattrs : ∀ q ∈ withIdx 0 attrs, fullCond q.2 q.1 = true) :
    replaceJsxExpressions (render0 tag attrs)
      = textOf tag ((withIdx 0 attrs).map (fun q => rS1 q.1)) := by
  have hmid := exprSteps_concat
    ((withIdx 0 attrs).map (fun q => (renderAttr0 q.1, rS1 q.1)))
    (by
      intro p hp
      simp only [List.mem_map] at hp
      obtain ⟨q, hq, hpe⟩ := hp
      subst hpe
      exact pass1_attr q.2 q.1 (hattrs q hq))
  have htagstep : ExprStep ('<' :: tag) ('<' :: tag) := by
    apply replExpr_no_eq
    intro hmem
    rcases List.mem_cons.mp hmem with h' | h'
    · exact absurd h' (by decide)
    · exact (word_not_mem tag htag).1 h'
  have hclose : ExprStep ['/', '>'] ['/', '>'] := replExpr_no_eq _ (by decide)
  have hall := ExprStep_append _ _ _ _ htagstep
    (ExprStep_append _ _ _ _ hmid hclose)
  have happ := hall []
  simp only [List.map_map] at happ
  have hfst : (withIdx 0 attrs).map (Prod.fst ∘ fun q => (renderAttr0 q.1, rS1 q.1))
      = attrs.map renderAttr0 := by
    have : (Prod.fst ∘ fun q : SvgAttr × Nat => (renderAttr0 q.1, rS1 q.1))
        = (renderAttr0 ∘ Prod.fst) := rfl
    rw [this, ← List.map_map, withIdx_fst]
  rw [replExpr_nil, List.append_nil] at happ
  have hin : render0 tag attrs
      = ('<' :: tag) ++ (((withIdx 0 attrs).map
          (Prod.fst ∘ fun q => (renderAttr0 q.1, rS1 q.1))).flatten ++ ['/', '>']) := by
    rw [hfst]
    simp [render0, textOf]
  have hout : textOf tag ((withIdx 0 attrs).map (fun q => rS1 q.1))
      = ('<' :: tag) ++ (((withIdx 0 attrs).map
          (Prod.snd ∘ fun q => (renderAttr0 q.1, rS1 q.1))).flatten ++ ['/', '>']) := by
    simp [textOf]
    rfl
  rw [hin, hout]
  simpa using happ

theorem SpreadStep_append (j u1 u2 : Nat) (a b c d : List Char)
    (h1 : SpreadStep j u1 a b) (h2 : SpreadStep (j + u1) u2 c d) :
    SpreadStep j (u1 + u2) (a ++ c) (b ++ d) := by
  intro t
  rw [List.append_assoc, h1 (c ++ t), h2 t, List.append_assoc, ← Nat.add_assoc]

theorem spreadStep_skip (j : Nat) (seg : List Char) (h : '{' ∉ seg) :
    SpreadStep j 0 seg seg := by
  intro t
  rw [spreadFwd_skip j seg t h, Nat.add_zero]

theorem spreadStep_hit (j : Nat) (e : List Char) (he : e ≠ []) (hbr : '}' ∉ e) :
    SpreadStep j 1 (bracesSeg e) (attrQ (sn j) (encodeJsx e)) := by
  intro t
  have hsh : bracesSeg e ++ t
      = ' ' :: ('{' :: '.' :: '.' :: '.' :: (e ++ '}' :: t)) := by
    simp [bracesSeg]
  rw [hsh]
  rw [spreadFwd_cons j ' ' _ (by decide)]
  rw [spreadFwd_match j e t he hbr]
  simp [attrQ, sn, GSP]

theorem brace_not_mem_attrQ (K V : List Char) (hK : '{' ∉ K) (hV : '{' ∉ V) :
    '{' ∉ attrQ K V := by
  intro hmem
  simp only [attrQ] at hmem
  simp at hmem
  rcases hmem with h | h
  · exact hK h
  · exact hV h

theorem pass2_attr (j : Nat) (a : SvgAttr) (hc : fullCond j a = true) :
    SpreadStep j (spreadCnt a) (rS1 a) (rQ id j a) := by
  cases a with
  | expr n e =>
      simp only [fullCond, Bool.and_eq_true] at hc
      obtain ⟨⟨⟨⟨hne, hword⟩, hclosed⟩, hchain⟩, hf11⟩ := hc
      apply spreadStep_skip
      apply brace_not_mem_attrQ
      · exact (word_not_mem n (List.all_eq_true.mp hword)).2
      · intro hmem
        exact (encodeJsx_chars e '{' hmem).2.2.1 rfl
  | spread e =>
      simp only [fullCond, Bool.and_eq_true] at hc
      obtain ⟨⟨⟨⟨⟨⟨⟨⟨⟨he, hbr⟩, hfree⟩, hchain⟩, hf8⟩, hdigall⟩, hdigne⟩, hgje⟩, hsty⟩,
        hpay⟩ := hc
      have he' : e ≠ [] := by
        intro hcon
        rw [hcon] at he
        simp at he
      have hbr' : '}' ∉ e := by
        intro hmem
        have : e.contains '}' = true := by
          rw [List.contains_iff_exists_mem_beq]
          exact ⟨'}', hmem, by simp⟩
        rw [this] at hbr
        simp at hbr
      exact spreadStep_hit j e he' hbr'
  | lit n v =>
      simp only [fullCond, Bool.and_eq_true] at hc
      obtain ⟨⟨⟨⟨⟨⟨hne, hword⟩, hfree⟩, hv⟩, hchain⟩, hf11⟩, hpay⟩ := hc
      apply spreadStep_skip
      apply brace_not_mem_attrQ
      · exact (word_not_mem n (List.all_eq_true.mp hword)).2
      · intro hmem
        have : v.contains '{' = true := by
          rw [List.contains_iff_exists_mem_beq]
          exact ⟨'{', hmem, by simp⟩
        rw [this] at hv
        simp at hv

theorem pass2_segs :
    ∀ (attrs : List SvgAttr) (j : Nat),
      (∀ q ∈ withIdx j attrs, fullCond q.2 q.1 = true) →
      SpreadStep j (spreadTotal attrs)
        (((withIdx j attrs).map (fun q => rS1 q.1)).flatten)
        (((withIdx j attrs).map (fun q => rQ id q.2 q.1)).flatten) := by
  intro attrs
  induction attrs with
  | nil =>
      intro j _ t
      simp [withIdx, spreadTotal]
  | cons a as ih =>
      intro j h
      rw [withIdx]
      simp only [List.map_cons, List.flatten_cons]
      rw [show spreadTotal (a :: as) = spreadCnt a + spreadTotal as from rfl]
      exact SpreadStep_append j (spreadCnt a) (spreadTotal as) _ _ _ _
        (pass2_attr j a (h (a, j) (by simp [withIdx])))
        (ih (j + spreadCnt a) (fun q hq => h q (by simp [withIdx, hq])))

/-- The spread pass over a whole rendered element text. -/
theorem pass2_text (tag : List Char) (attrs : List SvgAttr)
    (htag : ∀ c ∈ tag, isWordChar c = true)
    (hattrs : ∀ q ∈ withIdx 0 attrs, fullCond q.2 q.1 = true) :
    spreadFwdRun 0 (textOf tag ((withIdx 0 attrs).map (fun q => rS1 q.1)))
      = textOf tag ((withIdx 0 attrs).map (fun q => rQ id q.2 q.1)) := by
  have htagbr : '{' ∉ ('<' :: tag) := by
    intro hmem
    rcases List.mem_cons.mp hmem with h' | h'
    · exact absurd h' (by decide)
    · exact (word_not_mem tag htag).2 h'
  have hsh : textOf tag ((withIdx 0 attrs).map (fun q => rS1 q.1))
      = ('<' :: tag) ++ ((((withIdx 0 attrs).map (fun q => rS1 q.1)).flatten)
          ++ ['/', '>']) := by
    simp [textOf]
  rw [hsh]
  rw [spreadFwd_skip 0 ('<' :: tag) _ htagbr]
  rw [pass2_segs attrs 0 hattrs ['/', '>']]
  rw [spreadFwd_id _ _ (by decide)]
  simp [textOf]


theorem attr_conds1 (j : Nat) (a : SvgAttr) (hc : fullCond j a = true) :
    nameCondsF (pairCN :: jsxSvgPairs) (bName j a) (vOf a) = true := by
  cases a with
  | expr n e =>
      simp only [fullCond, Bool.and_eq_true] at hc
      obtain ⟨⟨⟨⟨hne, hword⟩, hclosed⟩, hchain⟩, hf11⟩ := hc
      simp only [chainCondQ, Bool.and_eq_true] at hchain
      exact hchain.1.1.1.1.1.1
  | spread e =>
      simp only [fullCond, Bool.and_eq_true] at hc
      obtain ⟨⟨⟨⟨⟨⟨⟨⟨⟨he, hbr⟩, hfree⟩, hchain⟩, hf8⟩, hdigall⟩, hdigne⟩, hgje⟩, hsty⟩,
        hpay⟩ := hc
      simp only [chainCondSp, Bool.and_eq_true] at hchain
      exact hchain.1.1.1
  | lit n v =>
      simp only [fullCond, Bool.and_eq_true] at hc
      obtain ⟨⟨⟨⟨⟨⟨hne, hword⟩, hfree⟩, hv⟩, hchain⟩, hf11⟩, hpay⟩ := hc
      simp only [chainCondQ, Bool.and_eq_true] at hchain
      exact hchain.1.1.1.1.1.1

theorem attr_conds3 (j : Nat) (a : SvgAttr) (hc : fullCond j a = true) :
    nameCondsF [pairST] (f5 (bName j a)) (vOf a) = true := by
  cases a with
  | expr n e =>
      simp only [fullCond, Bool.and_eq_true] at hc
      obtain ⟨⟨⟨⟨hne, hword⟩, hclosed⟩, hchain⟩, hf11⟩ := hc
      simp only [chainCondQ, Bool.and_eq_true] at hchain
      exact hchain.1.1.1.1.2
  | spread e =>
      simp only [fullCond, Bool.and_eq_true] at hc
      obtain ⟨⟨⟨⟨⟨⟨⟨⟨⟨he, hbr⟩, hfree⟩, hchain⟩, hf8⟩, hdigall⟩, hdigne⟩, hgje⟩, hsty⟩,
        hpay⟩ := hc
      simp only [chainCondSp, Bool.and_eq_true] at hchain
      exact hchain.1.2
  | lit n v =>
      simp only [fullCond, Bool.and_eq_true] at hc
      obtain ⟨⟨⟨⟨⟨⟨hne, hword⟩, hfree⟩, hv⟩, hchain⟩, hf11⟩, hpay⟩ := hc
      simp only [chainCondQ, Bool.and_eq_true] at hchain
      exact hchain.1.1.1.1.2

theorem attr_conds4 (j : Nat) (a : SvgAttr) (hc : fullCond j a = true) :
    nameCondsF (swapP pairCN :: svgJsxPairs) (f6 (bName j a)) (vOf a) = true := by
  cases a with
  | expr n e =>
      simp only [fullCond, Bool.and_eq_true] at hc
      obtain ⟨⟨⟨⟨hne, hword⟩, hclosed⟩, hchain⟩, hf11⟩ := hc
      simp only [chainCondQ, Bool.and_eq_true] at hchain
      exact hchain.1.1.1.2
  | spread e =>
      simp only [fullCond, Bool.and_eq_true] at hc
      obtain ⟨⟨⟨⟨⟨⟨⟨⟨⟨he, hbr⟩, hfree⟩, hchain⟩, hf8⟩, hdigall⟩, hdigne⟩, hgje⟩, hsty⟩,
        hpay⟩ := hc
      simp only [chainCondSp, Bool.and_eq_true] at hchain
      exact hchain.2
  | lit n v =>
      simp only [fullCond, Bool.and_eq_true] at hc
      obtain ⟨⟨⟨⟨⟨⟨hne, hword⟩, hfree⟩, hv⟩, hchain⟩, hf11⟩, hpay⟩ := hc
      simp only [chainCondQ, Bool.and_eq_true] at hchain
      exact hchain.1.1.1.2

theorem attr_step5 (j : Nat) (a : SvgAttr) (hc : fullCond j a = true) :
    SegStepG eventFwdTry (rQ f4 j a) (rQ f5 j a) := by
  have hcond : eventCondQ (f4 (bName j a)) (vOf a) = true := by
    cases a with
    | expr n e =>
        simp only [fullCond, Bool.and_eq_true] at hc
        obtain ⟨⟨⟨⟨hne, hword⟩, hclosed⟩, hchain⟩, hf11⟩ := hc
        simp only [chainCondQ, Bool.and_eq_true] at hchain
        exact hchain.1.1.1.1.1.2
    | spread e =>
        simp only [fullCond, Bool.and_eq_true] at hc
        obtain ⟨⟨⟨⟨⟨⟨⟨⟨⟨he, hbr⟩, hfree⟩, hchain⟩, hf8⟩, hdigall⟩, hdigne⟩, hgje⟩,
          hsty⟩, hpay⟩ := hc
        simp only [chainCondSp, Bool.and_eq_true] at hchain
        exact hchain.1.1.2
    | lit n v =>
        simp only [fullCond, Bool.and_eq_true] at hc
        obtain ⟨⟨⟨⟨⟨⟨hne, hword⟩, hfree⟩, hv⟩, hchain⟩, hf11⟩, hpay⟩ := hc
        simp only [chainCondQ, Bool.and_eq_true] at hchain
        exact hchain.1.1.1.1.1.2
  have hstep := eventCondQ_step (f4 (bName j a)) (vOf a) hcond
  unfold rQ
  unfold f5
  exact hstep

theorem safeHead_rQ (f : List Char → List Char) (j : Nat) (a : SvgAttr) :
    safeHead (rQ f j a) := by
  unfold rQ
  exact safeHead_attrQ _ _

theorem safeHead_rB (f : List Char → List Char) (j : Nat) (a : SvgAttr) :
    safeHead (rB f j a) := by
  cases a with
  | expr n e => exact safeHead_attrQ _ _
  | spread e => exact safeHead_bracesSeg _
  | lit n v => exact safeHead_attrQ _ _

theorem safeHead_renderAttr0 (a : SvgAttr) : safeHead (renderAttr0 a) := by
  cases a with
  | expr n e => exact ⟨' ', _, rfl, Or.inl rfl⟩
  | spread e => exact ⟨' ', _, rfl, Or.inl rfl⟩
  | lit n v => exact ⟨' ', _, rfl, Or.inl rfl⟩

theorem attr_step9 (j : Nat) (a : SvgAttr) (hc : fullCond j a = true) :
    SegStepG spreadRevTry (rQ f8 j a) (rB f8 j a) := by
  cases a with
  | expr n e =>
      simp only [fullCond, Bool.and_eq_true] at hc
      obtain ⟨⟨⟨⟨hne, hword⟩, hclosed⟩, hchain⟩, hf11⟩ := hc
      simp only [chainCondQ, Bool.and_eq_true] at hchain
      exact spreadRev_clear_step _ hchain.1.1.2
  | spread e =>
      simp only [fullCond, Bool.and_eq_true] at hc
      obtain ⟨⟨⟨⟨⟨⟨⟨⟨⟨he, hbr⟩, hfree⟩, hchain⟩, hf8⟩, hdigall⟩, hdigne⟩, hgje⟩, hsty⟩,
        hpay⟩ := hc
      have hf8' : f8 (sn j) = sn j := eq_of_beq hf8
      have hds : (Nat.repr j).data ≠ [] := by
        intro hcon
        rw [hcon] at hdigne
        simp at hdigne
      show SegStepG spreadRevTry (attrQ (f8 (bName j (.spread e))) (vOf (.spread e)))
        (bracesSeg e)
      have hbn : bName j (.spread e) = sn j := rfl
      rw [hbn, hf8']
      have hsn : sn j = GSP ++ (Nat.repr j).data := rfl
      rw [hsn]
      exact spreadRev_attr_hit (Nat.repr j).data e hds (List.all_eq_true.mp hdigall)
  | lit n v =>
      simp only [fullCond, Bool.and_eq_true] at hc
      obtain ⟨⟨⟨⟨⟨⟨hne, hword⟩, hfree⟩, hv⟩, hchain⟩, hf11⟩, hpay⟩ := hc
      simp only [chainCondQ, Bool.and_eq_true] at hchain
      exact spreadRev_clear_step _ hchain.1.1.2

theorem attr_step10 (j : Nat) (a : SvgAttr) (hc : fullCond j a = true) :
    SegStepG eventRevTry (rB f8 j a) (rB f10 j a) := by
  cases a with
  | expr n e =>
      simp only [fullCond, Bool.and_eq_true] at hc
      obtain ⟨⟨⟨⟨hne, hword⟩, hclosed⟩, hchain⟩, hf11⟩ := hc
      simp only [chainCondQ, Bool.and_eq_true] at hchain
      have hstep := eventRevCondQ_step (f8 (bName j (.expr n e))) (vOf (.expr n e))
        hchain.1.2
      unfold rB
      unfold f10
      exact hstep
  | spread e =>
      simp only [fullCond, Bool.and_eq_true] at hc
      obtain ⟨⟨⟨⟨⟨⟨⟨⟨⟨he, hbr⟩, hfree⟩, hchain⟩, hf8⟩, hdigall⟩, hdigne⟩, hgje⟩, hsty⟩,
        hpay⟩ := hc
      show SegStepG eventRevTry (bracesSeg e) (bracesSeg e)
      exact eventRev_clear_step _ hgje
  | lit n v =>
      simp only [fullCond, Bool.and_eq_true] at hc
      obtain ⟨⟨⟨⟨⟨⟨hne, hword⟩, hfree⟩, hv⟩, hchain⟩, hf11⟩, hpay⟩ := hc
      simp only [chainCondQ, Bool.and_eq_true] at hchain
      have hstep := eventRevCondQ_step (f8 (bName j (.lit n v))) (vOf (.lit n v))
        hchain.1.2
      unfold rB
      unfold f10
      exact hstep

theorem dbss_chars : ∀ c ∈ (swapP pairST).1 ++ ['='], c ≠ ' ' ∧ c ≠ '/' := by
  decide

theorem dbss_tok_eq : (swapP pairST).1 ++ ['='] = "data-better-svg-style=".data := by
  decide

theorem attr_step11 (j : Nat) (a : SvgAttr) (hc : fullCond j a = true) :
    SegStepG (tokTry ((swapP pairST).1 ++ ['=']) ((swapP pairST).2 ++ ['=']))
      (rB f10 j a) (rB f11 j a) := by
  cases a with
  | expr n e =>
      simp only [fullCond, Bool.and_eq_true] at hc
      obtain ⟨⟨⟨⟨hne, hword⟩, hclosed⟩, hchain⟩, hf11⟩ := hc
      simp only [chainCondQ, Bool.and_eq_true] at hchain
      have hcond : tokCondQ (swapP pairST) (f10 (bName j (.expr n e)))
          (vOf (.expr n e)) = true := by
        have := hchain.2
        rw [nameCondsF, Bool.and_eq_true] at this
        exact this.1
      have hstep := tokCondQ_step (swapP pairST) (f10 (bName j (.expr n e)))
        (vOf (.expr n e)) dbss_chars hcond
      show SegStepG _ (attrQ (f10 (bName j (.expr n e))) (vOf (.expr n e)))
        (attrQ (f11 (bName j (.expr n e))) (vOf (.expr n e)))
      have hf : f11 (bName j (.expr n e))
          = stepName (swapP pairST) (f10 (bName j (.expr n e))) := rfl
      rw [hf]
      exact hstep
  | spread e =>
      simp only [fullCond, Bool.and_eq_true] at hc
      obtain ⟨⟨⟨⟨⟨⟨⟨⟨⟨he, hbr⟩, hfree⟩, hchain⟩, hf8⟩, hdigall⟩, hdigne⟩, hgje⟩, hsty⟩,
        hpay⟩ := hc
      have hsty' : tokClearIn ((swapP pairST).1 ++ ['=']) (bracesSeg e) = true := by
        rw [dbss_tok_eq]
        exact hsty
      show SegStepG _ (bracesSeg e) (bracesSeg e)
      exact tokTry_clear_step _ _ _ dbss_chars hsty'
  | lit n v =>
      simp only [fullCond, Bool.and_eq_true] at hc
      obtain ⟨⟨⟨⟨⟨⟨hne, hword⟩, hfree⟩, hv⟩, hchain⟩, hf11⟩, hpay⟩ := hc
      simp only [chainCondQ, Bool.and_eq_true] at hchain
      have hcond : tokCondQ (swapP pairST) (f10 (bName j (.lit n v)))
          (vOf (.lit n v)) = true := by
        have := hchain.2
        rw [nameCondsF, Bool.and_eq_true] at this
        exact this.1
      have hstep := tokCondQ_step (swapP pairST) (f10 (bName j (.lit n v)))
        (vOf (.lit n v)) dbss_chars hcond
      show SegStepG _ (attrQ (f10 (bName j (.lit n v))) (vOf (.lit n v)))
        (attrQ (f11 (bName j (.lit n v))) (vOf (.lit n v)))
      have hf : f11 (bName j (.lit n v))
          = stepName (swapP pairST) (f10 (bName j (.lit n v))) := rfl
      rw [hf]
      exact hstep

theorem attr_step12 (j : Nat) (a : SvgAttr) (hc : fullCond j a = true) :
    SegStepG payloadRevTry (rB f11 j a) (renderAttr0 a) := by
  cases a with
  | expr n e =>
      simp only [fullCond, Bool.and_eq_true] at hc
      obtain ⟨⟨⟨⟨hne, hword⟩, hclosed⟩, hchain⟩, hf11⟩ := hc
      have hf11' : f11 n = n := eq_of_beq hf11
      have hnne : ¬(n = []) := by
        intro hcon
        rw [hcon] at hne
        simp at hne
      show SegStepG payloadRevTry (attrQ (f11 (bName j (.expr n e))) (vOf (.expr n e)))
        (renderAttr0 (.expr n e))
      have hbn : bName j (.expr n e) = n := rfl
      rw [hbn, hf11']
      have hout : renderAttr0 (.expr n e) = ' ' :: (n ++ '=' :: '{' :: (e ++ ['}'])) := rfl
      rw [hout]
      exact payloadRev_attr_hit n e hnne (List.all_eq_true.mp hword)
  | spread e =>
      simp only [fullCond, Bool.and_eq_true] at hc
      obtain ⟨⟨⟨⟨⟨⟨⟨⟨⟨he, hbr⟩, hfree⟩, hchain⟩, hf8⟩, hdigall⟩, hdigne⟩, hgje⟩, hsty⟩,
        hpay⟩ := hc
      show SegStepG payloadRevTry (bracesSeg e) (bracesSeg e)
      exact payloadRev_clear_step _ hpay
  | lit n v =>
      simp only [fullCond, Bool.and_eq_true] at hc
      obtain ⟨⟨⟨⟨⟨⟨hne, hword⟩, hfree⟩, hv⟩, hchain⟩, hf11⟩, hpay⟩ := hc
      have hf11' : f11 n = n := eq_of_beq hf11
      show SegStepG payloadRevTry (attrQ (f11 (bName j (.lit n v))) (vOf (.lit n v)))
        (renderAttr0 (.lit n v))
      have hbn : bName j (.lit n v) = n := rfl
      rw [hbn]
      have hout : renderAttr0 (.lit n v) = attrQ n v := rfl
      rw [hout]
      have hpay' : payloadClearIn (attrQ (f11 n) v) = true := hpay
      rw [hf11'] at hpay' ⊢
      exact payloadRev_clear_step _ hpay'


theorem tagCond_parts (tag : List Char) (ht : tagCond tag = true) :
    (∀ c ∈ tag, isWordChar c = true) ∧
    (∀ p ∈ allPassPairs, tokClearIn (p.1 ++ ['=']) ('<' :: tag) = true) ∧
    eventClearIn ('<' :: tag) = true ∧
    tokClearIn GSP ('<' :: tag) = true ∧
    tokClearIn GJE ('<' :: tag) = true ∧
    payloadClearIn ('<' :: tag) = true := by
  unfold tagCond at ht
  rw [Bool.and_eq_true] at ht
  obtain ⟨hw, hs⟩ := ht
  unfold segAllClear at hs
  simp only [Bool.and_eq_true] at hs
  obtain ⟨⟨⟨⟨htoks, hev⟩, hgsp⟩, hgje⟩, hpay⟩ := hs
  exact ⟨List.all_eq_true.mp hw, List.all_eq_true.mp htoks, hev, hgsp, hgje, hpay⟩

theorem close_clear_facts :
    eventClearIn ['/', '>'] = true ∧ tokClearIn GSP ['/', '>'] = true ∧
    tokClearIn GJE ['/', '>'] = true ∧ payloadClearIn ['/', '>'] = true := by
  decide

theorem subPairs1 : ∀ p ∈ (pairCN :: jsxSvgPairs), p ∈ allPassPairs := by
  intro p hp
  unfold allPassPairs
  simp only [List.mem_cons, List.mem_append, List.mem_singleton] at hp ⊢
  tauto

theorem subPairs2 : ∀ p ∈ ([pairST] : List (List Char × List Char)), p ∈ allPassPairs := by
  intro p hp
  unfold allPassPairs
  simp only [List.mem_cons, List.mem_append, List.mem_singleton] at hp ⊢
  tauto

theorem subPairs3 : ∀ p ∈ (swapP pairCN :: svgJsxPairs), p ∈ allPassPairs := by
  intro p hp
  unfold allPassPairs
  simp only [List.mem_cons, List.mem_append, List.mem_singleton] at hp ⊢
  tauto

theorem foldps_facts (tag : List Char) (ht : tagCond tag = true)
    (ps : List (List Char × List Char)) (hsub : ∀ p ∈ ps, p ∈ allPassPairs) :
    ∀ p ∈ ps, (∀ c ∈ p.1 ++ ['='], c ≠ ' ' ∧ c ≠ '/') ∧
      tokClearIn (p.1 ++ ['=']) ('<' :: tag) = true ∧
      tokClearIn (p.1 ++ ['=']) ['/', '>'] = true := by
  intro p hp
  have h1 := allPassPairs_facts p (hsub p hp)
  have h2 := (tagCond_parts tag ht).2.1 p (hsub p hp)
  exact ⟨h1.1, h2, h1.2⟩

/-- One driver pass over a whole rendered element text, with per-attribute
stage renderers. -/
theorem pass_text (m : Option Char → List Char → Option (Nat × List Char))
    (tag : List Char) (attrs : List SvgAttr)
    (segf1 segf2 : Nat → SvgAttr → List Char)
    (hstep : ∀ q ∈ withIdx 0 attrs,
      SegStepG m (segf1 q.2 q.1) (segf2 q.2 q.1) ∧ safeHead (segf1 q.2 q.1))
    (htag : SegStepG m ('<' :: tag) ('<' :: tag))
    (hclose : SegStepG m ['/', '>'] ['/', '>']) :
    replRun m none (textOf tag ((withIdx 0 attrs).map (fun q => segf1 q.2 q.1)))
      = textOf tag ((withIdx 0 attrs).map (fun q => segf2 q.2 q.1)) := by
  have h := replRun_text m tag
    ((withIdx 0 attrs).map (fun q => (segf1 q.2 q.1, segf2 q.2 q.1)))
    (by
      intro p hp
      simp only [List.mem_map] at hp
      obtain ⟨q, hq, hpe⟩ := hp
      subst hpe
      exact hstep q hq)
    htag hclose
  simp only [List.map_map] at h
  exact h

theorem foldName_cons (p : List Char × List Char) (ps : List (List Char × List Char))
    (b : List Char) : foldName (p :: ps) b = foldName ps (stepName p b) := by
  unfold foldName
  rw [List.foldl_cons]

theorem map_attrQ_in (φ : SvgAttr × Nat → List Char) (l : List (SvgAttr × Nat)) :
    List.map (fun kv : List Char × List Char => attrQ kv.1 kv.2)
      (List.map (fun q : SvgAttr × Nat => (φ q, vOf q.1)) l)
    = List.map (fun q => attrQ (φ q) (vOf q.1)) l := by
  rw [List.map_map]
  rfl

theorem map_attrQ_out (g : List Char → List Char) (φ : SvgAttr × Nat → List Char)
    (l : List (SvgAttr × Nat)) :
    List.map (fun kv : List Char × List Char => attrQ (g kv.1) kv.2)
      (List.map (fun q : SvgAttr × Nat => (φ q, vOf q.1)) l)
    = List.map (fun q => attrQ (g (φ q)) (vOf q.1)) l := by
  rw [List.map_map]
  rfl

theorem lam0 : (fun q : SvgAttr × Nat => attrQ (bName q.2 q.1) (vOf q.1))
    = fun q : SvgAttr × Nat => rQ id q.2 q.1 := by
  funext q
  rfl

theorem lam4 : (fun q : SvgAttr × Nat =>
      attrQ (foldName (pairCN :: jsxSvgPairs) (bName q.2 q.1)) (vOf q.1))
    = fun q : SvgAttr × Nat => rQ f4 q.2 q.1 := by
  funext q
  rw [foldName_cons]
  rfl

theorem foldName_nil (b : List Char) : foldName [] b = b := rfl

theorem lam6 : (fun q : SvgAttr × Nat =>
      attrQ (foldName [pairST] (f5 (bName q.2 q.1))) (vOf q.1))
    = fun q : SvgAttr × Nat => rQ f6 q.2 q.1 := by
  funext q
  rw [foldName_cons, foldName_nil]
  rfl

theorem lam8 : (fun q : SvgAttr × Nat =>
      attrQ (foldName (swapP pairCN :: svgJsxPairs) (f6 (bName q.2 q.1))) (vOf q.1))
    = fun q : SvgAttr × Nat => rQ f8 q.2 q.1 := by
  funext q
  rw [foldName_cons]
  rfl

/-- The `className=` pass followed by the dictionary pass. -/
theorem pass34_text (tag : List Char) (attrs : List SvgAttr)
    (ht : tagCond tag = true)
    (hattrs : ∀ q ∈ withIdx 0 attrs, fullCond q.2 q.1 = true) :
    jsxSvgPairs.foldl (fun acc p => replTok (p.1 ++ ['=']) (p.2 ++ ['=']) acc)
        (replTok "className=".data "class=".data
          (textOf tag ((withIdx 0 attrs).map (fun q => rQ id q.2 q.1))))
      = textOf tag ((withIdx 0 attrs).map (fun q => rQ f4 q.2 q.1)) := by
  have h := foldTok_text tag (pairCN :: jsxSvgPairs)
    ((withIdx 0 attrs).map (fun q => (bName q.2 q.1, vOf q.1)))
    (foldps_facts tag ht _ subPairs1)
    (by
      intro kv hkv
      simp only [List.mem_map] at hkv
      obtain ⟨q, hq, hke⟩ := hkv
      subst hke
      exact attr_conds1 q.2 q.1 (hattrs q hq))
  rw [List.foldl_cons] at h
  rw [show pairCN.1 ++ ['='] = "className=".data from by decide] at h
  rw [show pairCN.2 ++ ['='] = "class=".data from by decide] at h
  rw [map_attrQ_in (fun q => bName q.2 q.1),
    map_attrQ_out (foldName (pairCN :: jsxSvgPairs)) (fun q => bName q.2 q.1)] at h
  rw [lam0, lam4] at h
  exact h


theorem lam5 : (fun q : SvgAttr × Nat => attrQ (f5 (bName q.2 q.1)) (vOf q.1))
    = fun q : SvgAttr × Nat => rQ f5 q.2 q.1 := by
  funext q
  rfl

theorem lam7 : (fun q : SvgAttr × Nat => attrQ (f6 (bName q.2 q.1)) (vOf q.1))
    = fun q : SvgAttr × Nat => rQ f6 q.2 q.1 := by
  funext q
  rfl

/-- The event-handler pass. -/
theorem pass5_text (tag : List Char) (attrs : List SvgAttr)
    (ht : tagCond tag = true)
    (hattrs : ∀ q ∈ withIdx 0 attrs, fullCond q.2 q.1 = true) :
    replRun eventFwdTry none
        (textOf tag ((withIdx 0 attrs).map (fun q => rQ f4 q.2 q.1)))
      = textOf tag ((withIdx 0 attrs).map (fun q => rQ f5 q.2 q.1)) :=
  pass_text eventFwdTry tag attrs (rQ f4) (rQ f5)
    (fun q hq => ⟨attr_step5 q.2 q.1 (hattrs q hq), safeHead_rQ f4 q.2 q.1⟩)
    (eventFwd_clear_step _ (tagCond_parts tag ht).2.2.1)
    (eventFwd_clear_step _ close_clear_facts.1)

/-- The `style=` pass. -/
theorem pass6_text (tag : List Char) (attrs : List SvgAttr)
    (ht : tagCond tag = true)
    (hattrs : ∀ q ∈ withIdx 0 attrs, fullCond q.2 q.1 = true) :
    replTok "style=".data "data-better-svg-style=".data
        (textOf tag ((withIdx 0 attrs).map (fun q => rQ f5 q.2 q.1)))
      = textOf tag ((withIdx 0 attrs).map (fun q => rQ f6 q.2 q.1)) := by
  have h := foldTok_text tag [pairST]
    ((withIdx 0 attrs).map (fun q => (f5 (bName q.2 q.1), vOf q.1)))
    (foldps_facts tag ht _ subPairs2)
    (by
      intro kv hkv
      simp only [List.mem_map] at hkv
      obtain ⟨q, hq, hke⟩ := hkv
      subst hke
      dsimp only
      exact attr_conds3 q.2 q.1 (hattrs q hq))
  rw [List.foldl_cons, List.foldl_nil] at h
  rw [show pairST.1 ++ ['='] = "style=".data from by decide] at h
  rw [show pairST.2 ++ ['='] = "data-better-svg-style=".data from by decide] at h
  rw [map_attrQ_in (fun q => f5 (bName q.2 q.1)),
    map_attrQ_out (foldName [pairST]) (fun q => f5 (bName q.2 q.1))] at h
  rw [lam5, lam6] at h
  exact h

/-- The reverse `class=` pass followed by the reverse dictionary pass. -/
theorem pass78_text (tag : List Char) (attrs : List SvgAttr)
    (ht : tagCond tag = true)
    (hattrs : ∀ q ∈ withIdx 0 attrs, fullCond q.2 q.1 = true) :
    svgJsxPairs.foldl (fun acc p => replTok (p.1 ++ ['=']) (p.2 ++ ['=']) acc)
        (replTok "class=".data "className=".data
          (textOf tag ((withIdx 0 attrs).map (fun q => rQ f6 q.2 q.1))))
      = textOf tag ((withIdx 0 attrs).map (fun q => rQ f8 q.2 q.1)) := by
  have h := foldTok_text tag (swapP pairCN :: svgJsxPairs)
    ((withIdx 0 attrs).map (fun q => (f6 (bName q.2 q.1), vOf q.1)))
    (foldps_facts tag ht _ subPairs3)
    (by
      intro kv hkv
      simp only [List.mem_map] at hkv
      obtain ⟨q, hq, hke⟩ := hkv
      subst hke
      dsimp only
      exact attr_conds4 q.2 q.1 (hattrs q hq))
  rw [List.foldl_cons] at h
  rw [show (swapP pairCN).1 ++ ['='] = "class=".data from by decide] at h
  rw [show (swapP pairCN).2 ++ ['='] = "className=".data from by decide] at h
  rw [map_attrQ_in (fun q => f6 (bName q.2 q.1)),
    map_attrQ_out (foldName (swapP pairCN :: svgJsxPairs)) (fun q => f6 (bName q.2 q.1))] at h
  rw [lam7, lam8] at h
  exact h

/-- The spread-restoration pass. -/
theorem pass9_text (tag : List Char) (attrs : List SvgAttr)
    (ht : tagCond tag = true)
    (hattrs : ∀ q ∈ withIdx 0 attrs, fullCond q.2 q.1 = true) :
    replRun spreadRevTry none
        (textOf tag ((withIdx 0 attrs).map (fun q => rQ f8 q.2 q.1)))
      = textOf tag ((withIdx 0 attrs).map (fun q => rB f8 q.2 q.1)) :=
  pass_text spreadRevTry tag attrs (rQ f8) (rB f8)
    (fun q hq => ⟨attr_step9 q.2 q.1 (hattrs q hq), safeHead_rQ f8 q.2 q.1⟩)
    (spreadRev_clear_step _ (tagCond_parts tag ht).2.2.2.1)
    (spreadRev_clear_step _ close_clear_facts.2.1)

/-- The reverse event-handler pass. -/
theorem pass10_text (tag : List Char) (attrs : List SvgAttr)
    (ht : tagCond tag = true)
    (hattrs : ∀ q ∈ withIdx 0 attrs, fullCond q.2 q.1 = true) :
    replRun eventRevTry none
        (textOf tag ((withIdx 0 attrs).map (fun q => rB f8 q.2 q.1)))
      = textOf tag ((withIdx 0 attrs).map (fun q => rB f10 q.2 q.1)) :=
  pass_text eventRevTry tag attrs (rB f8) (rB f10)
    (fun q hq => ⟨attr_step10 q.2 q.1 (hattrs q hq), safeHead_rB f8 q.2 q.1⟩)
    (eventRev_clear_step _ (tagCond_parts tag ht).2.2.2.2.1)
    (eventRev_clear_step _ close_clear_facts.2.2.1)

theorem mem_dbss_allPassPairs : swapP pairST ∈ allPassPairs := by
  unfold allPassPairs
  simp

/-- The reverse `style=` pass. -/
theorem pass11_text (tag : List Char) (attrs : List SvgAttr)
    (ht : tagCond tag = true)
    (hattrs : ∀ q ∈ withIdx 0 attrs, fullCond q.2 q.1 = true) :
    replTok "data-better-svg-style=".data "style=".data
        (textOf tag ((withIdx 0 attrs).map (fun q => rB f10 q.2 q.1)))
      = textOf tag ((withIdx 0 attrs).map (fun q => rB f11 q.2 q.1)) := by
  have h := pass_text
    (tokTry ((swapP pairST).1 ++ ['=']) ((swapP pairST).2 ++ ['=']))
    tag attrs (rB f10) (rB f11)
    (fun q hq => ⟨attr_step11 q.2 q.1 (hattrs q hq), safeHead_rB f10 q.2 q.1⟩)
    (tokTry_clear_step _ _ _ dbss_chars
      ((tagCond_parts tag ht).2.1 _ mem_dbss_allPassPairs))
    (tokTry_clear_step _ _ _ dbss_chars
      ((allPassPairs_facts _ mem_dbss_allPassPairs).2))
  rw [dbss_tok_eq] at h
  rw [show (swapP pairST).2 ++ ['='] = "style=".data from by decide] at h
  unfold replTok
  exact h

theorem text_render0 (tag : List Char) (attrs : List SvgAttr) :
    textOf tag ((withIdx 0 attrs).map (fun q => renderAttr0 q.1))
      = render0 tag attrs := by
  unfold render0
  congr 1
  have : (fun q : SvgAttr × Nat => renderAttr0 q.1)
      = (renderAttr0 ∘ Prod.fst) := rfl
  rw [this, ← List.map_map, withIdx_fst]

/-- The payload-decode pass: everything returns to the authoring form. -/
theorem pass12_text (tag : List Char) (attrs : List SvgAttr)
    (ht : tagCond tag = true)
    (hattrs : ∀ q ∈ withIdx 0 attrs, fullCond q.2 q.1 = true) :
    replRun payloadRevTry none
        (textOf tag ((withIdx 0 attrs).map (fun q => rB f11 q.2 q.1)))
      = render0 tag attrs := by
  have h := pass_text payloadRevTry tag attrs (rB f11) (fun _ a => renderAttr0 a)
    (fun q hq => ⟨attr_step12 q.2 q.1 (hattrs q hq), safeHead_rB f11 q.2 q.1⟩)
    (payloadRev_clear_step _ (tagCond_parts tag ht).2.2.2.2.2)
    (payloadRev_clear_step _ close_clear_facts.2.2.2)
  rw [h]
  exact text_render0 tag attrs


/-- C1 (amended): for every element text rendered from the attribute grammar
that passes the conservative `wellFormed` checks — a word-character tag name,
expression attributes whose braces the scanner closes, spread expressions
without `\x7d`, and no attribute whose rendered or encoded form can collide
with a pass token, an event-handler pattern, a spread marker or an encoded
payload pattern — converting to SVG and back to JSX returns the original
text. -/
theorem roundtrip_amended (tag : List Char) (attrs : List SvgAttr)
    (h : wellFormed tag attrs = true) :
    convertSvgToJsx (convertJsxToSvg (render0 tag attrs)) = render0 tag attrs := by
  have hparts : tagCond tag = true ∧
      ∀ q ∈ withIdx 0 attrs, fullCond q.2 q.1 = true := by
    unfold wellFormed at h
    rw [Bool.and_eq_true] at h
    exact ⟨h.1, List.all_eq_true.mp h.2⟩
  obtain ⟨ht, ha⟩ := hparts
  simp only [convertJsxToSvg, convertSvgToJsx]
  rw [pass1_text tag attrs (tagCond_parts tag ht).1 ha,
    pass2_text tag attrs (tagCond_parts tag ht).1 ha,
    pass34_text tag attrs ht ha,
    pass5_text tag attrs ht ha,
    pass6_text tag attrs ht ha,
    pass78_text tag attrs ht ha,
    pass9_text tag attrs ht ha,
    pass10_text tag attrs ht ha,
    pass11_text tag attrs ht ha,
    pass12_text tag attrs ht ha]


set_option maxRecDepth 100000 in
set_option maxHeartbeats 1000000 in
theorem roundtrip_amended_witness :
    wellFormed "e".data
        [SvgAttr.expr "onClick".data "() => go(1)".data, SvgAttr.spread "p".data,
          SvgAttr.lit "className".data "c".data,
          SvgAttr.expr "strokeWidth".data "2".data,
          SvgAttr.lit "style".data "x:y".data] = true ∧
      convertSvgToJsx (convertJsxToSvg (render0 "e".data
          [SvgAttr.expr "onClick".data "() => go(1)".data, SvgAttr.spread "p".data,
            SvgAttr.lit "className".data "c".data,
            SvgAttr.expr "strokeWidth".data "2".data,
            SvgAttr.lit "style".data "x:y".data]))
        = render0 "e".data
          [SvgAttr.expr "onClick".data "() => go(1)".data, SvgAttr.spread "p".data,
            SvgAttr.lit "className".data "c".data,
            SvgAttr.expr "strokeWidth".data "2".data,
            SvgAttr.lit "style".data "x:y".data] :=
  ⟨by decide, roundtrip_amended "e".data
    [SvgAttr.expr "onClick".data "() => go(1)".data, SvgAttr.spread "p".data,
      SvgAttr.lit "className".data "c".data,
      SvgAttr.expr "strokeWidth".data "2".data,
      SvgAttr.lit "style".data "x:y".data] (by decide)⟩

end BetterSvg
